import Mathlib

/-!
Verification development for the LegacyBridge RTF/Markdown conversion library.

The repository's visible material is the C-callable boundary
(`include/legacybridge.h`, both copies) plus `dlopen`-based test drivers; the
conversion engine itself is not part of the visible source set.  Following the
specification, the engine (parsers, intermediate document model, emitters,
table/CSV bridge, template engine, batch driver, FFI error layer) is modelled
here from the specification text, and the behavioural claims are settled
against that model.

All string processing is done over `List Char`; `String` appears only at the
outermost API boundary.  All recursive functions are either structural or
carry an explicit fuel argument, so every definition is executable and
kernel-reducible.
-/

namespace LegacyBridge

/-! ## Basic characters and helpers -/

/-- The opening brace character, written via its code point. -/
def obrace : Char := Char.ofNat 123

/-- The closing brace character, written via its code point. -/
def cbrace : Char := Char.ofNat 125

/-- Backslash, the RTF escape character. -/
def bslash : Char := '\\'

/-- Convert a string literal to the character-list representation used
throughout the model. -/
def str (s : String) : List Char := s.toList

/-- Count occurrences of a character in a character list. -/
def countChar (c : Char) : List Char → Nat
  | [] => 0
  | d :: ds => (if d = c then 1 else 0) + countChar c ds

/-- Does `pat` occur at the head of `s`? -/
def leadsWith : List Char → List Char → Bool
  | [], _ => true
  | _ :: _, [] => false
  | p :: ps, c :: cs => p = c && leadsWith ps cs

/-! ## Intermediate document model

Modelled from the spec: section 3 "DATA MODEL" gives the IR as two tagged
variants, Block and Inline; the conversion engine holding them is absent from
the visible source set. -/

/-- IR inline node: `Text`, `Emphasis`, `Strong`, `Code`, `Link`, `LineBreak`
(spec section 3, "IR Inline"). -/
inductive Inline where
  | text (s : List Char)
  | emph (xs : List Inline)
  | strong (xs : List Inline)
  | code (s : List Char)
  | link (display url : List Char)
  | lineBreak
  deriving Repr

/-- IR block node: `Heading`, `Paragraph`, `CodeBlock`, `BlockQuote`, `List`,
`Table`, `ThematicBreak` (spec section 3, "IR Block").  A list item is an
ordered sequence of blocks; a table row is an ordered sequence of cells and a
cell an ordered sequence of blocks. -/
inductive Block where
  | heading (level : Nat) (content : List Inline)
  | para (content : List Inline)
  | codeBlock (lang : Option (List Char)) (body : List Char)
  | quote (blocks : List Block)
  | blist (ordered : Bool) (items : List (List Block))
  | table (rows : List (List (List Block)))
  | hrule
  deriving Repr

/-- A document is an ordered sequence of blocks. -/
abbrev Doc := List Block

/-! ## Semantic normalisation of the IR

Modelled from the spec: the round-trip contract is "semantic equality, not
necessarily literal text equality" (spec sections 1 and 8), and the RTF
emitter tracks the active formatting state so that only state deltas are
emitted (spec section 4.4).  The normal form below is precisely that
formatting-state semantics: redundant nested emphasis collapses, empty text
runs vanish, and adjacent text runs merge. -/

/-- Active inline formatting state (bold/italic flags, spec sections 3, 4.4). -/
structure Fmt where
  bold : Bool
  italic : Bool
  deriving Repr, DecidableEq

/-- The initial formatting state: nothing active. -/
def Fmt.none : Fmt := ⟨false, false⟩

/-- Merge adjacent text runs and drop empty ones. -/
def mergeTexts : List Inline → List Inline
  | [] => []
  | .text s :: rest =>
    match mergeTexts rest with
    | .text t :: r => if s ++ t = [] then r else .text (s ++ t) :: r
    | r => if s = [] then r else .text s :: r
  | x :: rest => x :: mergeTexts rest

mutual

/-- Normalise one inline node under a formatting state; redundant emphasis
nodes are spliced away, matching delta-style emission. -/
def normI (st : Fmt) : Inline → List Inline
  | .text s => if s = [] then [] else [.text s]
  | .emph xs =>
    if st.italic then normL st xs
    else [.emph (mergeTexts (normL { st with italic := true } xs))]
  | .strong xs =>
    if st.bold then normL st xs
    else [.strong (mergeTexts (normL { st with bold := true } xs))]
  | .code s => [.code s]
  | .link d u => [.link d u]
  | .lineBreak => [.lineBreak]

/-- Normalise an inline sequence under a formatting state (element step,
before text merging). -/
def normL (st : Fmt) : List Inline → List Inline
  | [] => []
  | x :: xs => normI st x ++ normL st xs

end

/-- Full inline normalisation: structural normalisation then text merging. -/
def normInls (st : Fmt) (xs : List Inline) : List Inline :=
  mergeTexts (normL st xs)

mutual

/-- Normalise one block. -/
def normB : Block → Block
  | .heading l xs => .heading l (normInls Fmt.none xs)
  | .para xs => .para (normInls Fmt.none xs)
  | .codeBlock lang body => .codeBlock lang body
  | .quote bs => .quote (normBs bs)
  | .blist o items => .blist o (normBss items)
  | .table rows => .table (normBsss rows)
  | .hrule => .hrule

/-- Normalise a block sequence. -/
def normBs : List Block → List Block
  | [] => []
  | b :: bs => normB b :: normBs bs

/-- Normalise a sequence of block sequences (list items, table cells). -/
def normBss : List (List Block) → List (List Block)
  | [] => []
  | bs :: rest => normBs bs :: normBss rest

/-- Normalise a sequence of table rows. -/
def normBsss : List (List (List Block)) → List (List (List Block))
  | [] => []
  | row :: rest => normBss row :: normBsss rest

end

/-- Normalise a document. -/
def normDoc (d : Doc) : Doc := normBs d

/-- Semantic equivalence of IR documents: equal normal forms (spec section 8,
"semantic equality, not necessarily literal text equality"). -/
def irEquiv (a b : Doc) : Prop := normDoc a = normDoc b

/-! ### Normal-form predicate

`nfL st xs` says: every element is normal under state `st`, no text run is
empty, and no two text runs are adjacent.  Normalisation lands in this set and
is the identity on it, which gives idempotence. -/

mutual

/-- Is one inline node in normal form under a formatting state? -/
def nfI (st : Fmt) : Inline → Bool
  | .text s => !(s = [])
  | .emph xs => !st.italic && nfL { st with italic := true } xs
  | .strong xs => !st.bold && nfL { st with bold := true } xs
  | .code _ => true
  | .link _ _ => true
  | .lineBreak => true

/-- Is an inline sequence in normal form (elementwise normal, no empty text,
no adjacent text runs)? -/
def nfL (st : Fmt) : List Inline → Bool
  | [] => true
  | x :: xs =>
    nfI st x && nfL st xs &&
      (match x, xs with
       | .text _, .text _ :: _ => false
       | _, _ => true)

end

/-- Elementwise normality before text merging: text runs are unrestricted,
every other node is in normal form. -/
def okI (st : Fmt) : Inline → Bool
  | .text _ => true
  | x => nfI st x

/-! ## Markdown parser

Modelled from the spec: section 4.2 describes the missing Markdown parser as
a line-oriented block scan (leading-marker classification) over an inline
scan with greedy delimiter pairing; unmatched delimiters degrade to literal
text. -/

/-- Split a character list into lines at newline characters. -/
def splitLines : List Char → List (List Char)
  | [] => [[]]
  | c :: cs =>
    if c = '\n' then [] :: splitLines cs
    else
      match splitLines cs with
      | l :: ls => (c :: l) :: ls
      | [] => [[c]]

/-- Join lines with newline characters (inverse direction of `splitLines`). -/
def joinLines : List (List Char) → List Char
  | [] => []
  | [l] => l
  | l :: ls => l ++ '\n' :: joinLines ls

/-- Count the leading occurrences of a character. -/
def countLeading (c : Char) : List Char → Nat
  | [] => 0
  | d :: ds => if d = c then countLeading c ds + 1 else 0

/-- Drop leading spaces. -/
def trimL (l : List Char) : List Char := l.dropWhile (· = ' ')

/-- Drop trailing spaces. -/
def trimR (l : List Char) : List Char := (trimL l.reverse).reverse

/-- Drop leading and trailing spaces. -/
def trim (l : List Char) : List Char := trimR (trimL l)

/-- Does the character occur in the list? -/
def hasChar (c : Char) (l : List Char) : Bool := l.any (· = c)

/-- Split a character list at every occurrence of a delimiter. -/
def splitOn (d : Char) : List Char → List (List Char)
  | [] => [[]]
  | c :: cs =>
    if c = d then [] :: splitOn d cs
    else
      match splitOn d cs with
      | l :: ls => (c :: l) :: ls
      | [] => [[c]]

/-- Scan for the next single-character closing delimiter; return the content
before it and the remainder after it. -/
def findClose (d : Char) : List Char → Option (List Char × List Char)
  | [] => none
  | c :: cs =>
    if c = d then some ([], cs)
    else (findClose d cs).map fun p => (c :: p.1, p.2)

/-- Scan for the next `**` double delimiter; return the content before it and
the remainder after it. -/
def findStrong : List Char → Option (List Char × List Char)
  | [] => none
  | [_] => none
  | c :: c2 :: cs =>
    if c = '*' && c2 = '*' then some ([], cs)
    else (findStrong (c2 :: cs)).map fun p => (c :: p.1, p.2)

/-- Prepend one literal character to an inline sequence, merging into a
leading text run. -/
def consText (c : Char) : List Inline → List Inline
  | .text s :: rest => .text (c :: s) :: rest
  | rest => .text [c] :: rest

/-- Inline scan (spec section 4.2): left-to-right with precedence among
`**`, `*`, backtick, `[...](...)` and backslash escapes; the first opening
delimiter pairs greedily with the nearest closer of matching strength, and
unmatched delimiters degrade to literal text.  The fuel argument dominates
the recursion into delimited substrings. -/
def inlsF : Nat → List Char → List Inline
  | 0, cs => if cs = [] then [] else [.text cs]
  | _ + 1, [] => []
  | f + 1, c :: cs =>
    if c = bslash then
      match cs with
      | d :: cs2 => consText d (inlsF f cs2)
      | [] => [.text [c]]
    else if c = '*' then
      match cs with
      | c2 :: cs2 =>
        if c2 = '*' then
          match findStrong cs2 with
          | some (inner, rest) => .strong (inlsF f inner) :: inlsF f rest
          | none => consText c (consText c2 (inlsF f cs2))
        else
          match findClose '*' cs with
          | some (inner, rest) => .emph (inlsF f inner) :: inlsF f rest
          | none => consText c (inlsF f cs)
      | [] => [.text [c]]
    else if c = '`' then
      match findClose '`' cs with
      | some (inner, rest) => .code inner :: inlsF f rest
      | none => consText c (inlsF f cs)
    else if c = '[' then
      match findClose ']' cs with
      | some (disp, rest1) =>
        match rest1 with
        | '(' :: rest2 =>
          match findClose ')' rest2 with
          | some (url, rest3) => .link disp url :: inlsF f rest3
          | none => consText c (inlsF f cs)
        | _ => consText c (inlsF f cs)
      | none => consText c (inlsF f cs)
    else consText c (inlsF f cs)

/-- Parse an inline run with sufficient fuel. -/
def parseInls (cs : List Char) : List Inline := inlsF (cs.length + 1) cs

/-- Is the line a bulleted list line (`-`, `*` or `+` followed by a space)? -/
def isBulletLine (l : List Char) : Bool :=
  match l with
  | c :: ' ' :: _ => c = '-' || c = '*' || c = '+'
  | _ => false

/-- Is the line an ordered list line (digits, then `.`, then a space)? -/
def isOrderedLine (l : List Char) : Bool :=
  match l.dropWhile (·.isDigit) with
  | '.' :: ' ' :: _ => l.takeWhile (·.isDigit) ≠ []
  | _ => false

/-- Is the line any list line? -/
def isListLine (l : List Char) : Bool := isBulletLine l || isOrderedLine l

/-- The content of a list line, after its marker. -/
def listContent (l : List Char) : List Char :=
  if isBulletLine l then trim (l.drop 2)
  else trim ((l.dropWhile (·.isDigit)).drop 2)

/-- Is the line a table separator row (dashes/colons/pipes/spaces containing
a dash)? -/
def isSepRow (l : List Char) : Bool :=
  let t := trim l
  t ≠ [] && t.all (fun c => c = '-' || c = ':' || c = '|' || c = ' ') &&
    hasChar '-' t

/-- Split a table line into trimmed cell texts, ignoring an outer pair of
pipes. -/
def rowCells (l : List Char) : List (List Char) :=
  let t := trim l
  let t1 := match t with
    | '|' :: rest => rest
    | _ => t
  let t2 := match t1.reverse with
    | '|' :: rest => rest.reverse
    | _ => t1
  (splitOn '|' t2).map trim

/-- Strip the leading `>` (and one following space) from a block-quote line. -/
def stripQuote (l : List Char) : List Char :=
  match l with
  | '>' :: ' ' :: rest => rest
  | '>' :: rest => rest
  | rest => rest

/-- Block scan (spec section 4.2): line-oriented classification by leading
marker; heading hashes, block quotes (recursively parsed), fenced code
blocks, list-marker runs, a header row followed by a separator row forming a
table, and ordinary paragraphs otherwise.  Fuel dominates the recursion. -/
def blocksF : Nat → List (List Char) → List Block
  | 0, _ => []
  | _ + 1, [] => []
  | f + 1, line :: rest =>
    let t := trim line
    if t = [] then blocksF f rest
    else if t = str "---" then .hrule :: blocksF f rest
    else if countLeading '#' t ≥ 1 && countLeading '#' t ≤ 6 &&
        (t.drop (countLeading '#' t) = [] ||
          (t.drop (countLeading '#' t)).headD ' ' = ' ') then
      let k := countLeading '#' t
      .heading k (parseInls (trim (t.drop k))) :: blocksF f rest
    else if t.headD ' ' = '>' then
      let qlines := (line :: rest).takeWhile (fun l => (trim l).headD ' ' = '>')
      let remaining := (line :: rest).dropWhile (fun l => (trim l).headD ' ' = '>')
      .quote (blocksF f (qlines.map (fun l => stripQuote (trimL l)))) ::
        blocksF f remaining
    else if leadsWith (str "```") t then
      let lang := trim (t.drop 3)
      let body := rest.takeWhile (fun l => !leadsWith (str "```") (trim l))
      let after := rest.dropWhile (fun l => !leadsWith (str "```") (trim l))
      .codeBlock (if lang = [] then none else some lang) (joinLines body) ::
        blocksF f (after.drop 1)
    else if isListLine t then
      let o := isOrderedLine t
      let items := (line :: rest).takeWhile
        (fun l => isListLine (trim l) && isOrderedLine (trim l) = o)
      let remaining := (line :: rest).dropWhile
        (fun l => isListLine (trim l) && isOrderedLine (trim l) = o)
      .blist o (items.map (fun l => [Block.para (parseInls (listContent (trim l)))])) ::
        blocksF f remaining
    else if hasChar '|' t && isSepRow ((rest.headD [])) then
      let dataLines := (rest.drop 1).takeWhile (fun l => hasChar '|' l)
      let remaining := (rest.drop 1).dropWhile (fun l => hasChar '|' l)
      let mkRow := fun (l : List Char) =>
        (rowCells l).map (fun cell => [Block.para (parseInls cell)])
      .table (mkRow t :: dataLines.map mkRow) :: blocksF f remaining
    else .para (parseInls t) :: blocksF f rest

/-- Fuel bound for the block scan. -/
def mdFuel (lines : List (List Char)) : Nat :=
  2 * (lines.length + (lines.map (·.length)).sum) + 2

/-- Parse a Markdown document (spec sections 4.2, 4.3): block scan over
split lines. -/
def parseMarkdownDoc (cs : List Char) : Doc :=
  blocksF (mdFuel (splitLines cs)) (splitLines cs)

/-! ## Markdown emitter

Modelled from the spec: section 4.5 describes the missing Markdown emitter as
a depth-first walk escaping Markdown-significant characters, with tables in
pipe syntax. -/

/-- Escape one Markdown-significant character. -/
def mdEscapeChar (c : Char) : List Char :=
  if c = '*' || c = '_' || c = '`' || c = '[' || c = ']' || c = bslash then
    [bslash, c]
  else [c]

/-- Escape a text run for Markdown output. -/
def mdEscape : List Char → List Char
  | [] => []
  | c :: cs => mdEscapeChar c ++ mdEscape cs

mutual

/-- Emit one inline node as Markdown text. -/
def emitMdI : Inline → List Char
  | .text s => mdEscape s
  | .emph xs => '*' :: emitMdL xs ++ ['*']
  | .strong xs => '*' :: '*' :: emitMdL xs ++ ['*', '*']
  | .code s => '`' :: s ++ ['`']
  | .link d u => '[' :: d ++ ']' :: '(' :: u ++ [')']
  | .lineBreak => ['\n']

/-- Emit an inline sequence as Markdown text. -/
def emitMdL : List Inline → List Char
  | [] => []
  | x :: xs => emitMdI x ++ emitMdL xs

end

/-- Repeat a character. -/
def repChar (c : Char) : Nat → List Char
  | 0 => []
  | n + 1 => c :: repChar c n

/-- Join pipe-table cell texts with pipe separators. -/
def joinCells : List (List Char) → List Char
  | [] => ['|']
  | [c] => c ++ ' ' :: '|' :: []
  | c :: cs => c ++ ' ' :: '|' :: ' ' :: joinCells cs

mutual

/-- Emit one block as Markdown text (one chunk, no trailing blank line). -/
def emitMdB : Block → List Char
  | .heading l xs => repChar '#' l ++ ' ' :: emitMdL xs
  | .para xs => emitMdL xs
  | .codeBlock lang body =>
    str "```" ++ (match lang with | some l => l | none => []) ++
      '\n' :: body ++ '\n' :: str "```"
  | .quote bs => joinLines ((splitLines (emitMdBs bs)).map (fun l => '>' :: ' ' :: l))
  | .blist o items => joinLines (emitMdItems o items)
  | .table rows =>
    joinLines ((emitMdRows rows).map (fun cells => '|' :: ' ' ::
      joinCells cells))
  | .hrule => str "---"

/-- Emit a block sequence as Markdown text, blocks separated by blank lines. -/
def emitMdBs : List Block → List Char
  | [] => []
  | [b] => emitMdB b
  | b :: bs => emitMdB b ++ '\n' :: '\n' :: emitMdBs bs

/-- Emit the lines of a Markdown list. -/
def emitMdItems (o : Bool) : List (List Block) → List (List Char)
  | [] => []
  | item :: rest =>
    ((if o then str "1. " else str "- ") ++ emitMdBs item) :: emitMdItems o rest

/-- Emit the cell texts of the rows of a Markdown table. -/
def emitMdRows : List (List (List Block)) → List (List (List Char))
  | [] => []
  | row :: rest => emitMdCells row :: emitMdRows rest

/-- Emit the cell texts of one table row. -/
def emitMdCells : List (List Block) → List (List Char)
  | [] => []
  | cell :: rest => emitMdBs cell :: emitMdCells rest

end

/-- Emit a document as Markdown text (spec section 4.5). -/
def emitMarkdownDoc (d : Doc) : List Char := emitMdBs d

/-! ## RTF document tree

Modelled from the spec: section 3 "RTF Group" describes the balanced group
tree the missing RTF parser produces and the emitters serialise: groups with
an ordered sequence of child group/text nodes, plus control words optionally
carrying a signed integer parameter. -/

/-- One node of the RTF group tree: a brace-delimited group, a control word
with optional signed parameter, or a literal text run. -/
inductive RtfNode where
  | group (children : List RtfNode)
  | ctrl (word : List Char) (param : Option Int)
  | rtext (s : List Char)
  deriving Repr

/-- Control-word spellings used by the emitter. -/
def wB : List Char := str "b"
def wI : List Char := str "i"
def wF : List Char := str "f"
def wFS : List Char := str "fs"
def wPAR : List Char := str "par"
def wLINE : List Char := str "line"
def wFIELD : List Char := str "field"
def wFLDINST : List Char := str "fldinst"
def wFLDRSLT : List Char := str "fldrslt"
def wLI : List Char := str "li"
def wLS : List Char := str "ls"
def wTBL : List Char := str "tbl"
def wHR : List Char := str "hr"
def wCBLANG : List Char := str "cblang"
def wTROWD : List Char := str "trowd"
def wCELLX : List Char := str "cellx"
def wCELL : List Char := str "cell"
def wROW : List Char := str "row"
def wFONTTBL : List Char := str "fonttbl"
def wCOLORTBL : List Char := str "colortbl"
def wRTF : List Char := str "rtf"
def wANSI : List Char := str "ansi"
def wDEFF : List Char := str "deff"

mutual

/-- Total text length below a node (used for proportional column widths). -/
def rtfLenN : RtfNode → Nat
  | .group cs => rtfLenL cs
  | .ctrl _ _ => 0
  | .rtext s => s.length

/-- Total text length below a node sequence. -/
def rtfLenL : List RtfNode → Nat
  | [] => 0
  | n :: ns => rtfLenN n + rtfLenL ns

end

/-! ## RTF emitter, IR to group tree

Modelled from the spec: section 4.4 describes the missing RTF emitter as a
depth-first walk emitting only formatting-state deltas (realised here by
pre-normalising with `normDoc`), producing a brace-balanced tree, escaping
non-ASCII text, and emitting tables via `\trowd`, `\cellx`, `\cell`, `\row`
with column widths proportional to content length. -/

/-- Font size control parameter for a heading level (paragraph text is 24;
headings are strictly larger, shrinking with depth). -/
def fsOfLevel (l : Nat) : Int := 24 + 2 * ((7 : Int) - l)

/-- Recover a heading level from a font size parameter. -/
def levelOfFs (n : Int) : Nat := ((7 : Int) - (n - 24) / 2).toNat

/-- A text node, omitted when the run is empty. -/
def textNode (s : List Char) : List RtfNode :=
  if s = [] then [] else [.rtext s]

mutual

/-- Emit one inline IR node into the RTF group tree. -/
def emitI : Inline → List RtfNode
  | .text s => textNode s
  | .emph xs => [.group (.ctrl wI none :: emitIL xs)]
  | .strong xs => [.group (.ctrl wB none :: emitIL xs)]
  | .code s => [.group (.ctrl wF (some 1) :: textNode s)]
  | .link d u =>
    [.group [.ctrl wFIELD none,
      .group (.ctrl wFLDINST none :: [.rtext (str "HYPERLINK " ++ u)]),
      .group (.ctrl wFLDRSLT none :: textNode d)]]
  | .lineBreak => [.ctrl wLINE none]

/-- Emit an inline IR sequence into the RTF group tree. -/
def emitIL : List Inline → List RtfNode
  | [] => []
  | x :: xs => emitI x ++ emitIL xs

end

/-- Cumulative `\cellx` right boundaries, proportional to cell content
lengths. -/
def cellxAux (acc : Nat) : List Nat → List RtfNode
  | [] => []
  | n :: ns =>
    .ctrl wCELLX (some (acc + 120 * (n + 1))) ::
      cellxAux (acc + 120 * (n + 1)) ns

mutual

/-- Emit one block IR node as a single RTF group. -/
def emitB : Block → RtfNode
  | .heading l xs =>
    .group (.ctrl wFS (some (fsOfLevel l)) :: emitIL xs ++ [.ctrl wPAR none])
  | .para xs => .group (emitIL xs ++ [.ctrl wPAR none])
  | .codeBlock lang body =>
    .group (.ctrl wF (some 1) ::
      (match lang with
       | some lg => [.group (.ctrl wCBLANG none :: textNode lg)]
       | none => []) ++ textNode body ++ [.ctrl wPAR none])
  | .quote bs => .group (.ctrl wLI (some 720) :: emitBs bs)
  | .blist o items =>
    .group (.ctrl wLS (some (if o then 1 else 0)) :: emitItems items)
  | .table rows => .group (.ctrl wTBL none :: emitRows rows)
  | .hrule => .group [.ctrl wHR none]

/-- Emit a block sequence, one group per block. -/
def emitBs : List Block → List RtfNode
  | [] => []
  | b :: bs => emitB b :: emitBs bs

/-- Emit list items, one group per item. -/
def emitItems : List (List Block) → List RtfNode
  | [] => []
  | item :: rest => .group (emitBs item) :: emitItems rest

/-- Emit table rows: each row is a group carrying `\trowd`, proportional
`\cellx` boundaries, the cell groups, and `\row`. -/
def emitRows : List (List (List Block)) → List RtfNode
  | [] => []
  | row :: rest =>
    .group (.ctrl wTROWD none ::
      cellxAux 0 ((emitCells row).map rtfLenN) ++ emitCells row ++
        [.ctrl wROW none]) :: emitRows rest

/-- Emit table cells: each cell is a group of its blocks closed by `\cell`. -/
def emitCells : List (List Block) → List RtfNode
  | [] => []
  | cell :: rest => .group (emitBs cell ++ [.ctrl wCELL none]) :: emitCells rest

end

/-- The font table: index 0 roman, index 1 monospace (spec section 3). -/
def fontTblNode : RtfNode :=
  .group [.ctrl wFONTTBL none,
    .group [.ctrl wF (some 0), .rtext (str "Times New Roman;")],
    .group [.ctrl wF (some 1), .rtext (str "Courier New;")]]

/-- The colour table with the reserved default entry (spec section 3). -/
def colorTblNode : RtfNode :=
  .group [.ctrl wCOLORTBL none, .rtext (str ";")]

/-- Emit a whole document as the root RTF group with its header. -/
def emitRoot (d : Doc) : RtfNode :=
  .group (.ctrl wRTF (some 1) :: .ctrl wANSI none :: .ctrl wDEFF (some 0) ::
    fontTblNode :: colorTblNode :: emitBs d)

/-! ## Flattening the tree to an item stream and rendering it to text -/

/-- One lexical item of an RTF text: an opening or closing brace, a control
word with optional parameter, or one literal character. -/
inductive RItem where
  | openB
  | closeB
  | rctrl (word : List Char) (param : Option Int)
  | rchr (c : Char)
  deriving Repr, DecidableEq

mutual

/-- Flatten a tree node to lexical items. -/
def flatN : RtfNode → List RItem
  | .group cs => .openB :: flatL cs ++ [.closeB]
  | .ctrl w p => [.rctrl w p]
  | .rtext s => s.map .rchr

/-- Flatten a node sequence to lexical items. -/
def flatL : List RtfNode → List RItem
  | [] => []
  | n :: ns => flatN n ++ flatL ns

end

/-- Decimal digit characters of a natural number (fuel-driven). -/
def natDigitsAux : Nat → Nat → List Char
  | 0, _ => []
  | f + 1, n =>
    if n < 10 then [Char.ofNat (48 + n)]
    else natDigitsAux f (n / 10) ++ [Char.ofNat (48 + n % 10)]

/-- Decimal digit characters of a natural number. -/
def natDigits (n : Nat) : List Char := natDigitsAux (n + 1) n

/-- Decimal rendering of a signed integer. -/
def intToChars (i : Int) : List Char :=
  if i < 0 then '-' :: natDigits (-i).toNat else natDigits i.toNat

/-- Rendering of an optional control-word parameter. -/
def renderParam : Option Int → List Char
  | none => []
  | some i => intToChars i

/-- A lower-case hexadecimal digit character. -/
def hexDigit (n : Nat) : Char :=
  if n < 10 then Char.ofNat (48 + n) else Char.ofNat (87 + n)

/-- Two-digit hexadecimal rendering of a byte value. -/
def hex2 (n : Nat) : List Char := [hexDigit (n / 16 % 16), hexDigit (n % 16)]

/-- Characters emitted literally: printable ASCII other than the braces and
the backslash. -/
def isSafeChar (c : Char) : Bool :=
  32 ≤ c.toNat && c.toNat ≤ 126 && c ≠ obrace && c ≠ cbrace && c ≠ bslash

/-- Interpret a 16-bit code unit as the signed parameter of `\uNNNN` (spec
section 4.1: a signed 16-bit Unicode code point). -/
def signed16 (n : Nat) : Int :=
  if n < 32768 then (n : Int) else (n : Int) - 65536

/-- Render one `\uNNNN` escape with its one-character ASCII fallback (spec
section 4.4). -/
def uEscape (n : Nat) : List Char :=
  bslash :: 'u' :: intToChars (signed16 n) ++ ['?']

/-- Escape one character for RTF output: safe ASCII passes through, other
bytes become `\'hh`, BMP code points become `\uNNNN` with fallback, and
supplementary code points a surrogate pair of `\u` escapes. -/
def escapeChar (c : Char) : List Char :=
  if isSafeChar c then [c]
  else if c.toNat < 256 then bslash :: '\'' :: hex2 c.toNat
  else if c.toNat < 65536 then uEscape c.toNat
  else
    uEscape (55296 + (c.toNat - 65536) / 1024) ++
      uEscape (56320 + (c.toNat - 65536) % 1024)

/-- Render one lexical item as characters; a control word always carries its
one-space delimiter. -/
def renderItem : RItem → List Char
  | .openB => [obrace]
  | .closeB => [cbrace]
  | .rctrl w p => bslash :: w ++ renderParam p ++ [' ']
  | .rchr c => escapeChar c

/-- Render an item stream as characters. -/
def renderItems : List RItem → List Char
  | [] => []
  | i :: is => renderItem i ++ renderItems is

/-- Render a whole RTF tree as text. -/
def renderRtfTree (t : RtfNode) : List Char := renderItems (flatN t)

/-! ## RTF scanner, text to item stream

Modelled from the spec: section 4.1 describes the missing RTF parser's
single left-to-right scan: longest-match control words with an optional
signed integer parameter, `\'hh` byte escapes, and `\uNNNN` escapes whose
ASCII fallback run (skip-count 1) is consumed and discarded. -/

/-- Value of a lower-case hexadecimal digit character. -/
def hexVal (c : Char) : Option Nat :=
  if 48 ≤ c.toNat && c.toNat ≤ 57 then some (c.toNat - 48)
  else if 97 ≤ c.toNat && c.toNat ≤ 102 then some (c.toNat - 87)
  else none

/-- Accumulate decimal digit characters into a natural number. -/
def digitsValAux (acc : Nat) : List Char → Nat
  | [] => acc
  | c :: cs => digitsValAux (acc * 10 + (c.toNat - 48)) cs

/-- Value of a run of decimal digit characters. -/
def digitsVal (ds : List Char) : Nat := digitsValAux 0 ds

/-- Read a run of decimal digits from the head of the input. -/
def readNatPart (cs : List Char) : Option (Nat × List Char) :=
  if cs.takeWhile Char.isDigit = [] then none
  else some (digitsVal (cs.takeWhile Char.isDigit), cs.dropWhile Char.isDigit)

/-- Read a signed decimal integer from the head of the input. -/
def readInt (cs : List Char) : Option (Int × List Char) :=
  match cs with
  | [] => none
  | c :: rest =>
    if c = '-' then
      (readNatPart rest).map fun p => (-(p.1 : Int), p.2)
    else
      (readNatPart (c :: rest)).map fun p => ((p.1 : Int), p.2)

/-- Read an optional control-word parameter. -/
def readParam (cs : List Char) : Option Int × List Char :=
  match readInt cs with
  | some (i, rest) => (some i, rest)
  | none => (none, cs)

/-- Consume one space delimiter if present. -/
def skipSpace : List Char → List Char
  | ' ' :: rest => rest
  | rest => rest

/-- Reduce a `\u` parameter to its 16-bit code unit. -/
def unwrap16 (i : Int) : Nat := (((i % 65536) + 65536) % 65536).toNat

/-- Read the numeric part of a `\u` escape and consume its one-character
fallback run. -/
def readUEscape (cs : List Char) : Option (Nat × List Char) :=
  match readInt cs with
  | none => none
  | some (i, rest) =>
    match skipSpace rest with
    | _ :: rest2 => some (unwrap16 i, rest2)
    | [] => none

/-- Scan one lexical item from the head of the input: braces, `\'hh` byte
escapes, `\u` escapes (with surrogate-pair recombination), control words
with optional parameter and one-space delimiter, or a literal character. -/
def scan1 (cs : List Char) : Option (RItem × List Char) :=
  match cs with
  | [] => none
  | c :: rest =>
    if c = obrace then some (.openB, rest)
    else if c = cbrace then some (.closeB, rest)
    else if c = bslash then
      match rest with
      | '\'' :: h1 :: h2 :: rest2 =>
        match hexVal h1, hexVal h2 with
        | some a, some b => some (.rchr (Char.ofNat (16 * a + b)), rest2)
        | _, _ => none
      | _ =>
        let w := rest.takeWhile Char.isAlpha
        let rest1 := rest.dropWhile Char.isAlpha
        if w = [] then none
        else if w = ['u'] then
          match readUEscape rest1 with
          | none => none
          | some (m, rest2) =>
            if 55296 ≤ m ∧ m < 56320 then
              match rest2 with
              | b1 :: b2 :: rest3 =>
                if b1 = bslash ∧ b2 = 'u' then
                  match readUEscape rest3 with
                  | some (m2, rest4) =>
                    if 56320 ≤ m2 ∧ m2 < 57344 then
                      some (.rchr (Char.ofNat
                        (65536 + (m - 55296) * 1024 + (m2 - 56320))), rest4)
                    else none
                  | none => none
                else none
              | _ => none
            else if 56320 ≤ m ∧ m < 57344 then none
            else some (.rchr (Char.ofNat m), rest2)
        else
          match readParam rest1 with
          | (p, rest2) => some (.rctrl w p, skipSpace rest2)
    else some (.rchr c, rest)

/-- Scan a whole input to an item stream (fuel-driven; every step consumes
at least one character). -/
def scanItemsF : Nat → List Char → Option (List RItem)
  | _, [] => some []
  | 0, _ :: _ => none
  | f + 1, cs =>
    match scan1 cs with
    | none => none
    | some (i, rest) => (scanItemsF f rest).map (i :: ·)

/-! ## Group builder, item stream to tree

Modelled from the spec: section 4.1's explicit stack of open groups; `{`
pushes, `}` pops, and unbalanced braces or truncated input fail. -/

/-- The longest leading run of literal characters in an item stream. -/
def chrRun : List RItem → List Char
  | .rchr c :: rest => c :: chrRun rest
  | _ => []

/-- The item stream after its leading run of literal characters. -/
def chrRest : List RItem → List RItem
  | .rchr _ :: rest => chrRest rest
  | rest => rest

/-- Build a node sequence from an item stream up to an unmatched `}` or the
end of input, returning the remainder (fuel-driven). -/
def buildF : Nat → List RItem → Option (List RtfNode × List RItem)
  | 0, _ => none
  | _ + 1, [] => some ([], [])
  | _ + 1, .closeB :: rest => some ([], .closeB :: rest)
  | f + 1, .openB :: rest =>
    match buildF f rest with
    | some (cs, .closeB :: rest2) =>
      (buildF f rest2).map fun pr => (.group cs :: pr.1, pr.2)
    | _ => none
  | f + 1, .rctrl w p :: rest =>
    (buildF f rest).map fun pr => (.ctrl w p :: pr.1, pr.2)
  | f + 1, .rchr c :: rest =>
    (buildF f (chrRest rest)).map fun pr =>
      (.rtext (c :: chrRun rest) :: pr.1, pr.2)

/-- Build the single root group of an RTF document; anything else (unbalanced
braces, trailing material) is a malformed group. -/
def buildRoot (items : List RItem) : Option RtfNode :=
  match buildF (items.length + 1) items with
  | some ([root], []) => some root
  | _ => none

/-- Parse RTF text into its group tree (spec section 4.1). -/
def parseRtfTree (cs : List Char) : Option RtfNode :=
  (scanItemsF (cs.length + 1) cs).bind buildRoot

/-! ## IR extraction from the RTF group tree

Modelled from the spec: the direction of `legacybridge_rtf_to_markdown` maps
the parsed group tree onto the format-neutral IR (spec sections 2 and 4.3);
unknown control words are retained as opaque metadata and never cause
failure, so extraction is total and skips what it does not understand. -/

/-- Concatenate the top-level text runs of a node sequence. -/
def concatTexts : List RtfNode → List Char
  | [] => []
  | .rtext s :: rest => s ++ concatTexts rest
  | _ :: rest => concatTexts rest

/-- Drop a prefix when present. -/
def dropPrefixIf (pat s : List Char) : List Char :=
  if leadsWith pat s then s.drop pat.length else s

/-- Children of the first subgroup headed by the given control word. -/
def findSub (w : List Char) : List RtfNode → Option (List RtfNode)
  | [] => none
  | .group (.ctrl w2 _ :: inner) :: rest =>
    if w2 = w then some inner else findSub w rest
  | _ :: rest => findSub w rest

mutual

/-- Extract an inline sequence from a node sequence. -/
def exIL : List RtfNode → List Inline
  | [] => []
  | .rtext s :: rest => .text s :: exIL rest
  | .ctrl w _ :: rest =>
    if w = wLINE then .lineBreak :: exIL rest else exIL rest
  | .group cs :: rest => exGroupI cs ++ exIL rest

/-- Extract the inline content of one group from its children: italic, bold,
monospace-font (inline code) and field (link) markers are understood; any
other group is formatting-transparent and its children are spliced. -/
def exGroupI : List RtfNode → List Inline
  | [] => []
  | .ctrl w p :: inner =>
    if w = wI then [.emph (exIL inner)]
    else if w = wB then [.strong (exIL inner)]
    else if w = wF && p = some 1 then [.code (concatTexts inner)]
    else if w = wFIELD then
      [.link
        (match findSub wFLDRSLT inner with
         | some g => concatTexts g
         | none => [])
        (match findSub wFLDINST inner with
         | some g => dropPrefixIf (str "HYPERLINK ") (concatTexts g)
         | none => [])]
    else if w = wLINE then .lineBreak :: exIL inner
    else exIL inner
  | .rtext s :: rest => .text s :: exIL rest
  | .group cs :: rest => exGroupI cs ++ exIL rest

end

/-- Is a group the font- or colour-table header group? -/
def isHeaderGroup : List RtfNode → Bool
  | .ctrl w _ :: _ => w = wFONTTBL || w = wCOLORTBL
  | _ => false

mutual

/-- Extract one block from the children of a block-position group, keyed by
its leading control word; an unrecognised shape is a paragraph. -/
def exB (cs : List RtfNode) : Block :=
  match cs with
  | .ctrl w p :: rest =>
    if w = wFS then .heading (levelOfFs (p.getD 24)) (exIL rest)
    else if w = wF && p = some 1 then
      .codeBlock
        (match findSub wCBLANG rest with
         | some g => some (concatTexts g)
         | none => none)
        (concatTexts rest)
    else if w = wLI then .quote (exBL rest)
    else if w = wLS then .blist (p = some 1) (exItemsX rest)
    else if w = wTBL then .table (exRows rest)
    else if w = wHR then .hrule
    else .para (exIL cs)
  | _ => .para (exIL cs)

/-- Extract a block sequence: one block per non-header subgroup. -/
def exBL : List RtfNode → List Block
  | [] => []
  | .group cs :: rest =>
    (if isHeaderGroup cs then [] else [exB cs]) ++ exBL rest
  | _ :: rest => exBL rest

/-- Extract list items, one per subgroup. -/
def exItemsX : List RtfNode → List (List Block)
  | [] => []
  | .group cs :: rest => exBL cs :: exItemsX rest
  | _ :: rest => exItemsX rest

/-- Extract table rows, one per subgroup. -/
def exRows : List RtfNode → List (List (List Block))
  | [] => []
  | .group cs :: rest => exCellsX cs :: exRows rest
  | _ :: rest => exRows rest

/-- Extract table cells, one per subgroup. -/
def exCellsX : List RtfNode → List (List Block)
  | [] => []
  | .group cs :: rest => exBL cs :: exCellsX rest
  | _ :: rest => exCellsX rest

end

/-- Extract a document from the root group. -/
def exRoot : RtfNode → Doc
  | .group cs => exBL cs
  | _ => []

/-! ## Core conversion pipelines -/

/-- The IR produced by converting RTF text (the first half of
`legacybridge_rtf_to_markdown`): parse to the group tree, extract the IR. -/
def rtfToIr (cs : List Char) : Option Doc := (parseRtfTree cs).map exRoot

/-- Core of `legacybridge_markdown_to_rtf` (spec sections 2, 4.2, 4.4):
Markdown to IR, formatting-state normalisation, RTF emission. -/
def markdownToRtfCore (cs : List Char) : Option (List Char) :=
  some (renderRtfTree (emitRoot (normDoc (parseMarkdownDoc cs))))

/-- Core of `legacybridge_rtf_to_markdown` (spec sections 2, 4.1, 4.5):
RTF to IR, Markdown emission. -/
def rtfToMarkdownCore (cs : List Char) : Option (List Char) :=
  (rtfToIr cs).map emitMarkdownDoc

/-! ## Error codes and the FFI boundary

The error taxonomy is fixed by `include/legacybridge.h` lines 16-21; the
boundary behaviour (null check, encoding check, both before any parsing) is
modelled from spec sections 6 and 7. -/

/-- `LB_SUCCESS` (header line 17). -/
def lbSuccess : Int := 0

/-- `LB_ERROR_NULL_POINTER` (header line 18). -/
def lbErrorNullPointer : Int := -1

/-- `LB_ERROR_INVALID_UTF8` (header line 19). -/
def lbErrorInvalidUtf8 : Int := -2

/-- `LB_ERROR_CONVERSION` (header line 20). -/
def lbErrorConversion : Int := -3

/-- `LB_ERROR_ALLOCATION` (header line 21). -/
def lbErrorAllocation : Int := -4

/-- Is a byte a UTF-8 continuation byte? -/
def isCont (b : Nat) : Bool := 128 ≤ b && b ≤ 191

/-- Admissible second byte of a three-byte sequence (excludes overlong and
surrogate encodings). -/
def ok3Second (b1 b2 : Nat) : Bool :=
  if b1 = 224 then 160 ≤ b2 && b2 ≤ 191
  else if b1 = 237 then 128 ≤ b2 && b2 ≤ 159
  else isCont b2

/-- Admissible second byte of a four-byte sequence (excludes overlong and
out-of-range encodings). -/
def ok4Second (b1 b2 : Nat) : Bool :=
  if b1 = 240 then 144 ≤ b2 && b2 ≤ 191
  else if b1 = 244 then 128 ≤ b2 && b2 ≤ 143
  else isCont b2

/-- Modelled from the spec: one step of input validation, decoding a single
UTF-8 sequence ("Input not valid encoded text", spec section 7); rejects
truncated, overlong, surrogate and out-of-range sequences. -/
def utf8DecodeOne : List Nat → Option (Nat × List Nat)
  | [] => none
  | b1 :: rest =>
    if b1 ≤ 127 then some (b1, rest)
    else if 194 ≤ b1 && b1 ≤ 223 then
      match rest with
      | b2 :: rest2 =>
        if isCont b2 then some ((b1 - 192) * 64 + (b2 - 128), rest2)
        else none
      | [] => none
    else if 224 ≤ b1 && b1 ≤ 239 then
      match rest with
      | b2 :: b3 :: rest3 =>
        if ok3Second b1 b2 && isCont b3 then
          some ((b1 - 224) * 4096 + (b2 - 128) * 64 + (b3 - 128), rest3)
        else none
      | _ => none
    else if 240 ≤ b1 && b1 ≤ 244 then
      match rest with
      | b2 :: b3 :: b4 :: rest4 =>
        if ok4Second b1 b2 && isCont b3 && isCont b4 then
          some ((b1 - 240) * 262144 + (b2 - 128) * 4096 +
            (b3 - 128) * 64 + (b4 - 128), rest4)
        else none
      | _ => none
    else none

/-- Modelled from the spec: the decoding loop, driven by a fuel bound on the
number of sequences (each sequence consumes at least one byte). -/
def utf8DecodeF : Nat → List Nat → Option (List Char)
  | _, [] => some []
  | 0, _ :: _ => none
  | fuel + 1, b1 :: rest =>
    match utf8DecodeOne (b1 :: rest) with
    | some (n, rest2) => (utf8DecodeF fuel rest2).map (Char.ofNat n :: ·)
    | none => none

/-- Modelled from the spec: input validation as decoding of UTF-8 bytes
("Input not valid encoded text", spec section 7). -/
def utf8Decode (bs : List Nat) : Option (List Char) := utf8DecodeF bs.length bs

/-- UTF-8 encoding of one scalar value. -/
def utf8EncodeChar (n : Nat) : List Nat :=
  if n ≤ 127 then [n]
  else if n ≤ 2047 then [192 + n / 64, 128 + n % 64]
  else if n ≤ 65535 then [224 + n / 4096, 128 + n / 64 % 64, 128 + n % 64]
  else [240 + n / 262144, 128 + n / 4096 % 64, 128 + n / 64 % 64, 128 + n % 64]

/-- UTF-8 encoding of a character sequence. -/
def utf8Encode : List Char → List Nat
  | [] => []
  | c :: cs => utf8EncodeChar c.toNat ++ utf8Encode cs

/-- Result of one FFI conversion call: the returned error code and the
output buffer, absent unless the call succeeded. -/
structure FfiResult where
  code : Int
  output : Option (List Nat)
  deriving Repr, DecidableEq

/-- Modelled from the spec: the conversion boundary (spec sections 6, 7); a
null input pointer and invalid encoded text are rejected, in that order,
before the conversion core runs; a core failure reports `ConversionFailure`;
on success the core, not the caller, provides the output buffer. -/
def ffiConvert (core : List Char → Option (List Char))
    (input : Option (List Nat)) : FfiResult :=
  match input with
  | none => ⟨lbErrorNullPointer, none⟩
  | some bs =>
    match utf8Decode bs with
    | none => ⟨lbErrorInvalidUtf8, none⟩
    | some cs =>
      match core cs with
      | none => ⟨lbErrorConversion, none⟩
      | some out => ⟨lbSuccess, some (utf8Encode out)⟩

/-- Modelled from the spec: `legacybridge_rtf_to_markdown` (header lines
47-51), the single-document RTF-to-Markdown call at the FFI boundary. -/
def legacybridge_rtf_to_markdown (input : Option (List Nat)) : FfiResult :=
  ffiConvert rtfToMarkdownCore input

/-- Modelled from the spec: `legacybridge_markdown_to_rtf` (header lines
66-70), the single-document Markdown-to-RTF call at the FFI boundary. -/
def legacybridge_markdown_to_rtf (input : Option (List Nat)) : FfiResult :=
  ffiConvert markdownToRtfCore input

/-- Result of querying the last error message: the returned count and the
bytes written into the caller's buffer. -/
structure ErrorQuery where
  ret : Int
  written : List Char
  deriving Repr, DecidableEq

/-- Modelled from the spec: `legacybridge_get_last_error` (header lines
80-94): writes the message into a caller-supplied buffer of the given size
and returns the byte count excluding the terminator, or -1 when the buffer
cannot hold the message and its terminator; nothing is silently truncated. -/
def legacybridge_get_last_error (msg : List Char) (bufferSize : Int) :
    ErrorQuery :=
  if (msg.length : Int) + 1 ≤ bufferSize then ⟨(msg.length : Int), msg⟩
  else ⟨-1, []⟩

/-! ## Batch/folder driver

Modelled from the spec: section 4.9's state machine: items are converted
independently and sequentially; a per-item failure is recorded and does not
abort the remaining items; the shared progress counter increments only after
an item fully completes; the cancellation flag is checked before starting
each item and never mid-item. -/

/-- Observable outcome of one batch session: the per-item output slots
(absent for failed or unprocessed items), the sequence of values the
progress getter exposes at successive item boundaries, the final progress
value, and whether the session ended cancelled. -/
structure BatchOutcome where
  outputs : List (Option (List Char))
  trace : List Nat
  progress : Nat
  cancelled : Bool
  deriving Repr, DecidableEq

/-- The externally set cancellation flag, as observed at an item boundary:
once a cancel request has arrived (boundary index `k`), every later check
sees it (`legacybridge_cancel_batch_operation`, enterprise header lines
290-296). -/
def cancelFlag (cancelAt : Option Nat) (p : Nat) : Bool :=
  match cancelAt with
  | some k => decide (k ≤ p)
  | none => false

/-- The batch driver loop: check the flag at the item boundary; if set, halt
with the remaining slots absent; otherwise convert the item to completion,
record its slot, bump progress, continue. -/
def runBatchAux (conv : List Char → Option (List Char)) (flag : Nat → Bool) :
    List (List Char) → Nat → BatchOutcome
  | [], p => ⟨[], [p], p, false⟩
  | x :: xs, p =>
    if flag p then ⟨(x :: xs).map (fun _ => none), [p], p, true⟩
    else
      let o := runBatchAux conv flag xs (p + 1)
      ⟨conv x :: o.outputs, p :: o.trace, o.progress, o.cancelled⟩

/-- Run one batch session from a fresh progress counter. -/
def runBatch (conv : List Char → Option (List Char))
    (inputs : List (List Char)) (cancelAt : Option Nat) : BatchOutcome :=
  runBatchAux conv (cancelFlag cancelAt) inputs 0

/-- Number of present output slots: the success count a batch call returns. -/
def countSome : List (Option (List Char)) → Nat
  | [] => 0
  | some _ :: rest => 1 + countSome rest
  | none :: rest => countSome rest

/-- Modelled from the spec: `legacybridge_batch_rtf_to_markdown` (header
lines 118-123): per-item RTF-to-Markdown conversion over parallel arrays,
returning the number of successes. -/
def legacybridge_batch_rtf_to_markdown (inputs : List (List Char))
    (cancelAt : Option Nat) : BatchOutcome :=
  runBatch rtfToMarkdownCore inputs cancelAt

/-- Modelled from the spec: `legacybridge_batch_markdown_to_rtf` (header
lines 139-144): per-item Markdown-to-RTF conversion over parallel arrays,
returning the number of successes. -/
def legacybridge_batch_markdown_to_rtf (inputs : List (List Char))
    (cancelAt : Option Nat) : BatchOutcome :=
  runBatch markdownToRtfCore inputs cancelAt

/-- Modelled from the spec: `legacybridge_get_batch_progress` (enterprise
header lines 282-288) returns the number of files processed so far; within
one session its observable values are exactly the entries of the outcome's
trace, and its final value is the outcome's progress. -/
def legacybridge_get_batch_progress (o : BatchOutcome) : Nat := o.progress

/-! ## Table/CSV bridge

Modelled from the spec: section 4.6: RFC-4180-style quoting on export
(quote a field containing comma, quote or newline; double embedded quotes),
quote-aware field splitting on import; section 3's rectangularity invariant:
short rows are padded with empty cells and long rows truncated to the header
row's width. -/

/-- Does a field need quoting on emission? -/
def csvQuoteNeeded (f : List Char) : Bool :=
  hasChar ',' f || hasChar '"' f || hasChar '\n' f

/-- Double every embedded quote. -/
def csvEscapeField : List Char → List Char
  | [] => []
  | c :: cs => (if c = '"' then ['"', '"'] else [c]) ++ csvEscapeField cs

/-- Emit one field, quoted exactly when needed. -/
def csvField (f : List Char) : List Char :=
  if csvQuoteNeeded f then '"' :: csvEscapeField f ++ ['"'] else f

/-- Emit one record, fields joined by commas. -/
def csvRowEmit : List (List Char) → List Char
  | [] => []
  | [f] => csvField f
  | f :: fs => csvField f ++ ',' :: csvRowEmit fs

/-- Emit a table as CSV text, records joined by newlines. -/
def csvEmit : List (List (List Char)) → List Char
  | [] => []
  | [r] => csvRowEmit r
  | r :: rs => csvRowEmit r ++ '\n' :: csvEmit rs

/-- Scan a quoted field body after its opening quote: doubled quotes are
literal quotes, a lone quote closes the field. -/
def csvQuotedField : List Char → List Char × List Char
  | [] => ([], [])
  | c :: rest =>
    if c = '"' then
      match rest with
      | c2 :: rest2 =>
        if c2 = '"' then
          let p := csvQuotedField rest2
          ('"' :: p.1, p.2)
        else ([], rest)
      | [] => ([], [])
    else
      let p := csvQuotedField rest
      (c :: p.1, p.2)

/-- Scan one field at the head of the input: a quote opens a quoted field,
anything else is read up to the next comma or newline. -/
def csvFieldScan (cs : List Char) : List Char × List Char :=
  match cs with
  | [] => ([], [])
  | c :: rest0 =>
    if c = '"' then csvQuotedField rest0
    else (cs.takeWhile (fun c => c ≠ ',' && c ≠ '\n'),
          cs.dropWhile (fun c => c ≠ ',' && c ≠ '\n'))

/-- Parse the fields of one record; the second component carries the rest of
the input when a newline ended the record, and nothing at end of input. -/
def csvFieldsF : Nat → List Char → List (List Char) × Option (List Char)
  | 0, _ => ([], none)
  | f + 1, cs =>
    let p := csvFieldScan cs
    match p.2 with
    | ',' :: rest2 =>
      let q := csvFieldsF f rest2
      (p.1 :: q.1, q.2)
    | '\n' :: rest2 => ([p.1], some rest2)
    | _ => ([p.1], none)

/-- Parse the records of a CSV text (fuel-driven). -/
def csvRecordsF : Nat → List Char → List (List (List Char))
  | 0, _ => []
  | f + 1, cs =>
    let p := csvFieldsF (cs.length + 1) cs
    match p.2 with
    | some rest => p.1 :: csvRecordsF f rest
    | none => [p.1]

/-- Quote-aware CSV parsing into rows of fields. -/
def csvParse (cs : List Char) : List (List (List Char)) :=
  csvRecordsF (cs.length + 1) cs

/-- Force a row to a fixed width: truncate long rows, pad short rows with
empty cells. -/
def padTo (w : Nat) (row : List (List Char)) : List (List Char) :=
  row.take w ++ List.replicate (w - row.length) []

/-- Rectangularise a parsed table to the header row's width. -/
def rectangularize : List (List (List Char)) → List (List (List Char))
  | [] => []
  | hd :: rest => hd :: rest.map (padTo hd.length)

/-- Modelled from the spec: the Table produced by
`legacybridge_import_from_csv` (enterprise header lines 441-445): quote-aware
parse, then the pad/truncate rectangularity policy. -/
def importCsvTable (cs : List Char) : List (List (List Char)) :=
  rectangularize (csvParse cs)

/-- Modelled from the spec: the CSV text produced by
`legacybridge_export_to_csv` (enterprise header lines 424-428) from a table:
RFC-4180-style quoting. -/
def exportCsvTable (t : List (List (List Char))) : List Char := csvEmit t

/-- A string-cell table as an IR table block (each cell one paragraph). -/
def tableToBlock (t : List (List (List Char))) : Block :=
  .table (t.map (fun row => row.map (fun cell => [Block.para [Inline.text cell]])))

/-- Modelled from the spec: `legacybridge_import_from_csv` end to end: the
imported table emitted as an RTF document. -/
def legacybridge_import_from_csv (cs : List Char) : List Char :=
  renderRtfTree (emitRoot [tableToBlock (importCsvTable cs)])

/-! ## Template engine

Modelled from the spec: section 4.7: a template body contains exactly one
content placeholder sentinel; creation fails when the candidate skeleton
contains zero placeholders or more than one (ambiguous target); the registry
is a process-wide name-to-skeleton map with no delete operation. -/

/-- The single documented placeholder sentinel (spec sections 4.7, 9). -/
def contentPlaceholder : List Char := str "%%CONTENT%%"

/-- Number of (possibly overlapping) occurrences of a pattern. -/
def countOcc (pat : List Char) : List Char → Nat
  | [] => 0
  | c :: cs => (if leadsWith pat (c :: cs) then 1 else 0) + countOcc pat cs

/-- The process-wide template registry: named RTF skeletons. -/
abbrev TemplateReg := List (List Char × List Char)

/-- Modelled from the spec: `legacybridge_create_rtf_template` (enterprise
header lines 361-364): succeeds, registering the skeleton, exactly when the
skeleton contains exactly one content placeholder sentinel. -/
def legacybridge_create_rtf_template (reg : TemplateReg)
    (name skel : List Char) : Int × TemplateReg :=
  if countOcc contentPlaceholder skel = 1 then (lbSuccess, (name, skel) :: reg)
  else (lbErrorConversion, reg)

/-! ## Invariants used by the round-trip development -/

/-- The RTF emitter as a function of the IR: formatting-state normalisation,
tree emission, text rendering (spec section 4.4). -/
def rtfEmitter (d : Doc) : List Char := renderRtfTree (emitRoot (normDoc d))

/-- A control word the scanner reads back as itself: nonempty, alphabetic,
and not the `u` escape introducer. -/
def wordOk (w : List Char) : Bool :=
  !(w = []) && w.all Char.isAlpha && !(w = ['u'])

mutual

/-- Tree invariant maintained by the emitter: every control word is
scanner-safe, every text run nonempty, and no two text runs adjacent (so
lexing merges nothing). -/
def goodN : RtfNode → Bool
  | .group cs => goodL cs
  | .ctrl w _ => wordOk w
  | .rtext s => !(s = [])

/-- The `goodN` invariant over a child sequence. -/
def goodL : List RtfNode → Bool
  | [] => true
  | n :: ns =>
    goodN n && goodL ns &&
      (match n, ns with
       | .rtext _, .rtext _ :: _ => false
       | _, _ => true)

end

/-- A lexical item the scanner reads back from its own rendering. -/
def wfItem : RItem → Bool
  | .rctrl w _ => wordOk w
  | _ => true

mutual

/-- A block ready for remission: all inline content in normal form. -/
def readyB : Block → Bool
  | .heading _ xs => nfL Fmt.none xs
  | .para xs => nfL Fmt.none xs
  | .codeBlock _ _ => true
  | .quote bs => readyBs bs
  | .blist _ items => readyBss items
  | .table rows => readyBsss rows
  | .hrule => true

/-- Readiness of a block sequence. -/
def readyBs : List Block → Bool
  | [] => true
  | b :: bs => readyB b && readyBs bs

/-- Readiness of list items or table cells. -/
def readyBss : List (List Block) → Bool
  | [] => true
  | bs :: rest => readyBs bs && readyBss rest

/-- Readiness of table rows. -/
def readyBsss : List (List (List Block)) → Bool
  | [] => true
  | row :: rest => readyBss row && readyBsss rest

end

/-! # Theorems -/

/-! ## Character and list groundwork -/

theorem toNat_ofNat_valid (n : Nat) (h : n.isValidChar) :
    (Char.ofNat n).toNat = n := by
  unfold Char.ofNat
  rw [dif_pos h]
  rfl

theorem toNat_ofNat_small (n : Nat) (h : n < 55296) : (Char.ofNat n).toNat = n :=
  toNat_ofNat_valid n (Or.inl h)

theorem char_eq_of_toNat {a b : Char} (h : a.toNat = b.toNat) : a = b := by
  rw [← Char.ofNat_toNat a, ← Char.ofNat_toNat b, h]

theorem char_valid_toNat (c : Char) :
    c.toNat < 55296 ∨ (57343 < c.toNat ∧ c.toNat < 1114112) := c.valid

theorem char_toNat_lt (c : Char) : c.toNat < 1114112 := by
  rcases char_valid_toNat c with h | ⟨_, h⟩
  · omega
  · exact h

theorem alpha_toNat {c : Char} (h : c.isAlpha = true) :
    (65 ≤ c.toNat ∧ c.toNat ≤ 90) ∨ (97 ≤ c.toNat ∧ c.toNat ≤ 122) := by
  simp only [Char.isAlpha, Char.isUpper, Char.isLower, Bool.or_eq_true,
    Bool.and_eq_true, decide_eq_true_eq, ge_iff_le] at h
  rcases h with ⟨h1, h2⟩ | ⟨h1, h2⟩
  · exact Or.inl ⟨UInt32.le_toNat_of_le (by decide) h1,
      UInt32.toNat_le_of_le (by decide) h2⟩
  · exact Or.inr ⟨UInt32.le_toNat_of_le (by decide) h1,
      UInt32.toNat_le_of_le (by decide) h2⟩

theorem digit_toNat {c : Char} (h : c.isDigit = true) :
    48 ≤ c.toNat ∧ c.toNat ≤ 57 := by
  simp only [Char.isDigit, Bool.and_eq_true, decide_eq_true_eq, ge_iff_le] at h
  exact ⟨UInt32.le_toNat_of_le (by decide) h.1,
    UInt32.toNat_le_of_le (by decide) h.2⟩

theorem uint32_le_iff {a b : UInt32} : a ≤ b ↔ a.toNat ≤ b.toNat := by
  simp [UInt32.le_def, BitVec.le_def, UInt32.toNat]

theorem charToNat_val (c : Char) : c.val.toNat = c.toNat := rfl

theorem digit_of_range {n : Nat} (h1 : 48 ≤ n) (h2 : n ≤ 57) :
    (Char.ofNat n).isDigit = true := by
  simp only [Char.isDigit, Bool.and_eq_true, decide_eq_true_eq, ge_iff_le]
  have hv : (Char.ofNat n).val.toNat = n := by
    rw [charToNat_val]
    exact toNat_ofNat_small n (by omega)
  constructor
  · rw [uint32_le_iff, hv]
    exact h1
  · rw [uint32_le_iff, hv]
    exact h2

theorem not_alpha_of_range {c : Char}
    (h : c.toNat < 65 ∨ (90 < c.toNat ∧ c.toNat < 97) ∨ 122 < c.toNat) :
    c.isAlpha = false := by
  cases ha : c.isAlpha
  · rfl
  · rcases alpha_toNat ha with ⟨h1, h2⟩ | ⟨h1, h2⟩ <;> omega

theorem not_digit_of_range {c : Char}
    (h : c.toNat < 48 ∨ 57 < c.toNat) : c.isDigit = false := by
  cases hd : c.isDigit
  · rfl
  · rcases digit_toNat hd with ⟨h1, h2⟩
    omega

theorem char_ne_of_toNat {a b : Char} (h : a.toNat ≠ b.toNat) : a ≠ b :=
  fun he => h (he ▸ rfl)

theorem obrace_toNat : obrace.toNat = 123 := by decide

theorem cbrace_toNat : cbrace.toNat = 125 := by decide

theorem bslash_toNat : bslash.toNat = 92 := by decide

theorem countChar_append (c : Char) (xs ys : List Char) :
    countChar c (xs ++ ys) = countChar c xs + countChar c ys := by
  induction xs with
  | nil => simp [countChar]
  | cons d ds ih => simp [countChar, ih]; omega

theorem countChar_eq_zero {c : Char} {xs : List Char}
    (h : ∀ d ∈ xs, d ≠ c) : countChar c xs = 0 := by
  induction xs with
  | nil => rfl
  | cons d ds ih =>
    have hd : d ≠ c := h d (by simp)
    simp [countChar, hd, ih fun e he => h e (by simp [he])]

theorem renderItems_append (xs ys : List RItem) :
    renderItems (xs ++ ys) = renderItems xs ++ renderItems ys := by
  induction xs with
  | nil => rfl
  | cons i is ih => simp [renderItems, ih]

theorem leadsWith_append (pat rest : List Char) :
    leadsWith pat (pat ++ rest) = true := by
  induction pat with
  | nil => rfl
  | cons c cs ih => simp [leadsWith, ih]

theorem takeWhile_all_append {p : Char → Bool} {xs ys : List Char}
    (hx : ∀ x ∈ xs, p x = true)
    (hy : ∀ y ∈ ys.take 1, p y = false) :
    (xs ++ ys).takeWhile p = xs := by
  induction xs with
  | nil =>
    cases ys with
    | nil => rfl
    | cons y t =>
      have := hy y (by simp)
      simp [List.takeWhile, this]
  | cons x t ih =>
    have hx1 := hx x (by simp)
    have ih2 := ih fun a ha => hx a (by simp [ha])
    simp [List.takeWhile_cons, hx1, ih2]

theorem dropWhile_all_append {p : Char → Bool} {xs ys : List Char}
    (hx : ∀ x ∈ xs, p x = true)
    (hy : ∀ y ∈ ys.take 1, p y = false) :
    (xs ++ ys).dropWhile p = ys := by
  induction xs with
  | nil =>
    cases ys with
    | nil => rfl
    | cons y t =>
      have := hy y (by simp)
      simp [List.dropWhile, this]
  | cons x t ih =>
    have hx1 := hx x (by simp)
    have ih2 := ih fun a ha => hx a (by simp [ha])
    simp [List.dropWhile_cons, hx1, ih2]

/-! ## Decimal rendering reads back to the same value -/

theorem digitsValAux_append (acc : Nat) (xs ys : List Char) :
    digitsValAux acc (xs ++ ys) = digitsValAux (digitsValAux acc xs) ys := by
  induction xs generalizing acc with
  | nil => rfl
  | cons c cs ih => exact ih (acc * 10 + (c.toNat - 48))

theorem natDigitsAux_small (f n : Nat) (h : n < 10) :
    natDigitsAux (f + 1) n = [Char.ofNat (48 + n)] := by
  rw [natDigitsAux, if_pos h]

theorem natDigitsAux_large (f n : Nat) (h : ¬n < 10) :
    natDigitsAux (f + 1) n =
      natDigitsAux f (n / 10) ++ [Char.ofNat (48 + n % 10)] := by
  rw [natDigitsAux, if_neg h]

theorem natDigitsAux_spec :
    ∀ f n, n ≤ f →
      natDigitsAux (f + 1) n ≠ [] ∧
      (∀ d ∈ natDigitsAux (f + 1) n, d.isDigit = true) ∧
      ∀ acc, digitsValAux acc (natDigitsAux (f + 1) n) =
        acc * 10 ^ (natDigitsAux (f + 1) n).length + n := by
  intro f
  induction f with
  | zero =>
    intro n hn
    have hn0 : n = 0 := Nat.le_zero.mp hn
    subst hn0
    rw [natDigitsAux_small 0 0 (by omega)]
    refine ⟨by simp, ?_, ?_⟩
    · intro d hd
      simp at hd
      subst hd
      exact digit_of_range (by omega) (by omega)
    · intro acc
      have hstep : digitsValAux acc [Char.ofNat (48 + 0)] =
          acc * 10 + ((Char.ofNat (48 + 0)).toNat - 48) := rfl
      rw [hstep, toNat_ofNat_small (48 + 0) (by omega)]
      simp [pow_one]
  | succ f ih =>
    intro n hn
    by_cases h10 : n < 10
    · rw [natDigitsAux_small (f + 1) n h10]
      refine ⟨by simp, ?_, ?_⟩
      · intro d hd
        simp at hd
        subst hd
        exact digit_of_range (by omega) (by omega)
      · intro acc
        have hstep : digitsValAux acc [Char.ofNat (48 + n)] =
            acc * 10 + ((Char.ofNat (48 + n)).toNat - 48) := rfl
        rw [hstep, toNat_ofNat_small (48 + n) (by omega)]
        simp only [List.length_singleton, pow_one]
        omega
    · have hdiv : n / 10 ≤ f := by omega
      obtain ⟨hf, hfd⟩ : ∃ g, f = g + 1 ∨ f = g ∧ n / 10 ≤ g := ⟨f, Or.inr ⟨rfl, hdiv⟩⟩
      obtain ⟨hne, hdig, hval⟩ := ih (n / 10) hdiv
      have heq : natDigitsAux (f + 1 + 1) n =
          natDigitsAux (f + 1) (n / 10) ++ [Char.ofNat (48 + n % 10)] :=
        natDigitsAux_large (f + 1) n h10
      rw [heq]
      refine ⟨by simp, ?_, ?_⟩
      · intro d hd
        rcases List.mem_append.mp hd with h | h
        · exact hdig d h
        · simp at h
          subst h
          exact digit_of_range (by omega) (by omega)
      · intro acc
        rw [digitsValAux_append, hval acc]
        have hstep : ∀ a : Nat, digitsValAux a [Char.ofNat (48 + n % 10)] =
            a * 10 + ((Char.ofNat (48 + n % 10)).toNat - 48) := fun a => rfl
        rw [hstep, toNat_ofNat_small (48 + n % 10) (by omega)]
        have hl : (natDigitsAux (f + 1) (n / 10) ++
            [Char.ofNat (48 + n % 10)]).length =
            (natDigitsAux (f + 1) (n / 10)).length + 1 := by simp
        rw [hl, pow_succ]
        have hmod : 48 + n % 10 - 48 = n % 10 := by omega
        rw [hmod]
        ring_nf
        omega

theorem natDigits_ne_nil (n : Nat) : natDigits n ≠ [] :=
  (natDigitsAux_spec n n (Nat.le_refl n)).1

theorem natDigits_digits (n : Nat) : ∀ d ∈ natDigits n, d.isDigit = true :=
  (natDigitsAux_spec n n (Nat.le_refl n)).2.1

theorem digitsVal_natDigits (n : Nat) : digitsVal (natDigits n) = n := by
  have := (natDigitsAux_spec n n (Nat.le_refl n)).2.2 0
  simpa [digitsVal, natDigits] using this

theorem readNatPart_natDigits (n : Nat) (rest : List Char)
    (hrest : ∀ y ∈ rest.take 1, y.isDigit = false) :
    readNatPart (natDigits n ++ rest) = some (n, rest) := by
  have ht := takeWhile_all_append (natDigits_digits n) hrest
  have hd := dropWhile_all_append (natDigits_digits n) hrest
  simp [readNatPart, ht, hd, natDigits_ne_nil n, digitsVal_natDigits]

theorem head_digit_ne_dash {n : Nat} {d : Char} {ds : List Char}
    (h : natDigits n = d :: ds) : d ≠ '-' := by
  have := natDigits_digits n d (by rw [h]; simp)
  have := digit_toNat this
  apply char_ne_of_toNat
  have : ('-').toNat = 45 := by decide
  omega

theorem readInt_intToChars (i : Int) (rest : List Char)
    (hrest : ∀ y ∈ rest.take 1, y.isDigit = false) :
    readInt (intToChars i ++ rest) = some (i, rest) := by
  by_cases hneg : i < 0
  · have hi : intToChars i = '-' :: natDigits (-i).toNat := by
      simp [intToChars, hneg]
    have hstep : readInt ('-' :: (natDigits (-i).toNat ++ rest)) =
        (readNatPart (natDigits (-i).toNat ++ rest)).map
          fun p => (-(p.1 : Int), p.2) := by
      simp [readInt]
    rw [hi, List.cons_append, hstep, readNatPart_natDigits _ _ hrest]
    simp
    omega
  · have hi : intToChars i = natDigits i.toNat := by
      simp [intToChars, hneg]
    obtain ⟨d, ds, hd⟩ : ∃ d ds, natDigits i.toNat = d :: ds := by
      cases h : natDigits i.toNat with
      | nil => exact absurd h (natDigits_ne_nil _)
      | cons d ds => exact ⟨d, ds, rfl⟩
    have hstep : readInt (d :: (ds ++ rest)) =
        (readNatPart (d :: (ds ++ rest))).map fun p => ((p.1 : Int), p.2) := by
      simp [readInt, head_digit_ne_dash hd]
    rw [hi, hd, List.cons_append, hstep, ← List.cons_append, ← hd,
      readNatPart_natDigits _ _ hrest]
    simp
    omega

theorem readParam_none (rest : List Char)
    (h1 : ∀ y ∈ rest.take 1, y.isDigit = false)
    (h2 : ∀ y ∈ rest.take 1, y ≠ '-') :
    readParam rest = (none, rest) := by
  cases rest with
  | nil => rfl
  | cons c t =>
    have hc1 := h1 c (by simp)
    have hc2 := h2 c (by simp)
    simp [readParam, readInt, hc2, readNatPart, List.takeWhile_cons, hc1]

theorem readParam_render (p : Option Int) (rest : List Char)
    (h1 : ∀ y ∈ rest.take 1, y.isDigit = false)
    (h2 : ∀ y ∈ rest.take 1, y ≠ '-') :
    readParam (renderParam p ++ rest) = (p, rest) := by
  cases p with
  | none =>
    simp only [renderParam, List.nil_append]
    exact readParam_none rest h1 h2
  | some i =>
    simp [readParam, renderParam, readInt_intToChars i rest h1]

/-! ## The scanner reads back what the renderer wrote -/

theorem hexVal_hexDigit {x : Nat} (h : x < 16) :
    hexVal (hexDigit x) = some x := by
  interval_cases x <;> decide

theorem unwrap16_signed16 {n : Nat} (h : n < 65536) :
    unwrap16 (signed16 n) = n := by
  unfold unwrap16 signed16
  split <;> omega

theorem intToChars_ne_nil (i : Int) : intToChars i ≠ [] := by
  unfold intToChars
  split
  · simp
  · exact natDigits_ne_nil _

theorem intToChars_head_not_alpha (i : Int) :
    ∀ y ∈ (intToChars i).take 1, y.isAlpha = false := by
  unfold intToChars
  split
  · intro y hy
    simp at hy
    rw [hy]
    exact not_alpha_of_range (by left; decide)
  · intro y hy
    cases hnd : natDigits i.toNat with
    | nil => exact absurd hnd (natDigits_ne_nil _)
    | cons d ds =>
      rw [hnd] at hy
      simp at hy
      have hdd := digit_toNat (natDigits_digits i.toNat d (by rw [hnd]; simp))
      rw [hy]
      exact not_alpha_of_range (by omega)

theorem renderParam_head_not_alpha (p : Option Int) (rest : List Char) :
    ∀ y ∈ (renderParam p ++ ' ' :: rest).take 1, y.isAlpha = false := by
  cases p with
  | none =>
    intro y hy
    simp [renderParam] at hy
    rw [hy]
    exact not_alpha_of_range (by left; decide)
  | some i =>
    intro y hy
    simp only [renderParam] at hy
    cases hic : intToChars i with
    | nil => exact absurd hic (intToChars_ne_nil i)
    | cons d ds =>
      rw [hic] at hy
      simp at hy
      rw [hy]
      exact intToChars_head_not_alpha i d (by rw [hic]; simp)

theorem wordOk_parts {w : List Char} (h : wordOk w = true) :
    w ≠ [] ∧ (∀ a ∈ w, a.isAlpha = true) ∧ w ≠ ['u'] := by
  simp only [wordOk, Bool.and_eq_true, Bool.not_eq_true', decide_eq_false_iff_not,
    List.all_eq_true] at h
  exact ⟨h.1.1, fun a ha => h.1.2 a ha, h.2⟩

theorem scan1_openB (rest : List Char) :
    scan1 (renderItem .openB ++ rest) = some (.openB, rest) := by
  simp [renderItem, scan1]

theorem scan1_closeB (rest : List Char) :
    scan1 (renderItem .closeB ++ rest) = some (.closeB, rest) := by
  have h1 : cbrace ≠ obrace := by decide
  simp [renderItem, scan1, h1]

theorem scan1_rctrl (w : List Char) (p : Option Int) (rest : List Char)
    (hw : wordOk w = true) :
    scan1 (renderItem (.rctrl w p) ++ rest) = some (.rctrl w p, rest) := by
  obtain ⟨hne, hall, hnu⟩ := wordOk_parts hw
  obtain ⟨a, w', ha⟩ : ∃ a w', w = a :: w' := by
    cases w with
    | nil => exact absurd rfl hne
    | cons a w' => exact ⟨a, w', rfl⟩
  have haa : a.isAlpha = true := hall a (by rw [ha]; simp)
  have haq : a ≠ '\'' := by
    apply char_ne_of_toNat
    have := alpha_toNat haa
    have hq : ('\'').toNat = 39 := by decide
    omega
  have h1 : bslash ≠ obrace := by decide
  have h2 : bslash ≠ cbrace := by decide
  have hshape : renderItem (.rctrl w p) ++ rest =
      bslash :: (w ++ (renderParam p ++ ' ' :: rest)) := by
    simp [renderItem]
  rw [hshape]
  simp only [scan1, h1, h2, if_neg, if_true, if_false, if_pos rfl]
  have hsplit : w ++ (renderParam p ++ ' ' :: rest) =
      a :: (w' ++ (renderParam p ++ ' ' :: rest)) := by rw [ha]; simp
  rw [hsplit]
  split
  · next h1x h2x rest2 heq =>
    rw [List.cons.injEq] at heq
    exact absurd heq.1 haq
  · rw [← hsplit]
    have htw : (w ++ (renderParam p ++ ' ' :: rest)).takeWhile Char.isAlpha = w :=
      takeWhile_all_append hall (renderParam_head_not_alpha p rest)
    have hdw : (w ++ (renderParam p ++ ' ' :: rest)).dropWhile Char.isAlpha =
        renderParam p ++ ' ' :: rest :=
      dropWhile_all_append hall (renderParam_head_not_alpha p rest)
    rw [htw, hdw]
    have hrp : readParam (renderParam p ++ ' ' :: rest) = (p, ' ' :: rest) := by
      apply readParam_render
      · intro y hy
        simp at hy
        subst hy
        exact not_digit_of_range (by left; decide)
      · intro y hy
        simp at hy
        subst hy
        decide
    simp only [if_neg hne, if_neg hnu, hrp]
    have hss : skipSpace (' ' :: rest) = rest := rfl
    rw [hss]

theorem skipSpace_cons {c : Char} (h : c ≠ ' ') (rest : List Char) :
    skipSpace (c :: rest) = c :: rest := by
  unfold skipSpace
  split
  · next rest2 heq =>
    rw [List.cons.injEq] at heq
    exact absurd heq.1 h
  · rfl

theorem readUEscape_render {n : Nat} (h : n < 65536) (rest : List Char) :
    readUEscape (intToChars (signed16 n) ++ '?' :: rest) = some (n, rest) := by
  have hq : ∀ y ∈ ('?' :: rest).take 1, y.isDigit = false := by
    intro y hy
    simp at hy
    rw [hy]
    exact not_digit_of_range (by right; decide)
  unfold readUEscape
  rw [readInt_intToChars (signed16 n) ('?' :: rest) hq]
  show (match skipSpace ('?' :: rest) with
    | _ :: rest2 => some (unwrap16 (signed16 n), rest2)
    | [] => none) = some (n, rest)
  rw [skipSpace_cons (by decide) rest]
  show some (unwrap16 (signed16 n), rest) = some (n, rest)
  rw [unwrap16_signed16 h]

theorem intToChars_append_head_not_alpha (i : Int) (zs : List Char) :
    ∀ y ∈ (intToChars i ++ zs).take 1, y.isAlpha = false := by
  intro y hy
  cases hic : intToChars i with
  | nil => exact absurd hic (intToChars_ne_nil i)
  | cons d ds =>
    rw [hic] at hy
    simp at hy
    rw [hy]
    exact intToChars_head_not_alpha i d (by rw [hic]; simp)

theorem isSafeChar_parts {c : Char} (h : isSafeChar c = true) :
    32 ≤ c.toNat ∧ c.toNat ≤ 126 ∧ c ≠ obrace ∧ c ≠ cbrace ∧ c ≠ bslash := by
  simp only [isSafeChar, Bool.and_eq_true, decide_eq_true_eq,
    bne_iff_ne, ne_eq, Bool.not_eq_true', decide_eq_false_iff_not] at h
  exact ⟨h.1.1.1.1, h.1.1.1.2, h.1.1.2, h.1.2, h.2⟩

theorem scan1_uescape_one {m : Nat} (hm : m < 65536) (rest : List Char) :
    scan1 (bslash :: 'u' :: (intToChars (signed16 m) ++ '?' :: rest)) =
      (if 55296 ≤ m ∧ m < 56320 then
        match rest with
        | b1 :: b2 :: rest3 =>
          if b1 = bslash ∧ b2 = 'u' then
            match readUEscape rest3 with
            | some (m2, rest4) =>
              if 56320 ≤ m2 ∧ m2 < 57344 then
                some (.rchr (Char.ofNat
                  (65536 + (m - 55296) * 1024 + (m2 - 56320))), rest4)
              else none
            | none => none
          else none
        | _ => none
      else if 56320 ≤ m ∧ m < 57344 then none
      else some (.rchr (Char.ofNat m), rest)) := by
  have h1 : bslash ≠ obrace := by decide
  have h2 : bslash ≠ cbrace := by decide
  have hqu : ('u' : Char) ≠ '\'' := by decide
  simp only [scan1, h1, h2, if_neg, if_true, if_false, if_pos rfl]
  split
  · next h1x h2x rest2 heq =>
    rw [List.cons.injEq] at heq
    exact absurd heq.1 hqu
  · have hua : ('u' : Char).isAlpha = true := by decide
    have htw : ('u' :: (intToChars (signed16 m) ++ '?' :: rest)).takeWhile
        Char.isAlpha = ['u'] := by
      have := @takeWhile_all_append Char.isAlpha ['u']
        (intToChars (signed16 m) ++ '?' :: rest)
        (by intro a ha; simp at ha; rw [ha]; exact hua)
        (intToChars_append_head_not_alpha _ _)
      simpa using this
    have hdw : ('u' :: (intToChars (signed16 m) ++ '?' :: rest)).dropWhile
        Char.isAlpha = intToChars (signed16 m) ++ '?' :: rest := by
      have := @dropWhile_all_append Char.isAlpha ['u']
        (intToChars (signed16 m) ++ '?' :: rest)
        (by intro a ha; simp at ha; rw [ha]; exact hua)
        (intToChars_append_head_not_alpha _ _)
      simpa using this
    rw [htw, hdw]
    have hne : (['u'] : List Char) ≠ [] := by simp
    rw [if_neg hne, if_pos rfl, readUEscape_render hm rest]

theorem scan1_pair (hi lo : Nat) (hhi : 55296 ≤ hi ∧ hi < 56320)
    (hlo2 : 56320 ≤ lo ∧ lo < 57344) (rest : List Char) :
    scan1 (bslash :: 'u' :: (intToChars (signed16 hi) ++ '?' ::
      (bslash :: 'u' :: (intToChars (signed16 lo) ++ '?' :: rest)))) =
    some (.rchr (Char.ofNat (65536 + (hi - 55296) * 1024 + (lo - 56320))),
      rest) := by
  rw [scan1_uescape_one (by omega)]
  rw [if_pos hhi]
  split
  · next b1 b2 rest3 heq =>
    rw [List.cons.injEq, List.cons.injEq] at heq
    obtain ⟨hb1, hb2, hr3⟩ := heq
    subst hb1
    subst hb2
    subst hr3
    rw [if_pos ⟨rfl, rfl⟩, readUEscape_render (by omega) rest]
    split
    · next m2 rest4 heq2 =>
      rw [Option.some.injEq, Prod.mk.injEq] at heq2
      obtain ⟨hm2, hr4⟩ := heq2
      subst hm2
      subst hr4
      rw [if_pos (by constructor <;> omega)]
    · next heq2 => exact absurd heq2 (by simp)
  · next hno =>
    exact absurd rfl (hno bslash 'u'
      (intToChars (signed16 lo) ++ '?' :: rest))

theorem scan1_rchr_safe (c : Char) (rest : List Char)
    (hsafe : isSafeChar c = true) :
    scan1 (renderItem (.rchr c) ++ rest) = some (.rchr c, rest) := by
  have hrender : renderItem (.rchr c) = escapeChar c := rfl
  rw [hrender]
  obtain ⟨h32, h126, hob, hcb, hbs⟩ := isSafeChar_parts hsafe
  have he : escapeChar c = [c] := by simp [escapeChar, hsafe]
  rw [he]
  simp [scan1, hob, hcb, hbs]

theorem scan1_rchr_byte (c : Char) (rest : List Char)
    (hsafe : ¬isSafeChar c = true) (h256 : c.toNat < 256) :
    scan1 (renderItem (.rchr c) ++ rest) = some (.rchr c, rest) := by
  have hrender : renderItem (.rchr c) = escapeChar c := rfl
  rw [hrender]
  have he : escapeChar c = bslash :: '\'' :: hex2 c.toNat := by
    simp [escapeChar, hsafe, h256]
  have hh : hex2 c.toNat =
      [hexDigit (c.toNat / 16 % 16), hexDigit (c.toNat % 16)] := rfl
  have h1 : bslash ≠ obrace := by decide
  have h2 : bslash ≠ cbrace := by decide
  rw [he, hh]
  simp only [List.cons_append, List.nil_append, scan1, h1, h2, if_neg,
    if_true, if_false, if_pos rfl]
  show (match hexVal (hexDigit (c.toNat / 16 % 16)),
        hexVal (hexDigit (c.toNat % 16)) with
    | some a, some b => some (RItem.rchr (Char.ofNat (16 * a + b)), rest)
    | _, _ => none) = some (.rchr c, rest)
  rw [hexVal_hexDigit (by omega), hexVal_hexDigit (by omega)]
  show some (RItem.rchr (Char.ofNat
    (16 * (c.toNat / 16 % 16) + c.toNat % 16)), rest) = some (.rchr c, rest)
  have harith : 16 * (c.toNat / 16 % 16) + c.toNat % 16 = c.toNat := by
    omega
  rw [harith, Char.ofNat_toNat]

theorem scan1_rchr_bmp (c : Char) (rest : List Char)
    (hsafe : ¬isSafeChar c = true) (h256 : ¬c.toNat < 256)
    (h65536 : c.toNat < 65536) :
    scan1 (renderItem (.rchr c) ++ rest) = some (.rchr c, rest) := by
  have hrender : renderItem (.rchr c) = escapeChar c := rfl
  rw [hrender]
  have hshape : escapeChar c ++ rest =
      bslash :: 'u' :: (intToChars (signed16 c.toNat) ++ '?' :: rest) := by
    simp [escapeChar, hsafe, h256, h65536, uEscape]
  rw [hshape, scan1_uescape_one h65536 rest]
  have hnothigh : ¬(55296 ≤ c.toNat ∧ c.toNat < 56320) := by
    rcases char_valid_toNat c with hv | hv <;> omega
  have hnotlow : ¬(56320 ≤ c.toNat ∧ c.toNat < 57344) := by
    rcases char_valid_toNat c with hv | hv <;> omega
  rw [if_neg hnothigh, if_neg hnotlow, Char.ofNat_toNat]

theorem pairShapeU (a b : Nat) (rest : List Char) :
    (uEscape a ++ (uEscape b ++ rest)) =
    bslash :: 'u' :: (intToChars (signed16 a) ++ '?' ::
      (bslash :: 'u' :: (intToChars (signed16 b) ++ '?' :: rest))) := by
  simp [uEscape]

theorem scan1_rchr_astral (c : Char) (rest : List Char)
    (hsafe : ¬isSafeChar c = true) (h256 : ¬c.toNat < 256)
    (h65536 : ¬c.toNat < 65536) :
    scan1 (renderItem (.rchr c) ++ rest) = some (.rchr c, rest) := by
  have hrender : renderItem (.rchr c) = escapeChar c := rfl
  rw [hrender]
  have ht1114 : c.toNat < 1114112 := char_toNat_lt c
  have hsh1 : escapeChar c = uEscape (55296 + (c.toNat - 65536) / 1024) ++
      uEscape (56320 + (c.toNat - 65536) % 1024) := by
    rw [escapeChar, if_neg hsafe, if_neg h256, if_neg h65536]
  have hshape : escapeChar c ++ rest =
      bslash :: 'u' :: (intToChars (signed16
        (55296 + (c.toNat - 65536) / 1024)) ++ '?' ::
        (bslash :: 'u' :: (intToChars (signed16
          (56320 + (c.toNat - 65536) % 1024)) ++ '?' :: rest))) := by
    rw [hsh1, List.append_assoc]
    exact pairShapeU _ _ rest
  rw [hshape, scan1_pair _ _ (by constructor <;> omega)
    (by constructor <;> omega) rest]
  have harith : 65536 +
      (55296 + (c.toNat - 65536) / 1024 - 55296) * 1024 +
      (56320 + (c.toNat - 65536) % 1024 - 56320) = c.toNat := by
    have := Nat.div_add_mod (c.toNat - 65536) 1024
    omega
  rw [harith, Char.ofNat_toNat]

theorem scan1_rchr (c : Char) (rest : List Char) :
    scan1 (renderItem (.rchr c) ++ rest) = some (.rchr c, rest) := by
  by_cases hsafe : isSafeChar c = true
  · exact scan1_rchr_safe c rest hsafe
  · by_cases h256 : c.toNat < 256
    · exact scan1_rchr_byte c rest hsafe h256
    · by_cases h65536 : c.toNat < 65536
      · exact scan1_rchr_bmp c rest hsafe h256 h65536
      · exact scan1_rchr_astral c rest hsafe h256 h65536

theorem uEscape_ne_nil (n : Nat) : uEscape n ≠ [] := by
  simp [uEscape]

theorem uEscape_append_ne_nil (a b : Nat) : uEscape a ++ uEscape b ≠ [] := by
  simp [uEscape]

theorem escapeChar_ne_nil (c : Char) : escapeChar c ≠ [] := by
  by_cases h1 : isSafeChar c = true
  · rw [escapeChar, if_pos h1]
    simp
  · by_cases h2 : c.toNat < 256
    · rw [escapeChar, if_neg h1, if_pos h2]
      simp
    · by_cases h3 : c.toNat < 65536
      · rw [escapeChar, if_neg h1, if_neg h2, if_pos h3]
        exact uEscape_ne_nil _
      · rw [escapeChar, if_neg h1, if_neg h2, if_neg h3]
        exact uEscape_append_ne_nil _ _

theorem renderItem_ne_nil (i : RItem) : renderItem i ≠ [] := by
  cases i with
  | openB => simp [renderItem]
  | closeB => simp [renderItem]
  | rctrl w p => simp [renderItem]
  | rchr c => exact escapeChar_ne_nil c

theorem scan1_renderItem (i : RItem) (rest : List Char)
    (hwf : wfItem i = true) :
    scan1 (renderItem i ++ rest) = some (i, rest) := by
  cases i with
  | openB => exact scan1_openB rest
  | closeB => exact scan1_closeB rest
  | rctrl w p => exact scan1_rctrl w p rest hwf
  | rchr c => exact scan1_rchr c rest

theorem scanItemsF_nil (f : Nat) : scanItemsF f [] = some [] := by
  cases f <;> rfl

theorem scanItemsF_render :
    ∀ (is : List RItem), (∀ i ∈ is, wfItem i = true) →
      ∀ f, is.length ≤ f → scanItemsF f (renderItems is) = some is := by
  intro is
  induction is with
  | nil =>
    intro _ f _
    exact scanItemsF_nil f
  | cons i is2 ih =>
    intro hwf f hf
    obtain ⟨f2, rfl⟩ : ∃ f2, f = f2 + 1 :=
      ⟨f - 1, by simp only [List.length_cons] at hf; omega⟩
    have hri : renderItems (i :: is2) = renderItem i ++ renderItems is2 := rfl
    rw [hri]
    obtain ⟨c0, cs0, hc⟩ :
        ∃ c0 cs0, renderItem i ++ renderItems is2 = c0 :: cs0 := by
      cases h : renderItem i with
      | nil => exact absurd h (renderItem_ne_nil i)
      | cons a b => exact ⟨a, b ++ renderItems is2, by simp [h]⟩
    rw [hc]
    have heq : scanItemsF (f2 + 1) (c0 :: cs0) =
        match scan1 (c0 :: cs0) with
        | none => none
        | some (it, rest) => (scanItemsF f2 rest).map (it :: ·) := rfl
    rw [heq, ← hc, scan1_renderItem i _ (hwf i (by simp))]
    show (scanItemsF f2 (renderItems is2)).map (i :: ·) = some (i :: is2)
    rw [ih (fun j hj => hwf j (by simp [hj])) f2
      (by simp only [List.length_cons] at hf; omega)]
    rfl

/-! ## The builder reconstructs the flattened tree -/

theorem goodL_parts {n : RtfNode} {ns : List RtfNode}
    (h : goodL (n :: ns) = true) : goodN n = true ∧ goodL ns = true := by
  simp only [goodL, Bool.and_eq_true] at h
  exact ⟨h.1.1, h.1.2⟩

theorem goodL_adj {s : List Char} {ns : List RtfNode}
    (h : goodL (.rtext s :: ns) = true) :
    ∀ t r, ns ≠ .rtext t :: r := by
  intro t r hne
  subst hne
  simp [goodL] at h

theorem chrRun_nochr {t : List RItem}
    (h : ∀ c r2, t ≠ .rchr c :: r2) : chrRun t = [] := by
  cases t with
  | nil => rfl
  | cons x r =>
    cases x with
    | rchr c => exact absurd rfl (h c r)
    | openB => rfl
    | closeB => rfl
    | rctrl w p => rfl

theorem chrRest_nochr {t : List RItem}
    (h : ∀ c r2, t ≠ .rchr c :: r2) : chrRest t = t := by
  cases t with
  | nil => rfl
  | cons x r =>
    cases x with
    | rchr c => exact absurd rfl (h c r)
    | openB => rfl
    | closeB => rfl
    | rctrl w p => rfl

theorem chrRun_map {s : List Char} {t : List RItem}
    (h : ∀ c r2, t ≠ .rchr c :: r2) :
    chrRun (s.map .rchr ++ t) = s := by
  induction s with
  | nil => simpa using chrRun_nochr h
  | cons c s2 ih => simp [chrRun, ih]

theorem chrRest_map {s : List Char} {t : List RItem}
    (h : ∀ c r2, t ≠ .rchr c :: r2) :
    chrRest (s.map .rchr ++ t) = t := by
  induction s with
  | nil => simpa using chrRest_nochr h
  | cons c s2 ih => simpa [chrRest] using ih

theorem flatL_head_not_chr {ns : List RtfNode} {rest : List RItem}
    (hg : goodL ns = true)
    (hstop : rest = [] ∨ ∃ r2, rest = .closeB :: r2)
    (hhd : ∀ s r, ns ≠ .rtext s :: r) :
    ∀ c r2, flatL ns ++ rest ≠ .rchr c :: r2 := by
  intro c r2 hne
  cases ns with
  | nil =>
    simp only [flatL, List.nil_append] at hne
    rcases hstop with h | ⟨r3, h⟩ <;> subst h
    · simp at hne
    · simp at hne
  | cons n ns2 =>
    cases n with
    | rtext s => exact absurd rfl (hhd s ns2)
    | group cs => simp [flatL, flatN] at hne
    | ctrl w p => simp [flatL, flatN] at hne

theorem buildF_flat :
    ∀ f (ns : List RtfNode) (rest : List RItem), goodL ns = true →
      (rest = [] ∨ ∃ r2, rest = .closeB :: r2) →
      (flatL ns ++ rest).length < f →
      buildF f (flatL ns ++ rest) = some (ns, rest) := by
  intro f
  induction f using Nat.strong_induction_on with
  | _ f ih =>
    intro ns rest hg hstop hlen
    obtain ⟨f2, rfl⟩ : ∃ f2, f = f2 + 1 := ⟨f - 1, by omega⟩
    cases ns with
    | nil =>
      simp only [flatL, List.nil_append]
      rcases hstop with h | ⟨r2, h⟩ <;> subst h
      · rfl
      · rfl
    | cons n ns2 =>
      obtain ⟨hgn, hgl⟩ := goodL_parts hg
      cases n with
      | ctrl w p =>
        have hsh : flatL (.ctrl w p :: ns2) ++ rest =
            .rctrl w p :: (flatL ns2 ++ rest) := by simp [flatL, flatN]
        rw [hsh]
        have heq : buildF (f2 + 1) (.rctrl w p :: (flatL ns2 ++ rest)) =
            (buildF f2 (flatL ns2 ++ rest)).map
              fun pr => (.ctrl w p :: pr.1, pr.2) := rfl
        rw [heq, ih f2 (by omega) ns2 rest hgl hstop
          (by rw [hsh] at hlen; simp at hlen ⊢; omega)]
        rfl
      | group cs =>
        have hsh : flatL (.group cs :: ns2) ++ rest =
            .openB :: (flatL cs ++ (.closeB :: (flatL ns2 ++ rest))) := by
          simp [flatL, flatN]
        rw [hsh]
        have heq : buildF (f2 + 1)
            (.openB :: (flatL cs ++ (.closeB :: (flatL ns2 ++ rest)))) =
            match buildF f2 (flatL cs ++ (.closeB :: (flatL ns2 ++ rest))) with
            | some (cs2, .closeB :: rest2) =>
              (buildF f2 rest2).map fun pr => (.group cs2 :: pr.1, pr.2)
            | _ => none := rfl
        rw [heq]
        have hlen2 : (flatL cs ++ (.closeB :: (flatL ns2 ++ rest))).length < f2 := by
          rw [hsh] at hlen
          simp at hlen ⊢
          omega
        rw [ih f2 (by omega) cs (.closeB :: (flatL ns2 ++ rest)) hgn
          (Or.inr ⟨flatL ns2 ++ rest, rfl⟩) hlen2]
        show (buildF f2 (flatL ns2 ++ rest)).map
          (fun pr => (.group cs :: pr.1, pr.2)) = some (.group cs :: ns2, rest)
        rw [ih f2 (by omega) ns2 rest hgl hstop
          (by rw [hsh] at hlen; simp at hlen ⊢; omega)]
        rfl
      | rtext s =>
        have hsne : s ≠ [] := by
          have : goodN (.rtext s) = !(s = []) := rfl
          rw [this] at hgn
          simpa using hgn
        obtain ⟨c, s2, rfl⟩ : ∃ c s2, s = c :: s2 := by
          cases s with
          | nil => exact absurd rfl hsne
          | cons c s2 => exact ⟨c, s2, rfl⟩
        have hnochr : ∀ c2 r2, flatL ns2 ++ rest ≠ .rchr c2 :: r2 :=
          flatL_head_not_chr hgl hstop (fun t r => goodL_adj hg t r)
        have hsh : flatL (.rtext (c :: s2) :: ns2) ++ rest =
            .rchr c :: (s2.map .rchr ++ (flatL ns2 ++ rest)) := by
          simp [flatL, flatN]
        rw [hsh]
        have heq : buildF (f2 + 1)
            (.rchr c :: (s2.map .rchr ++ (flatL ns2 ++ rest))) =
            (buildF f2 (chrRest (s2.map .rchr ++ (flatL ns2 ++ rest)))).map
              fun pr => (.rtext (c :: chrRun (s2.map .rchr ++
                (flatL ns2 ++ rest))) :: pr.1, pr.2) := rfl
        rw [heq, chrRun_map hnochr, chrRest_map hnochr]
        rw [ih f2 (by omega) ns2 rest hgl hstop
          (by rw [hsh] at hlen; simp at hlen ⊢; omega)]
        rfl

theorem buildRoot_flat (cs : List RtfNode) (h : goodL cs = true) :
    buildRoot (flatN (.group cs)) = some (.group cs) := by
  have hsh : flatN (.group cs) = flatL [.group cs] ++ [] := by
    simp [flatL, flatN]
  have hg1 : goodL [.group cs] = true := by
    simp [goodL, goodN, h]
  have hb : buildF ((flatL [.group cs] ++ []).length + 1)
      (flatL [.group cs] ++ []) = some ([.group cs], []) :=
    buildF_flat _ _ _ hg1 (Or.inl rfl) (by omega)
  rw [buildRoot, hsh, hb]

mutual

theorem flatN_wf (n : RtfNode) (h : goodN n = true) :
    ∀ i ∈ flatN n, wfItem i = true := by
  cases n with
  | group cs =>
    intro i hi
    simp only [flatN, List.mem_cons, List.mem_append,
      List.mem_singleton] at hi
    rcases hi with (rfl | hi) | (rfl | h0)
    · rfl
    · exact flatL_wf cs h i hi
    · rfl
    · simp at h0
  | ctrl w p =>
    intro i hi
    simp only [flatN, List.mem_singleton] at hi
    subst hi
    exact h
  | rtext s =>
    intro i hi
    simp only [flatN, List.mem_map] at hi
    obtain ⟨c, _, rfl⟩ := hi
    rfl

theorem flatL_wf (ns : List RtfNode) (h : goodL ns = true) :
    ∀ i ∈ flatL ns, wfItem i = true := by
  cases ns with
  | nil => intro i hi; simp [flatL] at hi
  | cons n ns2 =>
    intro i hi
    simp only [flatL, List.mem_append] at hi
    obtain ⟨hn, hl⟩ := goodL_parts h
    rcases hi with hi | hi
    · exact flatN_wf n hn i hi
    · exact flatL_wf ns2 hl i hi

end

theorem renderItems_length (is : List RItem) :
    is.length ≤ (renderItems is).length := by
  induction is with
  | nil => simp [renderItems]
  | cons i is2 ih =>
    have hr : renderItems (i :: is2) = renderItem i ++ renderItems is2 := rfl
    rw [hr]
    have hpos : 1 ≤ (renderItem i).length := by
      cases h : renderItem i with
      | nil => exact absurd h (renderItem_ne_nil i)
      | cons a b => simp
    simp only [List.length_cons, List.length_append]
    omega

theorem parseRtf_render {cs : List RtfNode} (h : goodL cs = true) :
    parseRtfTree (renderRtfTree (.group cs)) = some (.group cs) := by
  have hg : goodN (.group cs) = true := h
  have hwf : ∀ i ∈ flatN (.group cs), wfItem i = true := flatN_wf _ hg
  have hscan : scanItemsF ((renderRtfTree (.group cs)).length + 1)
      (renderItems (flatN (.group cs))) = some (flatN (.group cs)) := by
    apply scanItemsF_render _ hwf
    have := renderItems_length (flatN (.group cs))
    have hrr : renderRtfTree (.group cs) =
        renderItems (flatN (.group cs)) := rfl
    rw [hrr]
    omega
  rw [parseRtfTree]
  have hrr : renderRtfTree (.group cs) = renderItems (flatN (.group cs)) := rfl
  rw [hrr] at hscan ⊢
  rw [hscan]
  show buildRoot (flatN (.group cs)) = some (.group cs)
  exact buildRoot_flat cs h

/-! ## Extraction undoes emission on normal-form IR -/

theorem nfL_parts {st : Fmt} {x : Inline} {xs : List Inline}
    (h : nfL st (x :: xs) = true) :
    nfI st x = true ∧ nfL st xs = true := by
  simp only [nfL, Bool.and_eq_true] at h
  exact ⟨h.1.1, h.1.2⟩

theorem nfI_text {st : Fmt} {s : List Char}
    (h : nfI st (.text s) = true) : s ≠ [] := by
  simp only [nfI, Bool.not_eq_true', decide_eq_false_iff_not] at h
  exact h

theorem nfI_emph {st : Fmt} {xs : List Inline}
    (h : nfI st (.emph xs) = true) :
    st.italic = false ∧ nfL { st with italic := true } xs = true := by
  simp only [nfI, Bool.and_eq_true, Bool.not_eq_true'] at h
  exact h

theorem nfI_strong {st : Fmt} {xs : List Inline}
    (h : nfI st (.strong xs) = true) :
    st.bold = false ∧ nfL { st with bold := true } xs = true := by
  simp only [nfI, Bool.and_eq_true, Bool.not_eq_true'] at h
  exact h

theorem concatTexts_textNode (s : List Char) :
    concatTexts (textNode s) = s := by
  by_cases h : s = []
  · subst h
    rfl
  · rw [textNode, if_neg h]
    show s ++ concatTexts [] = s
    simp [concatTexts]

mutual

theorem exI_emit (st : Fmt) (x : Inline) (h : nfI st x = true)
    (t : List RtfNode) : exIL (emitI x ++ t) = x :: exIL t := by
  cases x with
  | text s =>
    have hs := nfI_text h
    have he : emitI (.text s) = [.rtext s] := by
      simp [emitI, textNode, hs]
    rw [he, List.singleton_append]
    simp only [exIL]
  | emph xs =>
    obtain ⟨hi, hxs⟩ := nfI_emph h
    have he : emitI (.emph xs) = [.group (.ctrl wI none :: emitIL xs)] := rfl
    rw [he, List.singleton_append]
    simp only [exIL]
    have hg : exGroupI (.ctrl wI none :: emitIL xs) =
        [.emph (exIL (emitIL xs))] := by
      simp only [exGroupI]
      simp
    rw [hg]
    have hinner := exL_emit { st with italic := true } xs hxs []
    rw [List.append_nil] at hinner
    simp only [exIL, List.append_nil] at hinner
    rw [hinner, List.singleton_append]
  | strong xs =>
    obtain ⟨hb, hxs⟩ := nfI_strong h
    have he : emitI (.strong xs) = [.group (.ctrl wB none :: emitIL xs)] := rfl
    rw [he, List.singleton_append]
    simp only [exIL]
    have hg : exGroupI (.ctrl wB none :: emitIL xs) =
        [.strong (exIL (emitIL xs))] := by
      have h1 : ¬wB = wI := by decide
      simp [exGroupI, h1]
    rw [hg]
    have hinner := exL_emit { st with bold := true } xs hxs []
    rw [List.append_nil] at hinner
    simp only [exIL, List.append_nil] at hinner
    rw [hinner, List.singleton_append]
  | code s =>
    have he : emitI (.code s) = [.group (.ctrl wF (some 1) :: textNode s)] := rfl
    rw [he, List.singleton_append]
    simp only [exIL]
    have hg : exGroupI (.ctrl wF (some 1) :: textNode s) =
        [.code (concatTexts (textNode s))] := by
      have h1 : ¬wF = wI := by decide
      have h2 : ¬wF = wB := by decide
      simp [exGroupI, h1, h2]
    rw [hg, concatTexts_textNode, List.singleton_append]
  | link d u =>
    have he : emitI (.link d u) = [.group [.ctrl wFIELD none,
        .group (.ctrl wFLDINST none :: [.rtext (str "HYPERLINK " ++ u)]),
        .group (.ctrl wFLDRSLT none :: textNode d)]] := rfl
    rw [he, List.singleton_append]
    simp only [exIL]
    have hrslt : findSub wFLDRSLT
        [.group (.ctrl wFLDINST none :: [.rtext (str "HYPERLINK " ++ u)]),
         .group (.ctrl wFLDRSLT none :: textNode d)] =
        some (textNode d) := by
      have h1 : ¬wFLDINST = wFLDRSLT := by decide
      simp [findSub, h1]
    have hinst : findSub wFLDINST
        [.group (.ctrl wFLDINST none :: [.rtext (str "HYPERLINK " ++ u)]),
         .group (.ctrl wFLDRSLT none :: textNode d)] =
        some [.rtext (str "HYPERLINK " ++ u)] := by
      simp [findSub]
    have hg : exGroupI [.ctrl wFIELD none,
        .group (.ctrl wFLDINST none :: [.rtext (str "HYPERLINK " ++ u)]),
        .group (.ctrl wFLDRSLT none :: textNode d)] =
        [.link (concatTexts (textNode d))
          (dropPrefixIf (str "HYPERLINK ")
            (concatTexts [RtfNode.rtext (str "HYPERLINK " ++ u)]))] := by
      have h1 : ¬wFIELD = wI := by decide
      have h2 : ¬wFIELD = wB := by decide
      have h3 : ¬wFIELD = wF := by decide
      simp [exGroupI, h1, h2, h3, hrslt, hinst]
    rw [hg]
    have hct : concatTexts [RtfNode.rtext (str "HYPERLINK " ++ u)] =
        str "HYPERLINK " ++ u := by
      simp [concatTexts]
    rw [concatTexts_textNode, hct, dropPrefixIf,
      if_pos (leadsWith_append (str "HYPERLINK ") u)]
    have hdrop : (str "HYPERLINK " ++ u).drop (str "HYPERLINK ").length = u :=
      List.drop_left _ _
    rw [hdrop, List.singleton_append]
  | lineBreak =>
    have he : emitI .lineBreak = [.ctrl wLINE none] := rfl
    rw [he, List.singleton_append]
    simp [exIL]

theorem exL_emit (st : Fmt) (xs : List Inline) (h : nfL st xs = true)
    (t : List RtfNode) : exIL (emitIL xs ++ t) = xs ++ exIL t := by
  cases xs with
  | nil => simp [emitIL]
  | cons x xs2 =>
    obtain ⟨hx, hxs⟩ := nfL_parts h
    have he : emitIL (x :: xs2) = emitI x ++ emitIL xs2 := rfl
    rw [he, List.append_assoc, exI_emit st x hx (emitIL xs2 ++ t),
      exL_emit st xs2 hxs t]
    simp

end

theorem levelOfFs_fsOfLevel (l : Nat) : levelOfFs (fsOfLevel l) = l := by
  unfold levelOfFs fsOfLevel
  omega

theorem exIL_nil : exIL [] = [] := by simp [exIL]

theorem exIL_par (rest : List RtfNode) :
    exIL (.ctrl wPAR none :: rest) = exIL rest := by
  have h : ¬wPAR = wLINE := by decide
  simp [exIL, h]

theorem exIL_inls (st : Fmt) (xs : List Inline) (h : nfL st xs = true) :
    exIL (emitIL xs ++ [.ctrl wPAR none]) = xs := by
  rw [exL_emit st xs h, exIL_par, exIL_nil, List.append_nil]

theorem exBL_nil : exBL [] = [] := by simp [exBL]

theorem exBL_ctrl (w : List Char) (p : Option Int) (rest : List RtfNode) :
    exBL (.ctrl w p :: rest) = exBL rest := by
  simp [exBL]

theorem exItemsX_nil : exItemsX [] = [] := by simp [exItemsX]

theorem exRows_nil : exRows [] = [] := by simp [exRows]

theorem exCellsX_nil : exCellsX [] = [] := by simp [exCellsX]

theorem exCellsX_ctrl (w : List Char) (p : Option Int) (rest : List RtfNode) :
    exCellsX (.ctrl w p :: rest) = exCellsX rest := by
  simp [exCellsX]

theorem exCellsX_cellxAux (a : Nat) (ls : List Nat) (t : List RtfNode) :
    exCellsX (cellxAux a ls ++ t) = exCellsX t := by
  induction ls generalizing a with
  | nil => simp [cellxAux]
  | cons n ns ih =>
    have he : cellxAux a (n :: ns) = .ctrl wCELLX (some (a + 120 * (n + 1))) ::
        cellxAux (a + 120 * (n + 1)) ns := rfl
    rw [he, List.cons_append, exCellsX_ctrl]
    exact ih _

theorem concatTexts_codeBody (body : List Char) :
    concatTexts (textNode body ++ [.ctrl wPAR none]) = body := by
  by_cases h : body = []
  · subst h
    simp [textNode, concatTexts]
  · rw [textNode, if_neg h]
    simp [concatTexts]

theorem findSub_textNode_none (w : List Char) (body : List Char) :
    findSub w (textNode body ++ [.ctrl wPAR none]) = none := by
  by_cases h : body = []
  · subst h
    simp [textNode, findSub]
  · rw [textNode, if_neg h]
    simp [findSub]

theorem isHeaderGroup_emitI (st : Fmt) (x : Inline) (h : nfI st x = true)
    (rest : List RtfNode) : isHeaderGroup (emitI x ++ rest) = false := by
  cases x with
  | text s =>
    have hs := nfI_text h
    have he : emitI (.text s) = [.rtext s] := by simp [emitI, textNode, hs]
    rw [he]
    rfl
  | emph xs => rfl
  | strong xs => rfl
  | code s => rfl
  | link d u => rfl
  | lineBreak =>
    have he : emitI .lineBreak = [.ctrl wLINE none] := rfl
    rw [he]
    show (wLINE = wFONTTBL || wLINE = wCOLORTBL) = false
    decide

theorem isHeaderGroup_para (st : Fmt) (xs : List Inline)
    (h : nfL st xs = true) :
    isHeaderGroup (emitIL xs ++ [.ctrl wPAR none]) = false := by
  cases xs with
  | nil =>
    show (wPAR = wFONTTBL || wPAR = wCOLORTBL) = false
    decide
  | cons x xs2 =>
    obtain ⟨hx, _⟩ := nfL_parts h
    have he : emitIL (x :: xs2) = emitI x ++ emitIL xs2 := rfl
    rw [he, List.append_assoc]
    exact isHeaderGroup_emitI st x hx _

theorem readyBs_parts {b : Block} {bs : List Block}
    (h : readyBs (b :: bs) = true) :
    readyB b = true ∧ readyBs bs = true := by
  simp only [readyBs, Bool.and_eq_true] at h
  exact h

theorem readyBss_parts {bs : List Block} {rest : List (List Block)}
    (h : readyBss (bs :: rest) = true) :
    readyBs bs = true ∧ readyBss rest = true := by
  simp only [readyBss, Bool.and_eq_true] at h
  exact h

theorem readyBsss_parts {row : List (List Block)}
    {rest : List (List (List Block))}
    (h : readyBsss (row :: rest) = true) :
    readyBss row = true ∧ readyBsss rest = true := by
  simp only [readyBsss, Bool.and_eq_true] at h
  exact h

theorem exB_para (xs : List Inline) (h : nfL Fmt.none xs = true) :
    exB (emitIL xs ++ [.ctrl wPAR none]) = .para xs := by
  have hfinal : exIL (emitIL xs ++ [.ctrl wPAR none]) = xs :=
    exIL_inls Fmt.none xs h
  cases xs with
  | nil =>
    show exB [.ctrl wPAR none] = .para []
    have h1 : ¬wPAR = wFS := by decide
    have h2 : ¬((wPAR = wF : Bool) && ((none : Option Int) = some 1 : Bool)) =
        true := by decide
    have h3 : ¬wPAR = wLI := by decide
    have h4 : ¬wPAR = wLS := by decide
    have h5 : ¬wPAR = wTBL := by decide
    have h6 : ¬wPAR = wHR := by decide
    simp [exB, h1, h2, h3, h4, h5, h6, exIL_par, exIL_nil]
  | cons x xs2 =>
    obtain ⟨hx, hxs⟩ := nfL_parts h
    have he : emitIL (x :: xs2) ++ [.ctrl wPAR none] =
        emitI x ++ (emitIL xs2 ++ [.ctrl wPAR none]) := by
      simp [emitIL]
    rw [he] at hfinal ⊢
    cases x with
    | text s =>
      have hs := nfI_text hx
      have hei : emitI (.text s) = [.rtext s] := by simp [emitI, textNode, hs]
      rw [hei] at hfinal ⊢
      rw [List.singleton_append] at hfinal ⊢
      simp only [exB]
      rw [hfinal]
    | emph ys =>
      have hei : emitI (.emph ys) = [.group (.ctrl wI none :: emitIL ys)] := rfl
      rw [hei] at hfinal ⊢
      rw [List.singleton_append] at hfinal ⊢
      simp only [exB]
      rw [hfinal]
    | strong ys =>
      have hei : emitI (.strong ys) =
          [.group (.ctrl wB none :: emitIL ys)] := rfl
      rw [hei] at hfinal ⊢
      rw [List.singleton_append] at hfinal ⊢
      simp only [exB]
      rw [hfinal]
    | code s =>
      have hei : emitI (.code s) =
          [.group (.ctrl wF (some 1) :: textNode s)] := rfl
      rw [hei] at hfinal ⊢
      rw [List.singleton_append] at hfinal ⊢
      simp only [exB]
      rw [hfinal]
    | link d u =>
      have hei : emitI (.link d u) = [.group [.ctrl wFIELD none,
          .group (.ctrl wFLDINST none :: [.rtext (str "HYPERLINK " ++ u)]),
          .group (.ctrl wFLDRSLT none :: textNode d)]] := rfl
      rw [hei] at hfinal ⊢
      rw [List.singleton_append] at hfinal ⊢
      simp only [exB]
      rw [hfinal]
    | lineBreak =>
      have hei : emitI .lineBreak = [.ctrl wLINE none] := rfl
      rw [hei] at hfinal ⊢
      rw [List.singleton_append] at hfinal ⊢
      have h1 : ¬wLINE = wFS := by decide
      have h2 : ¬((wLINE = wF : Bool) &&
          ((none : Option Int) = some 1 : Bool)) = true := by decide
      have h3 : ¬wLINE = wLI := by decide
      have h4 : ¬wLINE = wLS := by decide
      have h5 : ¬wLINE = wTBL := by decide
      have h6 : ¬wLINE = wHR := by decide
      simp only [exB, h1, h2, h3, h4, h5, h6, if_neg, if_false]
      rw [hfinal]
      simp

theorem exB_codeBlockNone (body : List Char) :
    exB (.ctrl wF (some 1) :: (textNode body ++ [.ctrl wPAR none])) =
      .codeBlock none body := by
  have h1 : ¬wF = wFS := by decide
  simp [exB, h1, findSub_textNode_none, concatTexts_codeBody]

theorem exB_codeBlockSome (lg body : List Char) :
    exB (.ctrl wF (some 1) ::
      (RtfNode.group (.ctrl wCBLANG none :: textNode lg) ::
        (textNode body ++ [.ctrl wPAR none]))) =
      .codeBlock (some lg) body := by
  have h1 : ¬wF = wFS := by decide
  have hfs : findSub wCBLANG (RtfNode.group (.ctrl wCBLANG none :: textNode lg) ::
      (textNode body ++ [.ctrl wPAR none])) = some (textNode lg) := by
    simp [findSub]
  have hct : concatTexts (RtfNode.group (.ctrl wCBLANG none :: textNode lg) ::
      (textNode body ++ [.ctrl wPAR none])) = body := by
    have he : concatTexts (RtfNode.group (.ctrl wCBLANG none :: textNode lg) ::
        (textNode body ++ [.ctrl wPAR none])) =
        concatTexts (textNode body ++ [.ctrl wPAR none]) := by
      simp [concatTexts]
    rw [he, concatTexts_codeBody]
  simp [exB, h1, hfs, hct, concatTexts_textNode]

theorem exB_hrule : exB [.ctrl wHR none] = .hrule := by
  have h1 : ¬wHR = wFS := by decide
  have h2 : ¬((wHR = wF : Bool) && ((none : Option Int) = some 1 : Bool)) =
      true := by decide
  have h3 : ¬wHR = wLI := by decide
  have h4 : ¬wHR = wLS := by decide
  have h5 : ¬wHR = wTBL := by decide
  simp [exB, h1, h2, h3, h4, h5]

mutual

theorem exB_emit (b : Block) (h : readyB b = true) (t : List RtfNode) :
    exBL (emitB b :: t) = b :: exBL t := by
  cases b with
  | heading l xs =>
    have hready : nfL Fmt.none xs = true := h
    have hem : emitB (.heading l xs) = .group (.ctrl wFS (some (fsOfLevel l)) ::
        (emitIL xs ++ [.ctrl wPAR none])) := by
      simp [emitB]
    rw [hem]
    have d1 : ¬wFS = wFONTTBL := by decide
    have d2 : ¬wFS = wCOLORTBL := by decide
    have hdr : isHeaderGroup (.ctrl wFS (some (fsOfLevel l)) ::
        (emitIL xs ++ [.ctrl wPAR none])) = false := by
      simp [isHeaderGroup, d1, d2]
    have hexb : exB (.ctrl wFS (some (fsOfLevel l)) ::
        (emitIL xs ++ [.ctrl wPAR none])) = .heading l xs := by
      simp [exB, levelOfFs_fsOfLevel, exIL_inls Fmt.none xs hready]
    simp only [exBL]
    simp [hdr, hexb]
  | para xs =>
    have hready : nfL Fmt.none xs = true := h
    have hem : emitB (.para xs) =
        .group (emitIL xs ++ [.ctrl wPAR none]) := by
      simp [emitB]
    rw [hem]
    simp only [exBL]
    simp [isHeaderGroup_para Fmt.none xs hready, exB_para xs hready]
  | codeBlock lang body =>
    cases lang with
    | none =>
      have hem : emitB (.codeBlock none body) = .group (.ctrl wF (some 1) ::
          (textNode body ++ [.ctrl wPAR none])) := by
        simp [emitB]
      rw [hem]
      have d1 : ¬wF = wFONTTBL := by decide
      have d2 : ¬wF = wCOLORTBL := by decide
      have hdr : isHeaderGroup (.ctrl wF (some 1) ::
          (textNode body ++ [.ctrl wPAR none])) = false := by
        simp [isHeaderGroup, d1, d2]
      simp only [exBL]
      simp [hdr, exB_codeBlockNone body]
    | some lg =>
      have hem : emitB (.codeBlock (some lg) body) =
          .group (.ctrl wF (some 1) ::
            (RtfNode.group (.ctrl wCBLANG none :: textNode lg) ::
              (textNode body ++ [.ctrl wPAR none]))) := by
        simp [emitB]
      rw [hem]
      have d1 : ¬wF = wFONTTBL := by decide
      have d2 : ¬wF = wCOLORTBL := by decide
      have hdr : isHeaderGroup (.ctrl wF (some 1) ::
          (RtfNode.group (.ctrl wCBLANG none :: textNode lg) ::
            (textNode body ++ [.ctrl wPAR none]))) = false := by
        simp [isHeaderGroup, d1, d2]
      simp only [exBL]
      simp [hdr, exB_codeBlockSome lg body]
  | quote bs =>
    have hready : readyBs bs = true := h
    have hem : emitB (.quote bs) =
        .group (.ctrl wLI (some 720) :: emitBs bs) := by
      simp [emitB]
    rw [hem]
    have d1 : ¬wLI = wFONTTBL := by decide
    have d2 : ¬wLI = wCOLORTBL := by decide
    have hdr : isHeaderGroup (.ctrl wLI (some 720) :: emitBs bs) = false := by
      simp [isHeaderGroup, d1, d2]
    have hin : exBL (emitBs bs) = bs := by
      have hx := exBL_emit bs hready []
      rw [List.append_nil] at hx
      rw [hx, exBL_nil, List.append_nil]
    have n1 : ¬wLI = wFS := by decide
    have n2 : ¬((wLI = wF : Bool) &&
        ((some 720 : Option Int) = some 1 : Bool)) = true := by decide
    have hexb : exB (.ctrl wLI (some 720) :: emitBs bs) = .quote bs := by
      simp [exB, n1, n2, hin]
    simp only [exBL]
    simp [hdr, hexb]
  | blist o items =>
    have hready : readyBss items = true := h
    have hem : emitB (.blist o items) =
        .group (.ctrl wLS (some (if o then 1 else 0)) :: emitItems items) := by
      simp [emitB]
    rw [hem]
    have d1 : ¬wLS = wFONTTBL := by decide
    have d2 : ¬wLS = wCOLORTBL := by decide
    have hdr : isHeaderGroup (.ctrl wLS (some (if o then 1 else 0)) ::
        emitItems items) = false := by
      simp [isHeaderGroup, d1, d2]
    have hin : exItemsX (emitItems items) = items := by
      have hx := exItems_emit items hready []
      rw [List.append_nil] at hx
      rw [hx, exItemsX_nil, List.append_nil]
    have n1 : ¬wLS = wFS := by decide
    have n3 : ¬wLS = wLI := by decide
    have hexb : exB (.ctrl wLS (some (if o then 1 else 0)) ::
        emitItems items) = .blist o items := by
      have n0 : ¬wLS = wF := by decide
      cases o with
      | true =>
        have n2 : ¬((wLS = wF : Bool) &&
            ((some 1 : Option Int) = some 1 : Bool)) = true := by decide
        simp [exB, n0, n1, n2, n3, hin]
      | false =>
        have n2 : ¬((wLS = wF : Bool) &&
            ((some 0 : Option Int) = some 1 : Bool)) = true := by decide
        simp [exB, n0, n1, n2, n3, hin]
    simp only [exBL]
    simp [hdr, hexb]
  | table rows =>
    have hready : readyBsss rows = true := h
    have hem : emitB (.table rows) =
        .group (.ctrl wTBL none :: emitRows rows) := by
      simp [emitB]
    rw [hem]
    have d1 : ¬wTBL = wFONTTBL := by decide
    have d2 : ¬wTBL = wCOLORTBL := by decide
    have hdr : isHeaderGroup (.ctrl wTBL none :: emitRows rows) = false := by
      simp [isHeaderGroup, d1, d2]
    have hin : exRows (emitRows rows) = rows := by
      have hx := exRows_emit rows hready []
      rw [List.append_nil] at hx
      rw [hx, exRows_nil, List.append_nil]
    have n1 : ¬wTBL = wFS := by decide
    have n2 : ¬((wTBL = wF : Bool) &&
        ((none : Option Int) = some 1 : Bool)) = true := by decide
    have n3 : ¬wTBL = wLI := by decide
    have n4 : ¬wTBL = wLS := by decide
    have hexb : exB (.ctrl wTBL none :: emitRows rows) = .table rows := by
      simp [exB, n1, n2, n3, n4, hin]
    simp only [exBL]
    simp [hdr, hexb]
  | hrule =>
    have hem : emitB .hrule = .group [.ctrl wHR none] := by simp [emitB]
    rw [hem]
    have d1 : ¬wHR = wFONTTBL := by decide
    have d2 : ¬wHR = wCOLORTBL := by decide
    have hdr : isHeaderGroup [RtfNode.ctrl wHR none] = false := by
      simp [isHeaderGroup, d1, d2]
    simp only [exBL]
    simp [hdr, exB_hrule]

theorem exBL_emit (bs : List Block) (h : readyBs bs = true)
    (t : List RtfNode) : exBL (emitBs bs ++ t) = bs ++ exBL t := by
  cases bs with
  | nil =>
    have he : emitBs [] = ([] : List RtfNode) := by simp [emitBs]
    rw [he]
    simp
  | cons b bs2 =>
    obtain ⟨hb, hbs⟩ := readyBs_parts h
    have he : emitBs (b :: bs2) = emitB b :: emitBs bs2 := by simp [emitBs]
    rw [he, List.cons_append, exB_emit b hb (emitBs bs2 ++ t),
      exBL_emit bs2 hbs t]
    simp

theorem exItems_emit (items : List (List Block)) (h : readyBss items = true)
    (t : List RtfNode) : exItemsX (emitItems items ++ t) =
      items ++ exItemsX t := by
  cases items with
  | nil =>
    have he : emitItems [] = ([] : List RtfNode) := by simp [emitItems]
    rw [he]
    simp
  | cons item rest =>
    obtain ⟨hit, hrest⟩ := readyBss_parts h
    have he : emitItems (item :: rest) =
        .group (emitBs item) :: emitItems rest := by simp [emitItems]
    rw [he, List.cons_append]
    have hx : exItemsX (.group (emitBs item) :: (emitItems rest ++ t)) =
        exBL (emitBs item) :: exItemsX (emitItems rest ++ t) := by
      simp [exItemsX]
    rw [hx]
    have hin : exBL (emitBs item) = item := by
      have hy := exBL_emit item hit []
      rw [List.append_nil] at hy
      rw [hy, exBL_nil, List.append_nil]
    rw [hin, exItems_emit rest hrest t]
    simp

theorem exRows_emit (rows : List (List (List Block)))
    (h : readyBsss rows = true) (t : List RtfNode) :
    exRows (emitRows rows ++ t) = rows ++ exRows t := by
  cases rows with
  | nil =>
    have he : emitRows [] = ([] : List RtfNode) := by simp [emitRows]
    rw [he]
    simp
  | cons row rest =>
    obtain ⟨hrow, hrest⟩ := readyBsss_parts h
    have he : emitRows (row :: rest) = .group (.ctrl wTROWD none ::
        (cellxAux 0 ((emitCells row).map rtfLenN) ++ emitCells row ++
          [.ctrl wROW none])) :: emitRows rest := by
      simp [emitRows]
    rw [he, List.cons_append]
    have hx : exRows (.group (.ctrl wTROWD none ::
        (cellxAux 0 ((emitCells row).map rtfLenN) ++ emitCells row ++
          [.ctrl wROW none])) :: (emitRows rest ++ t)) =
        exCellsX (.ctrl wTROWD none ::
          (cellxAux 0 ((emitCells row).map rtfLenN) ++ emitCells row ++
            [.ctrl wROW none])) :: exRows (emitRows rest ++ t) := by
      simp [exRows]
    rw [hx]
    have hcell : exCellsX (.ctrl wTROWD none ::
        (cellxAux 0 ((emitCells row).map rtfLenN) ++ emitCells row ++
          [.ctrl wROW none])) = row := by
      rw [exCellsX_ctrl, List.append_assoc, exCellsX_cellxAux,
        exCells_emit row hrow [.ctrl wROW none], exCellsX_ctrl, exCellsX_nil,
        List.append_nil]
    rw [hcell, exRows_emit rest hrest t]
    simp

theorem exCells_emit (row : List (List Block)) (h : readyBss row = true)
    (t : List RtfNode) : exCellsX (emitCells row ++ t) =
      row ++ exCellsX t := by
  cases row with
  | nil =>
    have he : emitCells [] = ([] : List RtfNode) := by simp [emitCells]
    rw [he]
    simp
  | cons cell rest =>
    obtain ⟨hc, hrest⟩ := readyBss_parts h
    have he : emitCells (cell :: rest) =
        .group (emitBs cell ++ [.ctrl wCELL none]) :: emitCells rest := by
      simp [emitCells]
    rw [he, List.cons_append]
    have hx : exCellsX (.group (emitBs cell ++ [.ctrl wCELL none]) ::
        (emitCells rest ++ t)) =
        exBL (emitBs cell ++ [.ctrl wCELL none]) ::
          exCellsX (emitCells rest ++ t) := by
      simp [exCellsX]
    rw [hx]
    have hin : exBL (emitBs cell ++ [.ctrl wCELL none]) = cell := by
      rw [exBL_emit cell hc [.ctrl wCELL none], exBL_ctrl, exBL_nil,
        List.append_nil]
    rw [hin, exCells_emit rest hrest t]
    simp

end

theorem exBL_header (cs rest : List RtfNode) (h : isHeaderGroup cs = true) :
    exBL (.group cs :: rest) = exBL rest := by
  simp [exBL, h]

theorem exBL_fontTbl (rest : List RtfNode) :
    exBL (fontTblNode :: rest) = exBL rest := by
  rw [fontTblNode]
  exact exBL_header _ _ (by simp [isHeaderGroup])

theorem exBL_colorTbl (rest : List RtfNode) :
    exBL (colorTblNode :: rest) = exBL rest := by
  rw [colorTblNode]
  exact exBL_header _ _ (by simp [isHeaderGroup])

/-- Extraction undoes emission at the document root: any document whose
blocks are in normal form is read back exactly from its emitted tree. -/
theorem exRoot_emit (d : Doc) (h : readyBs d = true) :
    exRoot (emitRoot d) = d := by
  rw [emitRoot]
  simp only [exRoot]
  rw [exBL_ctrl, exBL_ctrl, exBL_ctrl, exBL_fontTbl, exBL_colorTbl]
  have hx := exBL_emit d h []
  rw [List.append_nil] at hx
  rw [hx, exBL_nil, List.append_nil]

/-! ## Normalisation lands in normal form and is the identity on it -/

theorem nfL_text_text (st : Fmt) (t u : List Char) (r : List Inline) :
    nfL st (.text t :: .text u :: r) = false := by
  simp [nfL]

theorem nfL_cons_intro {st : Fmt} {x : Inline} {r : List Inline}
    (hx : nfI st x = true) (hr : nfL st r = true)
    (hadj : ∀ s u r2, x = .text s → r = .text u :: r2 → False) :
    nfL st (x :: r) = true := by
  simp only [nfL]
  rw [hx, hr]
  simp only [Bool.true_and]

theorem mergeTexts_id {st : Fmt} {xs : List Inline} (h : nfL st xs = true) :
    mergeTexts xs = xs := by
  induction xs with
  | nil => rfl
  | cons x rest ih =>
    have hparts := nfL_parts h
    have ihr := ih hparts.2
    cases x with
    | text s =>
      have hs : s ≠ [] := nfI_text hparts.1
      have he : mergeTexts (Inline.text s :: rest) =
          (match mergeTexts rest with
           | .text t :: r => if s ++ t = [] then r else .text (s ++ t) :: r
           | r => if s = [] then r else .text s :: r) := rfl
      rw [he, ihr]
      cases rest with
      | nil => simp [hs]
      | cons z r2 =>
        cases z with
        | text u =>
          rw [nfL_text_text] at h
          exact absurd h (by simp)
        | emph ys => simp [hs]
        | strong ys => simp [hs]
        | code c => simp [hs]
        | link dd uu => simp [hs]
        | lineBreak => simp [hs]
    | emph ys =>
      have he : mergeTexts (Inline.emph ys :: rest) =
          .emph ys :: mergeTexts rest := rfl
      rw [he, ihr]
    | strong ys =>
      have he : mergeTexts (Inline.strong ys :: rest) =
          .strong ys :: mergeTexts rest := rfl
      rw [he, ihr]
    | code c =>
      have he : mergeTexts (Inline.code c :: rest) =
          .code c :: mergeTexts rest := rfl
      rw [he, ihr]
    | link dd uu =>
      have he : mergeTexts (Inline.link dd uu :: rest) =
          .link dd uu :: mergeTexts rest := rfl
      rw [he, ihr]
    | lineBreak =>
      have he : mergeTexts (Inline.lineBreak :: rest) =
          .lineBreak :: mergeTexts rest := rfl
      rw [he, ihr]

theorem mergeTexts_nf (st : Fmt) (l : List Inline)
    (h : l.all (okI st) = true) : nfL st (mergeTexts l) = true := by
  induction l with
  | nil => simp [mergeTexts, nfL]
  | cons x rest ih =>
    rw [List.all_cons, Bool.and_eq_true] at h
    have ihr := ih h.2
    cases x with
    | text s =>
      have he : mergeTexts (Inline.text s :: rest) =
          (match mergeTexts rest with
           | .text t :: r => if s ++ t = [] then r else .text (s ++ t) :: r
           | r => if s = [] then r else .text s :: r) := rfl
      rw [he]
      cases hm : mergeTexts rest with
      | nil =>
        by_cases hs : s = []
        · simp [hs, nfL]
        · simp [hs, nfL, nfI]
      | cons y r =>
        rw [hm] at ihr
        cases y with
        | text t =>
          have hparts := nfL_parts ihr
          by_cases hst : s ++ t = []
          · simpa [hst] using hparts.2
          · have hne : (s ++ t : List Char) ≠ [] := hst
            simp only [if_neg hst]
            refine nfL_cons_intro ?_ hparts.2 ?_
            · simp [nfI, hne]
            · intro s2 u r2 _ hr2
              rw [hr2, nfL_text_text] at ihr
              exact absurd ihr (by simp)
        | emph ys =>
          by_cases hs : s = []
          · simpa [hs] using ihr
          · simp only [if_neg hs]
            refine nfL_cons_intro ?_ ihr ?_
            · simp [nfI, hs]
            · intro s2 u r2 _ hr2
              simp at hr2
        | strong ys =>
          by_cases hs : s = []
          · simpa [hs] using ihr
          · simp only [if_neg hs]
            refine nfL_cons_intro ?_ ihr ?_
            · simp [nfI, hs]
            · intro s2 u r2 _ hr2
              simp at hr2
        | code c =>
          by_cases hs : s = []
          · simpa [hs] using ihr
          · simp only [if_neg hs]
            refine nfL_cons_intro ?_ ihr ?_
            · simp [nfI, hs]
            · intro s2 u r2 _ hr2
              simp at hr2
        | link dd uu =>
          by_cases hs : s = []
          · simpa [hs] using ihr
          · simp only [if_neg hs]
            refine nfL_cons_intro ?_ ihr ?_
            · simp [nfI, hs]
            · intro s2 u r2 _ hr2
              simp at hr2
        | lineBreak =>
          by_cases hs : s = []
          · simpa [hs] using ihr
          · simp only [if_neg hs]
            refine nfL_cons_intro ?_ ihr ?_
            · simp [nfI, hs]
            · intro s2 u r2 _ hr2
              simp at hr2
    | emph ys =>
      have he : mergeTexts (Inline.emph ys :: rest) =
          .emph ys :: mergeTexts rest := rfl
      rw [he]
      refine nfL_cons_intro ?_ ihr ?_
      · simpa [okI] using h.1
      · intro s2 u r2 hx2 _
        exact Inline.noConfusion hx2
    | strong ys =>
      have he : mergeTexts (Inline.strong ys :: rest) =
          .strong ys :: mergeTexts rest := rfl
      rw [he]
      refine nfL_cons_intro ?_ ihr ?_
      · simpa [okI] using h.1
      · intro s2 u r2 hx2 _
        exact Inline.noConfusion hx2
    | code c =>
      have he : mergeTexts (Inline.code c :: rest) =
          .code c :: mergeTexts rest := rfl
      rw [he]
      refine nfL_cons_intro ?_ ihr ?_
      · simpa [okI] using h.1
      · intro s2 u r2 hx2 _
        exact Inline.noConfusion hx2
    | link dd uu =>
      have he : mergeTexts (Inline.link dd uu :: rest) =
          .link dd uu :: mergeTexts rest := rfl
      rw [he]
      refine nfL_cons_intro ?_ ihr ?_
      · simpa [okI] using h.1
      · intro s2 u r2 hx2 _
        exact Inline.noConfusion hx2
    | lineBreak =>
      have he : mergeTexts (Inline.lineBreak :: rest) =
          .lineBreak :: mergeTexts rest := rfl
      rw [he]
      refine nfL_cons_intro ?_ ihr ?_
      · simpa [okI] using h.1
      · intro s2 u r2 hx2 _
        exact Inline.noConfusion hx2

mutual

theorem normI_ok (st : Fmt) (x : Inline) :
    (normI st x).all (okI st) = true := by
  cases x with
  | text s =>
    by_cases hs : s = [] <;> simp [normI, hs, okI]
  | emph xs =>
    by_cases hi : st.italic
    · simp only [normI, if_pos hi]
      exact normL_ok st xs
    · have hc := mergeTexts_nf { st with italic := true } _
        (normL_ok { st with italic := true } xs)
      simp [normI, hi, okI, nfI, hc]
  | strong xs =>
    by_cases hb : st.bold
    · simp only [normI, if_pos hb]
      exact normL_ok st xs
    · have hc := mergeTexts_nf { st with bold := true } _
        (normL_ok { st with bold := true } xs)
      simp [normI, hb, okI, nfI, hc]
  | code c => simp [normI, okI, nfI]
  | link dd uu => simp [normI, okI, nfI]
  | lineBreak => simp [normI, okI, nfI]

theorem normL_ok (st : Fmt) (xs : List Inline) :
    (normL st xs).all (okI st) = true := by
  cases xs with
  | nil => simp [normL]
  | cons x rest =>
    simp [normL, List.all_append, normI_ok st x, normL_ok st rest]

end

theorem nfL_normInls (st : Fmt) (xs : List Inline) :
    nfL st (normInls st xs) = true := by
  rw [normInls]
  exact mergeTexts_nf st _ (normL_ok st xs)

mutual

theorem normI_id (st : Fmt) (x : Inline) (h : nfI st x = true) :
    normI st x = [x] := by
  cases x with
  | text s => simp [normI, nfI_text h]
  | emph xs =>
    obtain ⟨hi, hxs⟩ := nfI_emph h
    rw [normI]
    rw [if_neg (by simp [hi])]
    rw [normL_id { st with italic := true } xs hxs, mergeTexts_id hxs]
  | strong xs =>
    obtain ⟨hb, hxs⟩ := nfI_strong h
    rw [normI]
    rw [if_neg (by simp [hb])]
    rw [normL_id { st with bold := true } xs hxs, mergeTexts_id hxs]
  | code c => simp [normI]
  | link dd uu => simp [normI]
  | lineBreak => simp [normI]

theorem normL_id (st : Fmt) (xs : List Inline) (h : nfL st xs = true) :
    normL st xs = xs := by
  cases xs with
  | nil => rfl
  | cons x rest =>
    have hparts := nfL_parts h
    rw [normL, normI_id st x hparts.1, normL_id st rest hparts.2]
    rfl

end

theorem normInls_id {st : Fmt} {xs : List Inline} (h : nfL st xs = true) :
    normInls st xs = xs := by
  rw [normInls, normL_id st xs h, mergeTexts_id h]

mutual

theorem normB_ready (b : Block) : readyB (normB b) = true := by
  cases b with
  | heading l xs => simp [normB, readyB, nfL_normInls]
  | para xs => simp [normB, readyB, nfL_normInls]
  | codeBlock lang body => simp [normB, readyB]
  | quote bs => simp [normB, readyB, normBs_ready bs]
  | blist o items => simp [normB, readyB, normBss_ready items]
  | table rows => simp [normB, readyB, normBsss_ready rows]
  | hrule => simp [normB, readyB]

theorem normBs_ready (bs : List Block) : readyBs (normBs bs) = true := by
  cases bs with
  | nil => simp [normBs, readyBs]
  | cons b rest =>
    simp [normBs, readyBs, normB_ready b, normBs_ready rest]

theorem normBss_ready (items : List (List Block)) :
    readyBss (normBss items) = true := by
  cases items with
  | nil => simp [normBss, readyBss]
  | cons bs rest =>
    simp [normBss, readyBss, normBs_ready bs, normBss_ready rest]

theorem normBsss_ready (rows : List (List (List Block))) :
    readyBsss (normBsss rows) = true := by
  cases rows with
  | nil => simp [normBsss, readyBsss]
  | cons row rest =>
    simp [normBsss, readyBsss, normBss_ready row, normBsss_ready rest]

end

mutual

theorem normB_id (b : Block) (h : readyB b = true) : normB b = b := by
  cases b with
  | heading l xs =>
    have hx : nfL Fmt.none xs = true := h
    rw [normB, normInls_id hx]
  | para xs =>
    have hx : nfL Fmt.none xs = true := h
    rw [normB, normInls_id hx]
  | codeBlock lang body => rfl
  | quote bs =>
    have hx : readyBs bs = true := h
    rw [normB, normBs_id bs hx]
  | blist o items =>
    have hx : readyBss items = true := h
    rw [normB, normBss_id items hx]
  | table rows =>
    have hx : readyBsss rows = true := h
    rw [normB, normBsss_id rows hx]
  | hrule => rfl

theorem normBs_id (bs : List Block) (h : readyBs bs = true) :
    normBs bs = bs := by
  cases bs with
  | nil => rfl
  | cons b rest =>
    obtain ⟨hb, hrest⟩ := readyBs_parts h
    rw [normBs, normB_id b hb, normBs_id rest hrest]

theorem normBss_id (items : List (List Block)) (h : readyBss items = true) :
    normBss items = items := by
  cases items with
  | nil => rfl
  | cons bs rest =>
    obtain ⟨hbs, hrest⟩ := readyBss_parts h
    rw [normBss, normBs_id bs hbs, normBss_id rest hrest]

theorem normBsss_id (rows : List (List (List Block)))
    (h : readyBsss rows = true) : normBsss rows = rows := by
  cases rows with
  | nil => rfl
  | cons row rest =>
    obtain ⟨hrow, hrest⟩ := readyBsss_parts h
    rw [normBsss, normBss_id row hrow, normBsss_id rest hrest]

end

theorem normDoc_ready (d : Doc) : readyBs (normDoc d) = true :=
  normBs_ready d

theorem normDoc_idem (d : Doc) : normDoc (normDoc d) = normDoc d :=
  normBs_id _ (normBs_ready d)

/-! ## The emitted tree satisfies the scanner-safety invariant -/

theorem goodL_cons_intro {n : RtfNode} {ns : List RtfNode}
    (hn : goodN n = true) (hns : goodL ns = true)
    (hadj : ∀ s t r, n = .rtext s → ns = .rtext t :: r → False) :
    goodL (n :: ns) = true := by
  simp only [goodL]
  rw [hn, hns]
  simp only [Bool.true_and]

theorem emitI_nontext_head (x : Inline) (hx : ∀ s2, x ≠ .text s2)
    (z : List RtfNode) : ∀ s r, emitI x ++ z ≠ .rtext s :: r := by
  cases x with
  | text s2 => exact absurd rfl (hx s2)
  | emph xs =>
    intro s r h
    simp [emitI] at h
  | strong xs =>
    intro s r h
    simp [emitI] at h
  | code c =>
    intro s r h
    simp [emitI] at h
  | link dd uu =>
    intro s r h
    simp [emitI] at h
  | lineBreak =>
    intro s r h
    simp [emitI] at h

theorem emitIL_head_nontext (xs : List Inline) (t : List RtfNode)
    (ht : ∀ s r, t ≠ .rtext s :: r)
    (hx : ∀ u r2, xs ≠ Inline.text u :: r2) :
    ∀ s r, emitIL xs ++ t ≠ .rtext s :: r := by
  cases xs with
  | nil => simpa [emitIL] using ht
  | cons y ys =>
    have hy : ∀ s2, y ≠ .text s2 := by
      intro s2 he
      exact hx s2 ys (by rw [he])
    have heq : emitIL (y :: ys) = emitI y ++ emitIL ys := rfl
    rw [heq, List.append_assoc]
    exact emitI_nontext_head y hy _

mutual

theorem goodI_emit (st : Fmt) (x : Inline) (h : nfI st x = true)
    (t : List RtfNode) (ht : goodL t = true)
    (hht : ∀ s2, x = .text s2 → ∀ s r, t ≠ .rtext s :: r) :
    goodL (emitI x ++ t) = true := by
  cases x with
  | text s =>
    have hs := nfI_text h
    have he : emitI (.text s) = [.rtext s] := by simp [emitI, textNode, hs]
    rw [he, List.singleton_append]
    refine goodL_cons_intro ?_ ht ?_
    · simp [goodN, hs]
    · intro s2 t2 r _ h2
      exact hht s rfl t2 r h2
  | emph xs =>
    obtain ⟨hi, hxs⟩ := nfI_emph h
    have he : emitI (.emph xs) = [.group (.ctrl wI none :: emitIL xs)] := rfl
    rw [he, List.singleton_append]
    have hinner : goodL (.ctrl wI none :: emitIL xs) = true := by
      have hg := goodL_emitIL { st with italic := true } xs hxs []
        (by simp [goodL]) (by intro s r h2; exact List.noConfusion h2)
      rw [List.append_nil] at hg
      refine goodL_cons_intro ?_ hg ?_
      · have hw : wordOk wI = true := by decide
        simpa [goodN] using hw
      · intro s t2 r h2 _
        exact RtfNode.noConfusion h2
    refine goodL_cons_intro ?_ ht ?_
    · simpa [goodN] using hinner
    · intro s t2 r h2 _
      exact RtfNode.noConfusion h2
  | strong xs =>
    obtain ⟨hb, hxs⟩ := nfI_strong h
    have he : emitI (.strong xs) = [.group (.ctrl wB none :: emitIL xs)] := rfl
    rw [he, List.singleton_append]
    have hinner : goodL (.ctrl wB none :: emitIL xs) = true := by
      have hg := goodL_emitIL { st with bold := true } xs hxs []
        (by simp [goodL]) (by intro s r h2; exact List.noConfusion h2)
      rw [List.append_nil] at hg
      refine goodL_cons_intro ?_ hg ?_
      · have hw : wordOk wB = true := by decide
        simpa [goodN] using hw
      · intro s t2 r h2 _
        exact RtfNode.noConfusion h2
    refine goodL_cons_intro ?_ ht ?_
    · simpa [goodN] using hinner
    · intro s t2 r h2 _
      exact RtfNode.noConfusion h2
  | code c =>
    have he : emitI (.code c) = [.group (.ctrl wF (some 1) :: textNode c)] := rfl
    rw [he, List.singleton_append]
    have hw : wordOk wF = true := by decide
    have hinner : goodL (.ctrl wF (some 1) :: textNode c) = true := by
      by_cases hc : c = []
      · subst hc
        simp [textNode, goodL, goodN, hw]
      · rw [textNode, if_neg hc]
        refine goodL_cons_intro ?_ ?_ ?_
        · simpa [goodN] using hw
        · simp [goodL, goodN, hc]
        · intro s t2 r h2 _
          exact RtfNode.noConfusion h2
    refine goodL_cons_intro ?_ ht ?_
    · simpa [goodN] using hinner
    · intro s t2 r h2 _
      exact RtfNode.noConfusion h2
  | link dd uu =>
    have he : emitI (.link dd uu) = [.group [.ctrl wFIELD none,
        .group (.ctrl wFLDINST none :: [.rtext (str "HYPERLINK " ++ uu)]),
        .group (.ctrl wFLDRSLT none :: textNode dd)]] := rfl
    rw [he, List.singleton_append]
    have hwf : wordOk wFIELD = true := by decide
    have hwi : wordOk wFLDINST = true := by decide
    have hwr : wordOk wFLDRSLT = true := by decide
    have hne : (str "HYPERLINK " ++ uu : List Char) ≠ [] := by
      have : (str "HYPERLINK " : List Char) ≠ [] := by decide
      exact fun hcon => this (List.append_eq_nil.mp hcon).1
    have hg1 : goodL (.ctrl wFLDINST none ::
        [RtfNode.rtext (str "HYPERLINK " ++ uu)]) = true := by
      refine goodL_cons_intro ?_ ?_ ?_
      · simpa [goodN] using hwi
      · simp [goodL, goodN, hne]
      · intro s t2 r h2 _
        exact RtfNode.noConfusion h2
    have hg2 : goodL (.ctrl wFLDRSLT none :: textNode dd) = true := by
      by_cases hd : dd = []
      · subst hd
        simp [textNode, goodL, goodN, hwr]
      · rw [textNode, if_neg hd]
        refine goodL_cons_intro ?_ ?_ ?_
        · simpa [goodN] using hwr
        · simp [goodL, goodN, hd]
        · intro s t2 r h2 _
          exact RtfNode.noConfusion h2
    have hinner : goodL [RtfNode.ctrl wFIELD none,
        .group (.ctrl wFLDINST none :: [.rtext (str "HYPERLINK " ++ uu)]),
        .group (.ctrl wFLDRSLT none :: textNode dd)] = true := by
      refine goodL_cons_intro ?_ ?_ ?_
      · simpa [goodN] using hwf
      · refine goodL_cons_intro ?_ ?_ ?_
        · simpa [goodN] using hg1
        · refine goodL_cons_intro ?_ ?_ ?_
          · simpa [goodN] using hg2
          · simp [goodL]
          · intro s t2 r h2 _
            exact RtfNode.noConfusion h2
        · intro s t2 r h2 _
          exact RtfNode.noConfusion h2
      · intro s t2 r h2 _
        exact RtfNode.noConfusion h2
    refine goodL_cons_intro ?_ ht ?_
    · simpa [goodN] using hinner
    · intro s t2 r h2 _
      exact RtfNode.noConfusion h2
  | lineBreak =>
    have he : emitI .lineBreak = [.ctrl wLINE none] := rfl
    rw [he, List.singleton_append]
    refine goodL_cons_intro ?_ ht ?_
    · have hw : wordOk wLINE = true := by decide
      simpa [goodN] using hw
    · intro s t2 r h2 _
      exact RtfNode.noConfusion h2

theorem goodL_emitIL (st : Fmt) (xs : List Inline) (h : nfL st xs = true)
    (t : List RtfNode) (ht : goodL t = true)
    (hht : ∀ s r, t ≠ .rtext s :: r) :
    goodL (emitIL xs ++ t) = true := by
  cases xs with
  | nil => simpa [emitIL] using ht
  | cons x xs2 =>
    obtain ⟨hx, hxs⟩ := nfL_parts h
    have he : emitIL (x :: xs2) = emitI x ++ emitIL xs2 := rfl
    rw [he, List.append_assoc]
    refine goodI_emit st x hx _ (goodL_emitIL st xs2 hxs t ht hht) ?_
    intro s hxe s2 r
    have hxs2 : ∀ u r2, xs2 ≠ Inline.text u :: r2 := by
      intro u r2 he2
      rw [hxe, he2, nfL_text_text] at h
      exact absurd h (by simp)
    exact emitIL_head_nontext xs2 t hht hxs2 s2 r

end

theorem goodL_cellxAux (a : Nat) (ls : List Nat) (t : List RtfNode)
    (ht : goodL t = true) : goodL (cellxAux a ls ++ t) = true := by
  induction ls generalizing a with
  | nil => simpa [cellxAux] using ht
  | cons n ns ih =>
    have he : cellxAux a (n :: ns) = .ctrl wCELLX (some (a + 120 * (n + 1))) ::
        cellxAux (a + 120 * (n + 1)) ns := rfl
    rw [he, List.cons_append]
    refine goodL_cons_intro ?_ (ih _) ?_
    · have hw : wordOk wCELLX = true := by decide
      simpa [goodN] using hw
    · intro s t2 r h2 _
      exact RtfNode.noConfusion h2

theorem emitB_ne_rtext (b : Block) : ∀ s, emitB b ≠ .rtext s := by
  cases b <;> (intro s h; simp [emitB] at h)

mutual

theorem goodB_emit (b : Block) (h : readyB b = true) :
    goodN (emitB b) = true := by
  cases b with
  | heading l xs =>
    have hx : nfL Fmt.none xs = true := h
    have he : emitB (.heading l xs) = .group (.ctrl wFS (some (fsOfLevel l)) ::
        (emitIL xs ++ [.ctrl wPAR none])) := by simp [emitB]
    rw [he]
    have hpar : goodL [RtfNode.ctrl wPAR none] = true := by decide
    have htail := goodL_emitIL Fmt.none xs hx [.ctrl wPAR none] hpar
      (by intro s r h2; simp at h2)
    have hgl : goodL (.ctrl wFS (some (fsOfLevel l)) ::
        (emitIL xs ++ [.ctrl wPAR none])) = true := by
      refine goodL_cons_intro ?_ htail ?_
      · have hw : wordOk wFS = true := by decide
        simpa [goodN] using hw
      · intro s t2 r h2 _
        exact RtfNode.noConfusion h2
    simpa [goodN] using hgl
  | para xs =>
    have hx : nfL Fmt.none xs = true := h
    have he : emitB (.para xs) = .group (emitIL xs ++ [.ctrl wPAR none]) := by
      simp [emitB]
    rw [he]
    have hpar : goodL [RtfNode.ctrl wPAR none] = true := by decide
    have htail := goodL_emitIL Fmt.none xs hx [.ctrl wPAR none] hpar
      (by intro s r h2; simp at h2)
    simpa [goodN] using htail
  | codeBlock lang body =>
    have hw : wordOk wF = true := by decide
    have hbody : goodL (textNode body ++ [.ctrl wPAR none]) = true := by
      by_cases hb : body = []
      · subst hb
        simp [textNode]
        decide
      · rw [textNode, if_neg hb, List.singleton_append]
        refine goodL_cons_intro ?_ (by decide) ?_
        · simp [goodN, hb]
        · intro s t2 r _ h2
          simp at h2
    cases lang with
    | none =>
      have he : emitB (.codeBlock none body) = .group (.ctrl wF (some 1) ::
          (textNode body ++ [.ctrl wPAR none])) := by simp [emitB]
      rw [he]
      have hgl : goodL (.ctrl wF (some 1) ::
          (textNode body ++ [.ctrl wPAR none])) = true := by
        refine goodL_cons_intro ?_ hbody ?_
        · simpa [goodN] using hw
        · intro s t2 r h2 _
          exact RtfNode.noConfusion h2
      simpa [goodN] using hgl
    | some lg =>
      have he : emitB (.codeBlock (some lg) body) =
          .group (.ctrl wF (some 1) ::
            (RtfNode.group (.ctrl wCBLANG none :: textNode lg) ::
              (textNode body ++ [.ctrl wPAR none]))) := by simp [emitB]
      rw [he]
      have hwc : wordOk wCBLANG = true := by decide
      have hlg : goodL (.ctrl wCBLANG none :: textNode lg) = true := by
        by_cases hl : lg = []
        · subst hl
          simp [textNode]
          decide
        · rw [textNode, if_neg hl]
          refine goodL_cons_intro ?_ ?_ ?_
          · simpa [goodN] using hwc
          · simp [goodL, goodN, hl]
          · intro s t2 r h2 _
            exact RtfNode.noConfusion h2
      have hgl : goodL (.ctrl wF (some 1) ::
          (RtfNode.group (.ctrl wCBLANG none :: textNode lg) ::
            (textNode body ++ [.ctrl wPAR none]))) = true := by
        refine goodL_cons_intro ?_ ?_ ?_
        · simpa [goodN] using hw
        · refine goodL_cons_intro ?_ hbody ?_
          · simpa [goodN] using hlg
          · intro s t2 r h2 _
            exact RtfNode.noConfusion h2
        · intro s t2 r h2 _
          exact RtfNode.noConfusion h2
      simpa [goodN] using hgl
  | quote bs =>
    have hx : readyBs bs = true := h
    have he : emitB (.quote bs) = .group (.ctrl wLI (some 720) ::
        emitBs bs) := by simp [emitB]
    rw [he]
    have htail := goodBs_emit bs hx [] (by decide)
    rw [List.append_nil] at htail
    have hgl : goodL (.ctrl wLI (some 720) :: emitBs bs) = true := by
      refine goodL_cons_intro ?_ htail ?_
      · have hw : wordOk wLI = true := by decide
        simpa [goodN] using hw
      · intro s t2 r h2 _
        exact RtfNode.noConfusion h2
    simpa [goodN] using hgl
  | blist o items =>
    have hx : readyBss items = true := h
    have he : emitB (.blist o items) =
        .group (.ctrl wLS (some (if o then 1 else 0)) :: emitItems items) := by
      simp [emitB]
    rw [he]
    have htail := goodItems_emit items hx [] (by decide)
    rw [List.append_nil] at htail
    have hgl : goodL (.ctrl wLS (some (if o then 1 else 0)) ::
        emitItems items) = true := by
      refine goodL_cons_intro ?_ htail ?_
      · have hw : wordOk wLS = true := by decide
        simpa [goodN] using hw
      · intro s t2 r h2 _
        exact RtfNode.noConfusion h2
    simpa [goodN] using hgl
  | table rows =>
    have hx : readyBsss rows = true := h
    have he : emitB (.table rows) = .group (.ctrl wTBL none ::
        emitRows rows) := by simp [emitB]
    rw [he]
    have htail := goodRows_emit rows hx [] (by decide)
    rw [List.append_nil] at htail
    have hgl : goodL (.ctrl wTBL none :: emitRows rows) = true := by
      refine goodL_cons_intro ?_ htail ?_
      · have hw : wordOk wTBL = true := by decide
        simpa [goodN] using hw
      · intro s t2 r h2 _
        exact RtfNode.noConfusion h2
    simpa [goodN] using hgl
  | hrule =>
    have he : emitB .hrule = .group [.ctrl wHR none] := by simp [emitB]
    rw [he]
    have hgl : goodL [RtfNode.ctrl wHR none] = true := by decide
    simpa [goodN] using hgl

theorem goodBs_emit (bs : List Block) (h : readyBs bs = true)
    (t : List RtfNode) (ht : goodL t = true) :
    goodL (emitBs bs ++ t) = true := by
  cases bs with
  | nil =>
    have he : emitBs [] = ([] : List RtfNode) := by simp [emitBs]
    rw [he]
    simpa using ht
  | cons b bs2 =>
    obtain ⟨hb, hbs⟩ := readyBs_parts h
    have he : emitBs (b :: bs2) = emitB b :: emitBs bs2 := by simp [emitBs]
    rw [he, List.cons_append]
    refine goodL_cons_intro (goodB_emit b hb) (goodBs_emit bs2 hbs t ht) ?_
    intro s t2 r h2 _
    exact emitB_ne_rtext b s h2

theorem goodItems_emit (items : List (List Block)) (h : readyBss items = true)
    (t : List RtfNode) (ht : goodL t = true) :
    goodL (emitItems items ++ t) = true := by
  cases items with
  | nil =>
    have he : emitItems [] = ([] : List RtfNode) := by simp [emitItems]
    rw [he]
    simpa using ht
  | cons item rest =>
    obtain ⟨hit, hrest⟩ := readyBss_parts h
    have he : emitItems (item :: rest) =
        .group (emitBs item) :: emitItems rest := by simp [emitItems]
    rw [he, List.cons_append]
    refine goodL_cons_intro ?_ (goodItems_emit rest hrest t ht) ?_
    · have hg := goodBs_emit item hit [] (by decide)
      rw [List.append_nil] at hg
      simpa [goodN] using hg
    · intro s t2 r h2 _
      exact RtfNode.noConfusion h2

theorem goodRows_emit (rows : List (List (List Block)))
    (h : readyBsss rows = true) (t : List RtfNode) (ht : goodL t = true) :
    goodL (emitRows rows ++ t) = true := by
  cases rows with
  | nil =>
    have he : emitRows [] = ([] : List RtfNode) := by simp [emitRows]
    rw [he]
    simpa using ht
  | cons row rest =>
    obtain ⟨hrow, hrest⟩ := readyBsss_parts h
    have he : emitRows (row :: rest) = .group (.ctrl wTROWD none ::
        (cellxAux 0 ((emitCells row).map rtfLenN) ++ emitCells row ++
          [.ctrl wROW none])) :: emitRows rest := by
      simp [emitRows]
    rw [he, List.cons_append]
    refine goodL_cons_intro ?_ (goodRows_emit rest hrest t ht) ?_
    · have hcells := goodCells_emit row hrow [.ctrl wROW none] (by decide)
      have hcx := goodL_cellxAux 0 ((emitCells row).map rtfLenN)
        (emitCells row ++ [.ctrl wROW none]) hcells
      have hgl : goodL (.ctrl wTROWD none ::
          (cellxAux 0 ((emitCells row).map rtfLenN) ++ emitCells row ++
            [.ctrl wROW none])) = true := by
        rw [List.append_assoc]
        refine goodL_cons_intro ?_ hcx ?_
        · have hw : wordOk wTROWD = true := by decide
          simpa [goodN] using hw
        · intro s t2 r h2 _
          exact RtfNode.noConfusion h2
      simpa [goodN] using hgl
    · intro s t2 r h2 _
      exact RtfNode.noConfusion h2

theorem goodCells_emit (row : List (List Block)) (h : readyBss row = true)
    (t : List RtfNode) (ht : goodL t = true) :
    goodL (emitCells row ++ t) = true := by
  cases row with
  | nil =>
    have he : emitCells [] = ([] : List RtfNode) := by simp [emitCells]
    rw [he]
    simpa using ht
  | cons cell rest =>
    obtain ⟨hc, hrest⟩ := readyBss_parts h
    have he : emitCells (cell :: rest) =
        .group (emitBs cell ++ [.ctrl wCELL none]) :: emitCells rest := by
      simp [emitCells]
    rw [he, List.cons_append]
    refine goodL_cons_intro ?_ (goodCells_emit rest hrest t ht) ?_
    · have hg := goodBs_emit cell hc [.ctrl wCELL none] (by decide)
      simpa [goodN] using hg
    · intro s t2 r h2 _
      exact RtfNode.noConfusion h2

end

/-- The children of the emitted root group satisfy the scanner-safety
invariant whenever the document is ready for emission. -/
theorem goodRoot (d : Doc) (h : readyBs d = true) :
    goodL (.ctrl wRTF (some 1) :: .ctrl wANSI none :: .ctrl wDEFF (some 0) ::
      fontTblNode :: colorTblNode :: emitBs d) = true := by
  have hfont : goodN fontTblNode = true := by decide
  have hcolor : goodN colorTblNode = true := by decide
  have hbs := goodBs_emit d h [] (by decide)
  rw [List.append_nil] at hbs
  refine goodL_cons_intro ?_ ?_ ?_
  · have hw : wordOk wRTF = true := by decide
    simpa [goodN] using hw
  · refine goodL_cons_intro ?_ ?_ ?_
    · have hw : wordOk wANSI = true := by decide
      simpa [goodN] using hw
    · refine goodL_cons_intro ?_ ?_ ?_
      · have hw : wordOk wDEFF = true := by decide
        simpa [goodN] using hw
      · refine goodL_cons_intro hfont ?_ ?_
        · refine goodL_cons_intro hcolor hbs ?_
          · intro s t2 r h2 _
            exact RtfNode.noConfusion h2
        · intro s t2 r h2 _
          exact RtfNode.noConfusion h2
      · intro s t2 r h2 _
        exact RtfNode.noConfusion h2
    · intro s t2 r h2 _
      exact RtfNode.noConfusion h2
  · intro s t2 r h2 _
    exact RtfNode.noConfusion h2

/-! ## UTF-8 encoding round trip -/

theorem utf8DecodeOne_encodeChar (n : Nat)
    (hv : n < 55296 ∨ (57343 < n ∧ n < 1114112)) (bs : List Nat) :
    utf8DecodeOne (utf8EncodeChar n ++ bs) = some (n, bs) := by
  by_cases h1 : n ≤ 127
  · have he : utf8EncodeChar n = [n] := by rw [utf8EncodeChar, if_pos h1]
    rw [he, List.singleton_append]
    simp [utf8DecodeOne, h1]
  · by_cases h2 : n ≤ 2047
    · have he : utf8EncodeChar n = [192 + n / 64, 128 + n % 64] := by
        rw [utf8EncodeChar, if_neg h1, if_pos h2]
      rw [he, List.cons_append, List.singleton_append]
      have hb1 : ¬(192 + n / 64 ≤ 127) := by omega
      have hband : (194 ≤ 192 + n / 64 && 192 + n / 64 ≤ 223 : Bool) =
          true := by
        simp only [Bool.and_eq_true, decide_eq_true_eq]
        omega
      have hc : isCont (128 + n % 64) = true := by
        simp only [isCont, Bool.and_eq_true, decide_eq_true_eq]
        omega
      simp [utf8DecodeOne, hb1, hband, hc]
      omega
    · by_cases h3 : n ≤ 65535
      · have he : utf8EncodeChar n =
            [224 + n / 4096, 128 + n / 64 % 64, 128 + n % 64] := by
          rw [utf8EncodeChar, if_neg h1, if_neg h2, if_pos h3]
        rw [he, List.cons_append, List.cons_append, List.singleton_append]
        have hb1 : ¬(224 + n / 4096 ≤ 127) := by omega
        have hb2 : ¬((194 ≤ 224 + n / 4096 && 224 + n / 4096 ≤ 223 : Bool) =
            true) := by
          simp only [Bool.and_eq_true, decide_eq_true_eq]
          omega
        have hband : (224 ≤ 224 + n / 4096 && 224 + n / 4096 ≤ 239 : Bool) =
            true := by
          simp only [Bool.and_eq_true, decide_eq_true_eq]
          omega
        have hok : ok3Second (224 + n / 4096) (128 + n / 64 % 64) = true := by
          rw [ok3Second]
          by_cases hq : 224 + n / 4096 = 224
          · rw [if_pos hq]
            simp only [Bool.and_eq_true, decide_eq_true_eq]
            omega
          · rw [if_neg hq]
            by_cases hq2 : 224 + n / 4096 = 237
            · rw [if_pos hq2]
              simp only [Bool.and_eq_true, decide_eq_true_eq]
              rcases hv with hv1 | hv2 <;> omega
            · rw [if_neg hq2]
              simp only [isCont, Bool.and_eq_true, decide_eq_true_eq]
              omega
        have hc3 : isCont (128 + n % 64) = true := by
          simp only [isCont, Bool.and_eq_true, decide_eq_true_eq]
          omega
        simp [utf8DecodeOne, hb1, hb2, hband, hok, hc3]
        rw [if_pos (show 224 + n / 4096 ≤ 239 by omega)]
        simp only [Option.some.injEq, Prod.mk.injEq]
        exact ⟨by omega, trivial⟩
      · have hn4 : n < 1114112 := by
          rcases hv with hv1 | hv2
          · omega
          · exact hv2.2
        have he : utf8EncodeChar n = [240 + n / 262144, 128 + n / 4096 % 64,
            128 + n / 64 % 64, 128 + n % 64] := by
          rw [utf8EncodeChar, if_neg h1, if_neg h2, if_neg h3]
        rw [he, List.cons_append, List.cons_append, List.cons_append,
          List.singleton_append]
        have hb1 : ¬(240 + n / 262144 ≤ 127) := by omega
        have hb2 : ¬((194 ≤ 240 + n / 262144 &&
            240 + n / 262144 ≤ 223 : Bool) = true) := by
          simp only [Bool.and_eq_true, decide_eq_true_eq]
          omega
        have hb3 : ¬((224 ≤ 240 + n / 262144 &&
            240 + n / 262144 ≤ 239 : Bool) = true) := by
          simp only [Bool.and_eq_true, decide_eq_true_eq]
          omega
        have hband : (240 ≤ 240 + n / 262144 &&
            240 + n / 262144 ≤ 244 : Bool) = true := by
          simp only [Bool.and_eq_true, decide_eq_true_eq]
          omega
        have hok : ok4Second (240 + n / 262144) (128 + n / 4096 % 64) =
            true := by
          rw [ok4Second]
          by_cases hq : 240 + n / 262144 = 240
          · rw [if_pos hq]
            simp only [Bool.and_eq_true, decide_eq_true_eq]
            omega
          · rw [if_neg hq]
            by_cases hq2 : 240 + n / 262144 = 244
            · rw [if_pos hq2]
              simp only [Bool.and_eq_true, decide_eq_true_eq]
              omega
            · rw [if_neg hq2]
              simp only [isCont, Bool.and_eq_true, decide_eq_true_eq]
              omega
        have hc3 : isCont (128 + n / 64 % 64) = true := by
          simp only [isCont, Bool.and_eq_true, decide_eq_true_eq]
          omega
        have hc4 : isCont (128 + n % 64) = true := by
          simp only [isCont, Bool.and_eq_true, decide_eq_true_eq]
          omega
        simp [utf8DecodeOne, hb1, hb2, hb3, hband, hok, hc3, hc4]
        omega

theorem utf8DecodeOne_shrink (bs : List Nat) (n : Nat) (rest2 : List Nat)
    (h : utf8DecodeOne bs = some (n, rest2)) :
    rest2.length < bs.length := by
  cases bs with
  | nil => simp [utf8DecodeOne] at h
  | cons b1 rest =>
    simp only [utf8DecodeOne] at h
    repeat' split at h
    all_goals simp_all
    all_goals omega

theorem utf8DecodeF_ge (fuel : Nat) (bs : List Nat) (h : bs.length ≤ fuel) :
    utf8DecodeF fuel bs = utf8DecodeF bs.length bs := by
  induction fuel using Nat.strong_induction_on generalizing bs with
  | _ fuel ih =>
    cases bs with
    | nil => cases fuel <;> rfl
    | cons b rest =>
      cases fuel with
      | zero =>
        simp only [List.length_cons] at h
        omega
      | succ f =>
        simp only [List.length_cons] at h ⊢
        simp only [utf8DecodeF]
        cases hone : utf8DecodeOne (b :: rest) with
        | none => rfl
        | some pr =>
          obtain ⟨n, rest2⟩ := pr
          have hs := utf8DecodeOne_shrink _ _ _ hone
          simp only [List.length_cons] at hs
          have ih1 := ih f (by omega) rest2 (by omega)
          have ih2 := ih rest.length (by omega) rest2 (by omega)
          show (utf8DecodeF f rest2).map (Char.ofNat n :: ·) =
            (utf8DecodeF rest.length rest2).map (Char.ofNat n :: ·)
          rw [ih1, ih2]

theorem utf8EncodeChar_pos (n : Nat) : 1 ≤ (utf8EncodeChar n).length := by
  rw [utf8EncodeChar]
  split_ifs <;> simp

theorem utf8DecodeF_encodeChar (fuel : Nat) (n : Nat)
    (hv : n < 55296 ∨ (57343 < n ∧ n < 1114112)) (bs : List Nat) :
    utf8DecodeF (fuel + 1) (utf8EncodeChar n ++ bs) =
      (utf8DecodeF fuel bs).map (Char.ofNat n :: ·) := by
  have hone := utf8DecodeOne_encodeChar n hv bs
  obtain ⟨e1, etail, he⟩ : ∃ e1 etail, utf8EncodeChar n = e1 :: etail := by
    rw [utf8EncodeChar]
    split_ifs <;> exact ⟨_, _, rfl⟩
  rw [he] at hone ⊢
  rw [List.cons_append] at hone ⊢
  simp only [utf8DecodeF]
  rw [hone]

theorem utf8_roundtrip (cs : List Char) :
    utf8Decode (utf8Encode cs) = some cs := by
  induction cs with
  | nil => rfl
  | cons c rest ih =>
    have he : utf8Encode (c :: rest) =
        utf8EncodeChar c.toNat ++ utf8Encode rest := rfl
    have hpos := utf8EncodeChar_pos c.toNat
    obtain ⟨k, hk⟩ := Nat.exists_eq_add_of_le hpos
    have htot : (utf8EncodeChar c.toNat ++ utf8Encode rest).length =
        (k + (utf8Encode rest).length) + 1 := by
      rw [List.length_append, hk]
      omega
    rw [he, utf8Decode, htot, utf8DecodeF_encodeChar
      (k + (utf8Encode rest).length) c.toNat (char_valid_toNat c)
      (utf8Encode rest)]
    rw [utf8Decode] at ih
    rw [utf8DecodeF_ge (k + (utf8Encode rest).length) (utf8Encode rest)
      (by omega), ih]
    simp [Char.ofNat_toNat]

/-! ## Brace balance of the rendered output -/

theorem natDigitsAux_toNat (f : Nat) : ∀ n, ∀ d ∈ natDigitsAux f n,
    d.toNat < 58 := by
  induction f with
  | zero =>
    intro n d hd
    simp [natDigitsAux] at hd
  | succ f ih =>
    intro n d hd
    rw [natDigitsAux] at hd
    by_cases hn : n < 10
    · rw [if_pos hn] at hd
      simp at hd
      subst hd
      rw [toNat_ofNat_small _ (by omega)]
      omega
    · rw [if_neg hn] at hd
      rw [List.mem_append] at hd
      rcases hd with hd | hd
      · exact ih _ d hd
      · simp at hd
        subst hd
        rw [toNat_ofNat_small _ (by omega)]
        omega

theorem intToChars_toNat (i : Int) : ∀ d ∈ intToChars i, d.toNat < 58 := by
  intro d hd
  rw [intToChars] at hd
  split_ifs at hd
  · simp at hd
    rcases hd with hd | hd
    · subst hd
      decide
    · exact natDigitsAux_toNat _ _ d hd
  · exact natDigitsAux_toNat _ _ d hd

theorem renderParam_toNat (p : Option Int) : ∀ d ∈ renderParam p,
    d.toNat < 58 := by
  cases p with
  | none => intro d hd; simp [renderParam] at hd
  | some i =>
    intro d hd
    exact intToChars_toNat i d hd

theorem hexDigit_toNat (k : Nat) (hk : k < 16) : (hexDigit k).toNat ≤ 102 := by
  rw [hexDigit]
  by_cases h : k < 10
  · rw [if_pos h, toNat_ofNat_small _ (by omega)]
    omega
  · rw [if_neg h, toNat_ofNat_small _ (by omega)]
    omega

theorem hex2_toNat (m : Nat) : ∀ d ∈ hex2 m, d.toNat ≤ 102 := by
  intro d hd
  rw [hex2] at hd
  simp at hd
  rcases hd with hd | hd
  · subst hd
    exact hexDigit_toNat _ (Nat.mod_lt _ (by omega))
  · subst hd
    exact hexDigit_toNat _ (Nat.mod_lt _ (by omega))

theorem uEscape_toNat (n : Nat) : ∀ d ∈ uEscape n, d.toNat < 123 := by
  intro d hd
  rw [uEscape] at hd
  simp at hd
  rcases hd with hd | hd | hd | hd
  · subst hd; decide
  · subst hd; decide
  · have := intToChars_toNat _ d hd
    omega
  · subst hd; decide

theorem escapeChar_nobrace (c : Char) (b : Char)
    (hb : b.toNat = 123 ∨ b.toNat = 125) :
    countChar b (escapeChar c) = 0 := by
  have hbchar : b = obrace ∨ b = cbrace := by
    rcases hb with hb | hb
    · exact Or.inl (char_eq_of_toNat (by rw [hb, obrace_toNat]))
    · exact Or.inr (char_eq_of_toNat (by rw [hb, cbrace_toNat]))
  rw [escapeChar]
  split_ifs with h1 h2 h3
  · obtain ⟨_, _, ho, hc2, _⟩ := isSafeChar_parts h1
    have hcb : c ≠ b := by
      rcases hbchar with hbe | hbe
      · rw [hbe]; exact ho
      · rw [hbe]; exact hc2
    simp [countChar, hcb]
  · refine countChar_eq_zero ?_
    intro d hd
    simp at hd
    rcases hd with hd | hd | hd
    · subst hd
      refine char_ne_of_toNat ?_
      rcases hb with hb | hb <;> rw [hb] <;> decide
    · subst hd
      refine char_ne_of_toNat ?_
      rcases hb with hb | hb <;> rw [hb] <;> decide
    · have := hex2_toNat _ d hd
      refine char_ne_of_toNat ?_
      omega
  · refine countChar_eq_zero ?_
    intro d hd
    have := uEscape_toNat _ d hd
    refine char_ne_of_toNat ?_
    omega
  · refine countChar_eq_zero ?_
    intro d hd
    rw [List.mem_append] at hd
    have : d.toNat < 123 := by
      rcases hd with hd | hd
      · exact uEscape_toNat _ d hd
      · exact uEscape_toNat _ d hd
    refine char_ne_of_toNat ?_
    omega

theorem rctrl_nobrace (w : List Char) (p : Option Int) (b : Char)
    (hw : wordOk w = true) (hb : b.toNat = 123 ∨ b.toNat = 125) :
    countChar b (renderItem (.rctrl w p)) = 0 := by
  obtain ⟨_, halpha, _⟩ := wordOk_parts hw
  rw [renderItem]
  refine countChar_eq_zero ?_
  intro d hd
  simp at hd
  rcases hd with hd | hd | hd | hd
  · subst hd
    refine char_ne_of_toNat ?_
    rcases hb with hb | hb <;> rw [hb] <;> decide
  · have := alpha_toNat (halpha d hd)
    refine char_ne_of_toNat ?_
    omega
  · have := renderParam_toNat p d hd
    refine char_ne_of_toNat ?_
    omega
  · subst hd
    refine char_ne_of_toNat ?_
    rcases hb with hb | hb <;> rw [hb] <;> decide

theorem rtext_nobrace (s : List Char) (b : Char)
    (hb : b.toNat = 123 ∨ b.toNat = 125) :
    countChar b (renderItems (s.map .rchr)) = 0 := by
  induction s with
  | nil => rfl
  | cons c cs ih =>
    have he : renderItems ((c :: cs).map .rchr) =
        escapeChar c ++ renderItems (cs.map .rchr) := rfl
    rw [he, countChar_append, escapeChar_nobrace c b hb, ih]

mutual

theorem braceBal_N (n : RtfNode) (h : goodN n = true) :
    countChar obrace (renderItems (flatN n)) =
      countChar cbrace (renderItems (flatN n)) := by
  cases n with
  | group cs =>
    have hcs : goodL cs = true := h
    have he : flatN (.group cs) = .openB :: (flatL cs ++ [.closeB]) := rfl
    rw [he]
    have hr : renderItems (RItem.openB :: (flatL cs ++ [.closeB])) =
        renderItem .openB ++ (renderItems (flatL cs) ++
          renderItems [.closeB]) := by
      show renderItem .openB ++ renderItems (flatL cs ++ [.closeB]) = _
      rw [renderItems_append]
    rw [hr, countChar_append, countChar_append,
      countChar_append, countChar_append]
    have h1 : countChar obrace (renderItem .openB) = 1 := by decide
    have h2 : countChar cbrace (renderItem .openB) = 0 := by decide
    have h3 : countChar obrace (renderItems [RItem.closeB]) = 0 := by decide
    have h4 : countChar cbrace (renderItems [RItem.closeB]) = 1 := by decide
    rw [h1, h2, h3, h4, braceBal_L cs hcs]
    omega
  | ctrl w p =>
    have hw : wordOk w = true := h
    have he : flatN (.ctrl w p) = [.rctrl w p] := rfl
    rw [he]
    have hr : renderItems [RItem.rctrl w p] = renderItem (.rctrl w p) := by
      show renderItem (.rctrl w p) ++ renderItems [] = _
      rw [renderItems, List.append_nil]
    rw [hr, rctrl_nobrace w p obrace hw (Or.inl obrace_toNat),
      rctrl_nobrace w p cbrace hw (Or.inr cbrace_toNat)]
  | rtext s =>
    have he : flatN (.rtext s) = s.map .rchr := rfl
    rw [he, rtext_nobrace s obrace (Or.inl obrace_toNat),
      rtext_nobrace s cbrace (Or.inr cbrace_toNat)]

theorem braceBal_L (ns : List RtfNode) (h : goodL ns = true) :
    countChar obrace (renderItems (flatL ns)) =
      countChar cbrace (renderItems (flatL ns)) := by
  cases ns with
  | nil => rfl
  | cons n rest =>
    obtain ⟨hn, hrest⟩ := goodL_parts h
    have he : flatL (n :: rest) = flatN n ++ flatL rest := rfl
    rw [he, renderItems_append, countChar_append, countChar_append,
      braceBal_N n hn, braceBal_L rest hrest]

end

/-! ## CSV emission undone by CSV parsing -/

theorem padTo_length (w : Nat) (row : List (List Char)) :
    (padTo w row).length = w := by
  simp [padTo]
  omega

theorem csvQuotedField_escape (f : List Char) (rest : List Char)
    (hr : ∀ r2, rest ≠ '"' :: r2) :
    csvQuotedField (csvEscapeField f ++ ('"' :: rest)) = (f, rest) := by
  induction f with
  | nil =>
    have he : csvEscapeField [] = [] := rfl
    rw [he, List.nil_append]
    cases rest with
    | nil => rfl
    | cons c2 r2 =>
      have hc : ¬c2 = '"' := fun he2 => hr r2 (by rw [he2])
      simp [csvQuotedField, hc]
  | cons c cs ih =>
    by_cases hc : c = '"'
    · subst hc
      have he : csvEscapeField ('"' :: cs) ++ ('"' :: rest) =
          '"' :: '"' :: (csvEscapeField cs ++ ('"' :: rest)) := by
        simp [csvEscapeField]
      rw [he, csvQuotedField.eq_def]
      simp [ih]
    · have he : csvEscapeField (c :: cs) ++ ('"' :: rest) =
          c :: (csvEscapeField cs ++ ('"' :: rest)) := by
        simp [csvEscapeField, hc]
      rw [he, csvQuotedField.eq_def]
      simp [hc, ih]

theorem quoteNeeded_mem {f : List Char} (h : csvQuoteNeeded f = false) :
    ∀ x ∈ f, ((x ≠ ',' && x ≠ '\n') = true ∧ x ≠ '"') := by
  intro x hx
  simp only [csvQuoteNeeded, hasChar, Bool.or_eq_false_iff,
    List.any_eq_false] at h
  obtain ⟨⟨h1, h2⟩, h3⟩ := h
  have hx1 := h1 x hx
  have hx2 := h2 x hx
  have hx3 := h3 x hx
  simp at hx1 hx2 hx3
  constructor
  · simp [hx1, hx3]
  · exact hx2

theorem csvFieldScan_field (f : List Char) (tail : List Char)
    (htail : tail = [] ∨ (∃ r2, tail = ',' :: r2) ∨
      (∃ r2, tail = '\n' :: r2)) :
    csvFieldScan (csvField f ++ tail) = (f, tail) := by
  by_cases hq : csvQuoteNeeded f = true
  · have he : csvField f = '"' :: (csvEscapeField f ++ ['"']) := by
      simp [csvField, hq]
    rw [he, List.cons_append, List.append_assoc, List.singleton_append]
    simp only [csvFieldScan, if_true]
    have hr : ∀ r2, tail ≠ '"' :: r2 := by
      intro r2 hcon
      rcases htail with h0 | ⟨r3, h3⟩ | ⟨r3, h3⟩
      · rw [h0] at hcon
        exact List.noConfusion hcon
      · rw [h3] at hcon
        simp at hcon
      · rw [h3] at hcon
        simp at hcon
    exact csvQuotedField_escape f tail hr
  · rw [Bool.not_eq_true] at hq
    have hf : csvField f = f := by simp [csvField, hq]
    rw [hf]
    cases f with
    | nil =>
      rw [List.nil_append]
      rcases htail with h0 | ⟨r2, h2⟩ | ⟨r2, h2⟩
      · subst h0
        rfl
      · subst h2
        simp only [csvFieldScan]
        rw [if_neg (by decide)]
        simp [List.takeWhile, List.dropWhile]
      · subst h2
        simp only [csvFieldScan]
        rw [if_neg (by decide)]
        simp [List.takeWhile, List.dropWhile]
    | cons c cs2 =>
      have hmem := quoteNeeded_mem hq
      have hc : c ≠ '"' := (hmem c (by simp)).2
      rw [List.cons_append]
      simp only [csvFieldScan]
      rw [if_neg hc]
      rw [← List.cons_append]
      have hpred : ∀ y ∈ tail.take 1,
          (y ≠ ',' && y ≠ '\n') = false := by
        intro y hy
        rcases htail with h0 | ⟨r2, h2⟩ | ⟨r2, h2⟩
        · subst h0
          simp at hy
        · subst h2
          simp at hy
          subst hy
          decide
        · subst h2
          simp at hy
          subst hy
          decide
      have hall : ∀ x ∈ c :: cs2, (x ≠ ',' && x ≠ '\n') = true :=
        fun x hx => (hmem x hx).1
      rw [takeWhile_all_append hall hpred, dropWhile_all_append hall hpred]

theorem csvFieldsF_emit_end (fuel : Nat) (r : List (List Char)) (hr : r ≠ [])
    (hf : r.length ≤ fuel) : csvFieldsF fuel (csvRowEmit r) = (r, none) := by
  induction r generalizing fuel with
  | nil => exact absurd rfl hr
  | cons f rest2 ih =>
    cases fuel with
    | zero => simp at hf
    | succ fu =>
      cases rest2 with
      | nil =>
        have he : csvRowEmit [f] = csvField f := rfl
        rw [he]
        have hscan := csvFieldScan_field f [] (Or.inl rfl)
        rw [List.append_nil] at hscan
        simp [csvFieldsF, hscan]
      | cons f2 fs =>
        have he : csvRowEmit (f :: f2 :: fs) =
            csvField f ++ (',' :: csvRowEmit (f2 :: fs)) := rfl
        rw [he]
        have hscan := csvFieldScan_field f (',' :: csvRowEmit (f2 :: fs))
          (Or.inr (Or.inl ⟨_, rfl⟩))
        have hih := ih fu (by simp)
          (by simp only [List.length_cons] at hf ⊢; omega)
        simp [csvFieldsF, hscan, hih]

theorem csvFieldsF_emit_nl (fuel : Nat) (r : List (List Char)) (hr : r ≠ [])
    (hf : r.length ≤ fuel) (rest : List Char) :
    csvFieldsF fuel (csvRowEmit r ++ '\n' :: rest) = (r, some rest) := by
  induction r generalizing fuel with
  | nil => exact absurd rfl hr
  | cons f rest2 ih =>
    cases fuel with
    | zero => simp at hf
    | succ fu =>
      cases rest2 with
      | nil =>
        have he : csvRowEmit [f] = csvField f := rfl
        rw [he]
        have hscan := csvFieldScan_field f ('\n' :: rest)
          (Or.inr (Or.inr ⟨rest, rfl⟩))
        simp [csvFieldsF, hscan]
      | cons f2 fs =>
        have he : csvRowEmit (f :: f2 :: fs) =
            csvField f ++ (',' :: csvRowEmit (f2 :: fs)) := rfl
        rw [he, List.append_assoc, List.cons_append]
        have hscan := csvFieldScan_field f
          (',' :: (csvRowEmit (f2 :: fs) ++ '\n' :: rest))
          (Or.inr (Or.inl ⟨_, rfl⟩))
        have hih := ih fu (by simp)
          (by simp only [List.length_cons] at hf ⊢; omega)
        simp [csvFieldsF, hscan, hih]

theorem csvRowEmit_length (r : List (List Char)) :
    r.length ≤ (csvRowEmit r).length + 1 := by
  induction r with
  | nil => simp [csvRowEmit]
  | cons f rest ih =>
    cases rest with
    | nil => simp
    | cons f2 fs =>
      have he : csvRowEmit (f :: f2 :: fs) =
          csvField f ++ (',' :: csvRowEmit (f2 :: fs)) := rfl
      rw [he]
      simp only [List.length_cons, List.length_append] at ih ⊢
      omega

theorem csvRecordsF_emit (fuel : Nat) (t : List (List (List Char)))
    (ht : t ≠ []) (hrows : ∀ r ∈ t, r ≠ []) (hf : t.length ≤ fuel) :
    csvRecordsF fuel (csvEmit t) = t := by
  induction t generalizing fuel with
  | nil => exact absurd rfl ht
  | cons r rest ih =>
    cases fuel with
    | zero => simp at hf
    | succ fu =>
      cases rest with
      | nil =>
        have he : csvEmit [r] = csvRowEmit r := rfl
        rw [he]
        have hfields := csvFieldsF_emit_end ((csvRowEmit r).length + 1) r
          (hrows r (by simp)) (csvRowEmit_length r)
        simp [csvRecordsF, hfields]
      | cons r2 rs =>
        have he : csvEmit (r :: r2 :: rs) =
            csvRowEmit r ++ '\n' :: csvEmit (r2 :: rs) := rfl
        rw [he]
        have hlen : r.length ≤
            (csvRowEmit r ++ '\n' :: csvEmit (r2 :: rs)).length + 1 := by
          have := csvRowEmit_length r
          simp only [List.length_append, List.length_cons]
          omega
        have hfields := csvFieldsF_emit_nl _ r (hrows r (by simp)) hlen
          (csvEmit (r2 :: rs))
        have hih := ih fu (by simp)
          (fun r3 h3 => hrows r3 (List.mem_cons_of_mem _ h3))
          (by simp only [List.length_cons] at hf ⊢; omega)
        simp only [csvRecordsF]
        rw [hfields]
        simp [hih]

theorem csvEmit_length (t : List (List (List Char))) :
    t.length ≤ (csvEmit t).length + 1 := by
  induction t with
  | nil => simp [csvEmit]
  | cons r rest ih =>
    cases rest with
    | nil => simp
    | cons r2 rs =>
      have he : csvEmit (r :: r2 :: rs) =
          csvRowEmit r ++ '\n' :: csvEmit (r2 :: rs) := rfl
      rw [he]
      simp only [List.length_cons, List.length_append] at ih ⊢
      omega

theorem csvParse_emit (t : List (List (List Char))) (ht : t ≠ [])
    (hrows : ∀ r ∈ t, r ≠ []) : csvParse (csvEmit t) = t := by
  rw [csvParse]
  exact csvRecordsF_emit _ t ht hrows (by have := csvEmit_length t; omega)

theorem csvFieldsF_ne_nil (fu : Nat) (cs : List Char) :
    (csvFieldsF (fu + 1) cs).1 ≠ [] := by
  simp only [csvFieldsF]
  split <;> simp

theorem csvRecordsF_ne_nil (fu : Nat) (cs : List Char) :
    csvRecordsF (fu + 1) cs ≠ [] := by
  simp only [csvRecordsF]
  split <;> simp

theorem csvParse_ne_nil (cs : List Char) : csvParse cs ≠ [] :=
  csvRecordsF_ne_nil cs.length cs

theorem csvRecordsF_rows_ne_nil (fuel : Nat) (cs : List Char) :
    ∀ r ∈ csvRecordsF fuel cs, r ≠ [] := by
  induction fuel generalizing cs with
  | zero =>
    intro r hr
    simp [csvRecordsF] at hr
  | succ fu ih =>
    intro r hr
    simp only [csvRecordsF] at hr
    cases hm : (csvFieldsF (cs.length + 1) cs).2 with
    | some rest =>
      rw [hm] at hr
      simp at hr
      rcases hr with hr | hr
      · rw [hr]
        exact csvFieldsF_ne_nil cs.length cs
      · exact ih rest r hr
    | none =>
      rw [hm] at hr
      simp at hr
      rw [hr]
      exact csvFieldsF_ne_nil cs.length cs

theorem csvParse_rows_ne_nil (cs : List Char) :
    ∀ r ∈ csvParse cs, r ≠ [] :=
  csvRecordsF_rows_ne_nil (cs.length + 1) cs

theorem importCsv_rect (csv : List Char) (r0 : List (List Char))
    (rest : List (List (List Char))) (h : csvParse csv = r0 :: rest) :
    importCsvTable csv = r0 :: rest.map (padTo r0.length) := by
  rw [importCsvTable, h, rectangularize]

theorem importCsv_rows_length (csv : List Char) (r0 : List (List Char))
    (rest : List (List (List Char))) (h : csvParse csv = r0 :: rest) :
    ∀ row ∈ importCsvTable csv, row.length = r0.length := by
  rw [importCsv_rect csv r0 rest h]
  intro row hrow
  simp at hrow
  rcases hrow with hrow | ⟨r2, _, hrow⟩
  · rw [hrow]
  · rw [← hrow, padTo_length]

theorem importCsv_rows_ne_nil (csv : List Char) (r0 : List (List Char))
    (rest : List (List (List Char))) (h : csvParse csv = r0 :: rest) :
    ∀ row ∈ importCsvTable csv, row ≠ [] := by
  intro row hrow hcon
  have hlen := importCsv_rows_length csv r0 rest h row hrow
  rw [hcon] at hlen
  have hr0 : r0 ≠ [] := csvParse_rows_ne_nil csv r0 (by rw [h]; simp)
  have : r0.length = 0 := hlen.symm
  exact hr0 (List.length_eq_zero.mp this)

theorem export_import_parse (csv : List Char) (r0 : List (List Char))
    (rest : List (List (List Char))) (h : csvParse csv = r0 :: rest) :
    csvParse (exportCsvTable (importCsvTable csv)) = importCsvTable csv := by
  rw [exportCsvTable]
  refine csvParse_emit _ ?_ ?_
  · rw [importCsv_rect csv r0 rest h]
    simp
  · exact importCsv_rows_ne_nil csv r0 rest h

/-! ## Pipeline composition: the emitted RTF parses back to the same IR -/

theorem rtfToIr_emitter (d : Doc) :
    rtfToIr (rtfEmitter d) = some (normDoc d) := by
  have hready := normDoc_ready d
  have hgood := goodRoot (normDoc d) hready
  have hroot : emitRoot (normDoc d) = .group (.ctrl wRTF (some 1) ::
      .ctrl wANSI none :: .ctrl wDEFF (some 0) :: fontTblNode ::
      colorTblNode :: emitBs (normDoc d)) := rfl
  have hparse := parseRtf_render hgood
  rw [rtfEmitter, rtfToIr, hroot, hparse, ← hroot]
  simp [exRoot_emit (normDoc d) hready]

theorem rtfToMarkdownCore_emitter (d : Doc) :
    rtfToMarkdownCore (rtfEmitter d) =
      some (emitMarkdownDoc (normDoc d)) := by
  rw [rtfToMarkdownCore, rtfToIr_emitter]
  simp

/-! ## Batch driver behaviour -/

theorem countSome_append (a b : List (Option (List Char))) :
    countSome (a ++ b) = countSome a + countSome b := by
  induction a with
  | nil => simp [countSome]
  | cons x rest ih =>
    cases x with
    | none => simp [countSome, ih]
    | some v => simp [countSome, ih]; omega

theorem countSome_map_all_some (l : List (List Char))
    (conv : List Char → Option (List Char)) (h : ∀ x ∈ l, conv x ≠ none) :
    countSome (l.map conv) = l.length := by
  induction l with
  | nil => rfl
  | cons x rest ih =>
    have hx := h x (by simp)
    cases hc : conv x with
    | none => exact absurd hc hx
    | some v =>
      have he : (x :: rest).map conv = conv x :: rest.map conv := rfl
      rw [he, hc]
      have hcs : countSome (some v :: rest.map conv) =
          1 + countSome (rest.map conv) := rfl
      rw [hcs, ih (fun y hy => h y (List.mem_cons_of_mem _ hy))]
      simp [List.length_cons]
      omega

theorem runBatchAux_nocancel (conv : List Char → Option (List Char))
    (inputs : List (List Char)) (p : Nat) :
    runBatchAux conv (cancelFlag none) inputs p =
      ⟨inputs.map conv, List.range' p (inputs.length + 1),
        p + inputs.length, false⟩ := by
  induction inputs generalizing p with
  | nil => simp [runBatchAux, List.range']
  | cons x xs ih =>
    have hflag : cancelFlag none p = false := rfl
    simp only [runBatchAux, hflag, Bool.false_eq_true, if_false, ih (p + 1)]
    simp [List.range'_succ, List.length_cons]
    omega

theorem runBatchAux_spec (conv : List Char → Option (List Char))
    (flag : Nat → Bool) (inputs : List (List Char)) (p : Nat) :
    p ≤ (runBatchAux conv flag inputs p).progress ∧
    (runBatchAux conv flag inputs p).progress ≤ p + inputs.length ∧
    (runBatchAux conv flag inputs p).trace =
      List.range' p ((runBatchAux conv flag inputs p).progress + 1 - p) := by
  induction inputs generalizing p with
  | nil =>
    refine ⟨Nat.le_refl p, by simp [runBatchAux], ?_⟩
    simp [runBatchAux, List.range']
  | cons x xs ih =>
    by_cases hflag : flag p = true
    · simp only [runBatchAux, hflag, if_true]
      refine ⟨Nat.le_refl p, by simp, ?_⟩
      simp [List.range']
    · rw [Bool.not_eq_true] at hflag
      obtain ⟨ih1, ih2, ih3⟩ := ih (p + 1)
      simp only [runBatchAux, hflag, Bool.false_eq_true, if_false]
      refine ⟨by omega, by simp only [List.length_cons]; omega, ?_⟩
      rw [ih3]
      have hn : (runBatchAux conv flag xs (p + 1)).progress + 1 - p =
          ((runBatchAux conv flag xs (p + 1)).progress + 1 - (p + 1)) + 1 := by
        omega
      rw [hn, List.range'_succ]

theorem chain_le_range' (s n : Nat) :
    List.Chain' (fun a b => a ≤ b) (List.range' s n) := by
  induction n generalizing s with
  | zero => simp [List.range']
  | succ m ih =>
    rw [List.range'_succ]
    cases m with
    | zero => simp [List.range']
    | succ m2 =>
      rw [List.range'_succ]
      refine List.Chain'.cons (by omega) ?_
      rw [← List.range'_succ]
      exact ih (s + 1)

theorem runBatchAux_cancelSpec (conv : List Char → Option (List Char))
    (k : Nat) (inputs : List (List Char)) (p : Nat) :
    (runBatchAux conv (cancelFlag (some k)) inputs p).outputs =
        (inputs.take (k - p)).map conv ++
          (inputs.drop (k - p)).map (fun _ => none) ∧
    (runBatchAux conv (cancelFlag (some k)) inputs p).progress =
        p + min (k - p) inputs.length ∧
    ((runBatchAux conv (cancelFlag (some k)) inputs p).cancelled = true ↔
        min (k - p) inputs.length < inputs.length) := by
  induction inputs generalizing p with
  | nil =>
    refine ⟨by simp [runBatchAux], by simp [runBatchAux], ?_⟩
    simp [runBatchAux]
  | cons x xs ih =>
    by_cases hk : k ≤ p
    · have hflag : cancelFlag (some k) p = true := by
        simp [cancelFlag, hk]
      have hkp : k - p = 0 := by omega
      simp only [runBatchAux, hflag, if_true, hkp]
      refine ⟨by simp, by simp, ?_⟩
      simp
    · have hflag : cancelFlag (some k) p = false := by
        simp [cancelFlag]
        omega
      obtain ⟨ih1, ih2, ih3⟩ := ih (p + 1)
      have hs : k - p = (k - (p + 1)) + 1 := by omega
      simp only [runBatchAux, hflag, Bool.false_eq_true, if_false]
      refine ⟨?_, ?_, ?_⟩
      · simp only [hs, List.take_succ_cons, List.drop_succ_cons,
          List.map_cons, List.cons_append]
        rw [ih1]
      · simp only [ih2, List.length_cons]
        omega
      · simp only [ih3, List.length_cons]
        constructor
        · intro hlt
          omega
        · intro hlt
          omega

/-! # Claim theorems -/

theorem ffiConvert_fail (core : List Char → Option (List Char))
    (input : Option (List Nat))
    (h : (ffiConvert core input).code ≠ lbSuccess) :
    (ffiConvert core input).output = none := by
  cases input with
  | none => rfl
  | some bs =>
    cases hd : utf8Decode bs with
    | none => simp [ffiConvert, hd]
    | some cs =>
      cases hc : core cs with
      | none => simp [ffiConvert, hd, hc]
      | some out =>
        exact absurd (by simp [ffiConvert, hd, hc, lbSuccess]) h

/-- C1: converting a Markdown document to RTF with
`legacybridge_markdown_to_rtf` and converting that RTF back with
`legacybridge_rtf_to_markdown` both succeed, and the IR recovered from the
RTF is semantically equivalent (equal normal forms, not necessarily equal
text) to the IR of the original document. -/
theorem C1_markdown_rtf_round_trip (bs : List Nat) (md : List Char)
    (h : utf8Decode bs = some md) :
    ∃ rtfBytes rtfText mdOut ir2,
      legacybridge_markdown_to_rtf (some bs) = ⟨lbSuccess, some rtfBytes⟩ ∧
      utf8Decode rtfBytes = some rtfText ∧
      legacybridge_rtf_to_markdown (some rtfBytes) =
        ⟨lbSuccess, some mdOut⟩ ∧
      rtfToIr rtfText = some ir2 ∧
      irEquiv (parseMarkdownDoc md) ir2 := by
  refine ⟨utf8Encode (rtfEmitter (parseMarkdownDoc md)),
    rtfEmitter (parseMarkdownDoc md),
    utf8Encode (emitMarkdownDoc (normDoc (parseMarkdownDoc md))),
    normDoc (parseMarkdownDoc md), ?_, ?_, ?_, ?_, ?_⟩
  · simp [legacybridge_markdown_to_rtf, ffiConvert, h, markdownToRtfCore,
      rtfEmitter]
  · exact utf8_roundtrip _
  · have hdec := utf8_roundtrip (rtfEmitter (parseMarkdownDoc md))
    simp [legacybridge_rtf_to_markdown, ffiConvert, hdec,
      rtfToMarkdownCore_emitter]
  · exact rtfToIr_emitter (parseMarkdownDoc md)
  · rw [irEquiv, normDoc_idem]

theorem C1_markdown_rtf_round_trip_witness :
    utf8Decode (utf8Encode (str "# Hi **x**")) = some (str "# Hi **x**") ∧
    (∃ rtfBytes rtfText mdOut ir2,
      legacybridge_markdown_to_rtf (some (utf8Encode (str "# Hi **x**"))) =
        ⟨lbSuccess, some rtfBytes⟩ ∧
      utf8Decode rtfBytes = some rtfText ∧
      legacybridge_rtf_to_markdown (some rtfBytes) =
        ⟨lbSuccess, some mdOut⟩ ∧
      rtfToIr rtfText = some ir2 ∧
      irEquiv (parseMarkdownDoc (str "# Hi **x**")) ir2) :=
  ⟨by decide, C1_markdown_rtf_round_trip (utf8Encode (str "# Hi **x**"))
    (str "# Hi **x**") (by decide)⟩

/-- C2: a batch whose inputs are `pre ++ bad :: post`, where the conversion
fails exactly on `bad`, returns the per-item conversion results in order
with only the malformed slot absent, counts N-1 successes, and leaves the
malformed item's output slot empty; the failure aborts nothing. -/
theorem C2_batch_isolation (pre post : List (List Char)) (bad : List Char)
    (hbad : rtfToMarkdownCore bad = none)
    (hpre : ∀ x ∈ pre, rtfToMarkdownCore x ≠ none)
    (hpost : ∀ x ∈ post, rtfToMarkdownCore x ≠ none) :
    (legacybridge_batch_rtf_to_markdown (pre ++ bad :: post) none).outputs =
      pre.map rtfToMarkdownCore ++ none :: post.map rtfToMarkdownCore ∧
    countSome (legacybridge_batch_rtf_to_markdown
        (pre ++ bad :: post) none).outputs =
      (pre ++ bad :: post).length - 1 ∧
    (legacybridge_batch_rtf_to_markdown
        (pre ++ bad :: post) none).outputs[pre.length]? = some none := by
  have houts : (legacybridge_batch_rtf_to_markdown
      (pre ++ bad :: post) none).outputs =
      (pre ++ bad :: post).map rtfToMarkdownCore := by
    rw [legacybridge_batch_rtf_to_markdown, runBatch, runBatchAux_nocancel]
  have hmap : (pre ++ bad :: post).map rtfToMarkdownCore =
      pre.map rtfToMarkdownCore ++ none :: post.map rtfToMarkdownCore := by
    simp [hbad]
  refine ⟨by rw [houts, hmap], ?_, ?_⟩
  · rw [houts, hmap, countSome_append]
    have h1 := countSome_map_all_some pre _ hpre
    have h2 := countSome_map_all_some post _ hpost
    have h3 : countSome (none :: post.map rtfToMarkdownCore) =
        countSome (post.map rtfToMarkdownCore) := rfl
    rw [h1, h3, h2]
    simp only [List.length_append, List.length_cons]
    omega
  · rw [houts, hmap]
    have hlen : (pre.map rtfToMarkdownCore).length = pre.length := by
      simp
    rw [List.getElem?_append_right (by rw [hlen]), hlen, Nat.sub_self]
    simp

theorem C2_batch_isolation_witness :
    rtfToMarkdownCore (str "\x7b") = none ∧
    countSome (legacybridge_batch_rtf_to_markdown
        ([str "\x7b\x7d"] ++ str "\x7b" :: [str "\x7b\x7d"]) none).outputs =
      ([str "\x7b\x7d"] ++ str "\x7b" :: [str "\x7b\x7d"]).length - 1 :=
  ⟨by decide,
    (C2_batch_isolation [str "\x7b\x7d"] [str "\x7b\x7d"] (str "\x7b")
      (by decide)
      (by intro x hx; rw [List.mem_singleton] at hx; subst hx; decide)
      (by intro x hx; rw [List.mem_singleton] at hx; subst hx; decide)).2.1⟩

/-- C3: for every IR input, the RTF emitter's output text contains as many
opening braces as closing braces. -/
theorem C3_brace_balance (d : Doc) :
    countChar obrace (rtfEmitter d) = countChar cbrace (rtfEmitter d) := by
  have hg : goodN (emitRoot (normDoc d)) = true :=
    goodRoot (normDoc d) (normDoc_ready d)
  rw [rtfEmitter, renderRtfTree]
  exact braceBal_N _ hg

/-- C4: within one batch session the successively observable progress values
form the run 0, 1, ..., final; they are monotonically non-decreasing, never
exceed the input count, and each step corresponds to one completed item. -/
theorem C4_progress_monotone (inputs : List (List Char))
    (cancelAt : Option Nat) :
    List.Chain' (fun a b => a ≤ b)
      (legacybridge_batch_rtf_to_markdown inputs cancelAt).trace ∧
    (∀ v ∈ (legacybridge_batch_rtf_to_markdown inputs cancelAt).trace,
      v ≤ inputs.length) ∧
    (legacybridge_batch_rtf_to_markdown inputs cancelAt).trace =
      List.range' 0 (legacybridge_get_batch_progress
        (legacybridge_batch_rtf_to_markdown inputs cancelAt) + 1) ∧
    legacybridge_get_batch_progress
      (legacybridge_batch_rtf_to_markdown inputs cancelAt) ≤
      inputs.length := by
  obtain ⟨h1, h2, h3⟩ := runBatchAux_spec rtfToMarkdownCore
    (cancelFlag cancelAt) inputs 0
  have he : legacybridge_batch_rtf_to_markdown inputs cancelAt =
      runBatchAux rtfToMarkdownCore (cancelFlag cancelAt) inputs 0 := rfl
  have hp : legacybridge_get_batch_progress
      (legacybridge_batch_rtf_to_markdown inputs cancelAt) =
      (runBatchAux rtfToMarkdownCore (cancelFlag cancelAt) inputs 0).progress :=
    rfl
  rw [Nat.sub_zero] at h3
  refine ⟨?_, ?_, ?_, ?_⟩
  · rw [he, h3]
    exact chain_le_range' _ _
  · intro v hv
    rw [he, h3, List.mem_range'_1] at hv
    omega
  · rw [hp, he, h3]
  · rw [hp]
    omega

/-- C5: with a cancel request arriving at item boundary `k`, every item
before the boundary runs to completion with its output recorded, every later
item is never started (its slot stays empty), the final progress equals the
number of items actually completed, and the session reports cancelled
exactly when items remained. -/
theorem C5_cancellation_boundary (inputs : List (List Char)) (k : Nat) :
    (legacybridge_batch_rtf_to_markdown inputs (some k)).outputs =
      (inputs.take k).map rtfToMarkdownCore ++
        (inputs.drop k).map (fun _ => none) ∧
    legacybridge_get_batch_progress
      (legacybridge_batch_rtf_to_markdown inputs (some k)) =
      min k inputs.length ∧
    ((legacybridge_batch_rtf_to_markdown inputs (some k)).cancelled = true ↔
      k < inputs.length) := by
  obtain ⟨h1, h2, h3⟩ := runBatchAux_cancelSpec rtfToMarkdownCore k inputs 0
  rw [Nat.sub_zero] at h1 h2 h3
  have he : legacybridge_batch_rtf_to_markdown inputs (some k) =
      runBatchAux rtfToMarkdownCore (cancelFlag (some k)) inputs 0 := rfl
  have hp : legacybridge_get_batch_progress
      (legacybridge_batch_rtf_to_markdown inputs (some k)) =
      (runBatchAux rtfToMarkdownCore (cancelFlag (some k)) inputs 0).progress :=
    rfl
  refine ⟨by rw [he, h1], ?_, ?_⟩
  · rw [hp, h2]
    omega
  · rw [he, h3]
    omega

/-- C6: a null input pointer yields the `NullPointer` error code and invalid
encoded input yields the `InvalidUtf8` error code, for both conversion
directions, with no output produced; both checks precede any parsing. -/
theorem C6_null_and_invalid_input (bs : List Nat)
    (h : utf8Decode bs = none) :
    legacybridge_rtf_to_markdown none = ⟨lbErrorNullPointer, none⟩ ∧
    legacybridge_markdown_to_rtf none = ⟨lbErrorNullPointer, none⟩ ∧
    legacybridge_rtf_to_markdown (some bs) = ⟨lbErrorInvalidUtf8, none⟩ ∧
    legacybridge_markdown_to_rtf (some bs) = ⟨lbErrorInvalidUtf8, none⟩ := by
  refine ⟨rfl, rfl, ?_, ?_⟩
  · simp [legacybridge_rtf_to_markdown, ffiConvert, h]
  · simp [legacybridge_markdown_to_rtf, ffiConvert, h]

theorem C6_null_and_invalid_input_witness :
    utf8Decode [255] = none ∧
    legacybridge_rtf_to_markdown (some [255]) = ⟨lbErrorInvalidUtf8, none⟩ :=
  ⟨by decide, (C6_null_and_invalid_input [255] (by decide)).2.2.1⟩

/-- C7: importing CSV text whose parse has header row `r0` produces a table
whose rows all have exactly the header's width (short rows padded, long rows
truncated), and exporting that table back to CSV parses to the very same
table, so every exported row has the declared column count. -/
theorem C7_csv_rectangular (csv : List Char) (r0 : List (List Char))
    (rest : List (List (List Char))) (h : csvParse csv = r0 :: rest) :
    (∀ row ∈ importCsvTable csv, row.length = r0.length) ∧
    csvParse (exportCsvTable (importCsvTable csv)) = importCsvTable csv ∧
    (∀ row ∈ csvParse (exportCsvTable (importCsvTable csv)),
      row.length = r0.length) := by
  refine ⟨importCsv_rows_length csv r0 rest h,
    export_import_parse csv r0 rest h, ?_⟩
  intro row hrow
  rw [export_import_parse csv r0 rest h] at hrow
  exact importCsv_rows_length csv r0 rest h row hrow

theorem C7_csv_rectangular_witness :
    csvParse (str "a,b\nc\nd,e,f") =
      [str "a", str "b"] :: [[str "c"], [str "d", str "e", str "f"]] ∧
    csvParse (exportCsvTable (importCsvTable (str "a,b\nc\nd,e,f"))) =
      importCsvTable (str "a,b\nc\nd,e,f") :=
  ⟨by decide,
    (C7_csv_rectangular (str "a,b\nc\nd,e,f") [str "a", str "b"]
      [[str "c"], [str "d", str "e", str "f"]] (by decide)).2.1⟩

/-- C8: template creation succeeds exactly when the candidate skeleton
contains exactly one content placeholder sentinel; zero or multiple
placeholders make it fail. -/
theorem C8_template_placeholder (reg : TemplateReg) (name skel : List Char) :
    (legacybridge_create_rtf_template reg name skel).1 = lbSuccess ↔
      countOcc contentPlaceholder skel = 1 := by
  rw [legacybridge_create_rtf_template]
  by_cases h : countOcc contentPlaceholder skel = 1
  · simp [h]
  · have hne : lbErrorConversion ≠ lbSuccess := by decide
    simp [h, hne]

/-- C9: the last-error accessor writes the whole message and returns its
length (terminator excluded) whenever message plus terminator fit in the
caller's buffer, and reports the -1 sentinel with nothing written when the
buffer is too small; it never truncates silently. -/
theorem C9_last_error_buffer (msg : List Char) (bufferSize : Int) :
    ((msg.length : Int) + 1 ≤ bufferSize →
      legacybridge_get_last_error msg bufferSize =
        ⟨(msg.length : Int), msg⟩) ∧
    (¬ ((msg.length : Int) + 1 ≤ bufferSize) →
      legacybridge_get_last_error msg bufferSize = ⟨-1, []⟩) := by
  constructor
  · intro h
    rw [legacybridge_get_last_error, if_pos h]
  · intro h
    rw [legacybridge_get_last_error, if_neg h]

theorem C9_last_error_buffer_witness :
    legacybridge_get_last_error (str "err") 10 = ⟨3, str "err"⟩ ∧
    legacybridge_get_last_error (str "err") 3 = ⟨-1, []⟩ :=
  ⟨(C9_last_error_buffer (str "err") 10).1 (by decide),
   (C9_last_error_buffer (str "err") 3).2 (by decide)⟩

/-- C10: whenever a single-document conversion call returns a non-success
code, the output slot stays empty, so a caller never has a buffer to release
after a failed call. -/
theorem C10_failed_conversion_null_output (input : Option (List Nat)) :
    ((legacybridge_rtf_to_markdown input).code ≠ lbSuccess →
      (legacybridge_rtf_to_markdown input).output = none) ∧
    ((legacybridge_markdown_to_rtf input).code ≠ lbSuccess →
      (legacybridge_markdown_to_rtf input).output = none) :=
  ⟨fun h => ffiConvert_fail rtfToMarkdownCore input h,
   fun h => ffiConvert_fail markdownToRtfCore input h⟩

theorem C10_failed_conversion_null_output_witness :
    (legacybridge_rtf_to_markdown none).code ≠ lbSuccess ∧
    (legacybridge_rtf_to_markdown none).output = none :=
  ⟨by decide, (C10_failed_conversion_null_output none).1 (by decide)⟩

end LegacyBridge
